import Mathlib

/-! reglang: DFA, NFA and Regex.

A shallow embedding of the automata library (`DFA.h`, `NFA.h`, `Regex.cpp`,
`STL_Helper.h`) together with theorems about it.

Modelling conventions.

* `std::unordered_set<T>` is a `List T` without repetitions and
  `std::unordered_map<K, V>` is an association list `List (K × V)`.  The
  enumeration order of a container is its insertion order: `insert` on a
  set appends a new element, `m[k] = v` on a map replaces the value in place
  or appends a new entry, `begin()` is the head of the list.
* `std::string` is `List Char`.
* A thrown exception is `Except.error` carrying the name of the exception class.
  Two further outcomes are errors of the model: `undefined_behaviour` (the
  source dereferences `end()`, a null pointer or an index out of range, or an
  `int` overflows) and `out_of_fuel` (a loop of the model exhausted its
  iteration budget).
* An `int` has 32 bits.  The index and the bound of the loop of
  `construct_nfa_recursive`, the counter of `get_next_state_str`, the bounds
  read by `get_power_string` and the size `int n = str.size()` of
  `operator()(std::string)` are numbers with an explicit range: the conversion
  of a size to `int` is `to_int` (the size modulo 2^32, read as a signed
  number) and a sum beyond `INT_MAX` is `undefined_behaviour`.
* A key of type `std::unordered_set<Q>` (a state of the cached DFA) is compared
  as a list, order included, which is the strictest reading of hashing by
  stringification; `get_ptr_to_member` is what makes the keys agree.
-/

set_option linter.unusedSectionVars false

namespace Reglang

/-- Exception classes of the library, `std::length_error`, and the two extra
outcomes of the model. -/
inductive Error where
  | DFA_Invalid_Sigma_Character_Error
  | DFA_To_NFA_Invalid_Epsilon_Error
  | DFA_Sigma_Mismatch_Intersection_Error
  | NFA_Epsilon_Not_In_Sigma_Error
  | NFA_Invalid_Sigma_Character_Error
  | NFA_Invalid_State_Error
  | NFA_Invalid_Kleene_Star_Initial_State_Error
  | NFA_To_Regex_Invalid_qi_Error
  | NFA_To_Regex_Invalid_qa_Error
  | NFA_Union_Sigma_Mismatch_Error
  | NFA_Concatenation_Sigma_Mismatch_Error
  | Regex_Invalid_Escape_Character_Error
  | Regex_Invalid_Range_Error
  | Regex_Invalid_Power_Error
  | Regex_Unbalanced_Parenthesized_Expression_Error
  | Regex_NFA_Construction_Error
  | length_error
  | undefined_behaviour
  | out_of_fuel
  deriving DecidableEq, Repr

deriving instance DecidableEq for Except

/-! ## Containers -/

section Containers

variable {α κ ν : Type}

/-- The call `s.insert(x)` on an `unordered_set`. -/
def set_insert [DecidableEq α] (s : List α) (x : α) : List α :=
  if x ∈ s then s else s ++ [x]

/-- The call `m.find(k)` on an `unordered_map`: `none` stands for `end()`. -/
def map_find [DecidableEq κ] : List (κ × ν) → κ → Option ν
  | [], _ => none
  | (k', v) :: m, k => if k' = k then some v else map_find m k

/-- The assignment `m[k] = v` on an `unordered_map`. -/
def map_assign [DecidableEq κ] : List (κ × ν) → κ → ν → List (κ × ν)
  | [], k, v => [(k, v)]
  | (k', v') :: m, k, v =>
    if k' = k then (k, v) :: m else (k', v') :: map_assign m k v

/-- The helper `helper::merge(s0, s1)` of `STL_Helper.h`. -/
def merge [DecidableEq α] (s0 s1 : List α) : List α :=
  s1.foldl set_insert s0

end Containers

/-! ## DFA.h -/

/-- The member variables of `DFA<S_t, Q_t>`. -/
structure DFA (S Q : Type) where
  sigma_ : List S
  states_ : List Q
  initial_state_ : Q
  accept_states_ : List Q
  delta_ : List ((Q × S) × Q)
  deriving DecidableEq, Repr

namespace DFA

variable {S Q : Type} [DecidableEq S] [DecidableEq Q]

/-- The member `is_accepting`. -/
def is_accepting (M : DFA S Q) (q : Q) : Bool :=
  decide (q ∈ M.accept_states_)

/-- The member `validate`. -/
def validate (M : DFA S Q) (s : S) : Except Error Unit :=
  if s ∈ M.sigma_ then .ok () else .error .DFA_Invalid_Sigma_Character_Error

/-- The expression `delta_.find({q, c})->second`; undefined when the key is absent. -/
def delta_at (M : DFA S Q) (q : Q) (c : S) : Except Error Q :=
  match map_find M.delta_ (q, c) with
  | some r => .ok r
  | none => .error .undefined_behaviour

/-- The loop of `operator()`, started in `state`. -/
def run (M : DFA S Q) : Q → List S → Except Error Q
  | state, [] => .ok state
  | state, c :: str =>
    match M.validate c with
    | .error e => .error e
    | .ok _ =>
      match M.delta_at state c with
      | .error e => .error e
      | .ok next => run M next str

/-- The member `operator()(const std::vector<S_t>&)`. -/
def accepts (M : DFA S Q) (str : List S) : Except Error Bool :=
  match M.run M.initial_state_ str with
  | .error e => .error e
  | .ok state => .ok (M.is_accepting state)

/-- The member `compliment`. -/
def compliment (M : DFA S Q) : DFA S Q :=
  { M with
    accept_states_ :=
      M.states_.foldl
        (fun new_accept_states q =>
          if !M.is_accepting q then set_insert new_accept_states q
          else new_accept_states)
        [] }

/-- The loop over `delta_` in `valid`: `none` stands for `return false`,
the argument `state_checks` is the map of that name. -/
def valid_delta (M : DFA S Q) :
    List ((Q × S) × Q) → List (Q × List S) → Option (List (Q × List S))
  | [], state_checks => some state_checks
  | ((q, c), r) :: rest, state_checks =>
    if q ∉ M.states_ then none
    else if c ∉ M.sigma_ then none
    else
      let cur := (map_find state_checks q).getD []
      if c ∈ cur then none
      else
        let state_checks := map_assign state_checks q (set_insert cur c)
        if r ∉ M.states_ then none
        else valid_delta M rest state_checks

/-- The member `valid`. -/
def valid (M : DFA S Q) : Bool :=
  if M.states_.isEmpty then false
  else if !(M.accept_states_.all (fun q => decide (q ∈ M.states_))) then false
  else if M.initial_state_ ∉ M.states_ then false
  else
    match M.valid_delta M.delta_ [] with
    | none => false
    | some state_checks =>
      if state_checks.length ≠ M.states_.length then false
      else state_checks.all (fun p => decide (p.2.length = M.sigma_.length))

/-- The first loop of `minimal`: `initial_state_` and every target of a transition. -/
def reachable_states (M : DFA S Q) : Except Error (List Q) :=
  M.states_.foldlM
    (fun acc q =>
      M.sigma_.foldlM
        (fun acc c =>
          match M.delta_at q c with
          | .error e => .error e
          | .ok next_state => .ok (set_insert acc next_state))
        acc)
    [M.initial_state_]

/-- The map `locations` of `minimal`: each state of each block is assigned the
index of its block, which stands for the address `&(old_p->at(k))`. -/
def locations_from : Nat → List (List Q) → List (Q × Nat) → List (Q × Nat)
  | _, [], loc => loc
  | k, block :: p, loc =>
    locations_from (k + 1) p (block.foldl (fun loc q => map_assign loc q k) loc)

/-- The map `locations` after the loop that fills it from the partition `p`. -/
def locations (p : List (List Q)) : List (Q × Nat) :=
  locations_from 0 p []

/-- The flag `equivalent` of `minimal`, computed over the symbols `cs`;
`locations[...]` of an absent state is the null pointer `none`. -/
def equivalent (M : DFA S Q) (loc : List (Q × Nat)) (q first : Q) :
    List S → Except Error Bool
  | [] => .ok true
  | c :: cs =>
    match M.delta_at q c, M.delta_at first c with
    | .ok a, .ok b =>
      if map_find loc a ≠ map_find loc b then .ok false
      else equivalent M loc q first cs
    | .error e, _ => .error e
    | _, .error e => .error e

/-- One block `old_p->at(k)` is split into `new_p->at(k * 2)` and
`new_p->at(k * 2 + 1)`. -/
def split_block (M : DFA S Q) (loc : List (Q × Nat)) :
    List Q → Except Error (List Q × List Q)
  | [] => .error .undefined_behaviour
  | first :: rest =>
    rest.foldlM
      (fun acc q =>
        match M.equivalent loc q first M.sigma_ with
        | .error e => .error e
        | .ok true => .ok (set_insert acc.1 q, acc.2)
        | .ok false => .ok (acc.1, set_insert acc.2 q))
      ([first], [])

/-- The body of the `while (true)` loop of `minimal` up to the removal of the
empty sets: the new partition. -/
def refine (M : DFA S Q) (old_p : List (List Q)) : Except Error (List (List Q)) :=
  match old_p.mapM (M.split_block (locations old_p)) with
  | .error e => .error e
  | .ok halves =>
    .ok ((halves.flatMap (fun h => [h.1, h.2])).filter (fun b => !b.isEmpty))

/-- The `while (true)` loop of `minimal`; the result is `*old_p` at the `break`. -/
def refine_loop (M : DFA S Q) : Nat → List (List Q) → Except Error (List (List Q))
  | 0, _ => .error .out_of_fuel
  | fuel + 1, old_p =>
    match M.refine old_p with
    | .error e => .error e
    | .ok new_p =>
      if old_p.length = new_p.length then .ok old_p
      else refine_loop M fuel new_p

/-- The expression `*(old_p->at(k).begin())`. -/
def block_first : List Q → Except Error Q
  | [] => .error .undefined_behaviour
  | first :: _ => .ok first

/-- The loop "find initial state and insert all new states" of `minimal`,
on the triple `(new_states, new_initial_state, new_accept_states)`. -/
def collect_blocks (M : DFA S Q) (p : List (List Q))
    (new_states : List Q) : Except Error (List Q × Option Q × List Q) :=
  p.foldlM
    (fun acc block =>
      match block_first block with
      | .error e => .error e
      | .ok first =>
        let new_initial_state :=
          if M.initial_state_ ∈ block then some first else acc.2.1
        let new_states := set_insert acc.1 first
        let new_accept_states :=
          if first ∈ M.accept_states_ then set_insert acc.2.2 first else acc.2.2
        .ok (new_states, new_initial_state, new_accept_states))
    (new_states, none, [])

/-- The loop "Adjust delta" of `minimal`. -/
def adjust_delta (M : DFA S Q) (p : List (List Q)) :
    Except Error (List ((Q × S) × Q)) :=
  p.foldlM
    (fun new_delta set =>
      match block_first set with
      | .error e => .error e
      | .ok first =>
        M.sigma_.foldlM
          (fun new_delta c =>
            match M.delta_at first c with
            | .error e => .error e
            | .ok new_q =>
              match map_find (locations p) new_q with
              | none => .error .undefined_behaviour
              | some k =>
                match block_first (p.getD k []) with
                | .error e => .error e
                | .ok rep => .ok (map_assign new_delta (first, c) rep))
          new_delta)
    []

/-- The member `minimal`.  The loop that erases from `new_states` while
iterating over it is taken as the removal of every state outside
`reachable_states`; a `new_initial_state` that was never assigned is reported
as undefined. -/
def minimal (M : DFA S Q) : Except Error (DFA S Q) :=
  match M.reachable_states with
  | .error e => .error e
  | .ok reachable_states =>
    let new_states := M.states_.filter (fun q => decide (q ∈ reachable_states))
    let old_p0 := M.states_.filter (fun q => decide (q ∈ M.accept_states_))
    let old_p1 := M.states_.filter (fun q => !decide (q ∈ M.accept_states_))
    let self_loops :=
      M.sigma_.foldl
        (fun new_delta c => map_assign new_delta (M.initial_state_, c) M.initial_state_)
        []
    if old_p0.length = 0 then
      .ok { sigma_ := M.sigma_
            states_ := set_insert new_states M.initial_state_
            initial_state_ := M.initial_state_
            accept_states_ := [M.initial_state_]
            delta_ := self_loops }
    else if old_p1.length = 0 then
      .ok { sigma_ := M.sigma_
            states_ := set_insert new_states M.initial_state_
            initial_state_ := M.initial_state_
            accept_states_ := []
            delta_ := self_loops }
    else
      match M.refine_loop (M.states_.length + 1) [old_p0, old_p1] with
      | .error e => .error e
      | .ok p =>
        match M.collect_blocks p new_states, M.adjust_delta p with
        | .ok (new_states, some new_initial_state, new_accept_states), .ok new_delta =>
          .ok { sigma_ := M.sigma_
                states_ := new_states
                initial_state_ := new_initial_state
                accept_states_ := new_accept_states
                delta_ := new_delta }
        | .ok (_, none, _), .ok _ => .error .undefined_behaviour
        | .error e, _ => .error e
        | _, .error e => .error e

/-- The invariants of a DFA: `q₀ ∈ Q`, `F ⊆ Q`, the keys of `δ` are exactly
the pairs of `Q × Σ`, and every value of `δ` lies in `Q`. -/
structure Inv (M : DFA S Q) : Prop where
  initial_mem : M.initial_state_ ∈ M.states_
  accept_sub : ∀ q ∈ M.accept_states_, q ∈ M.states_
  total : ∀ q ∈ M.states_, ∀ c ∈ M.sigma_, (map_find M.delta_ (q, c)).isSome
  key_mem : ∀ e ∈ M.delta_, e.1.1 ∈ M.states_ ∧ e.1.2 ∈ M.sigma_
  value_mem : ∀ e ∈ M.delta_, e.2 ∈ M.states_

end DFA

/-! ## NFA.h -/

/-- The member variables of `NFA<S_t, Q_t>`; the pointer `M_` to the inner DFA
is `none` while it is `nullptr`. -/
structure NFA (S Q : Type) where
  sigma_ : List S
  states_ : List Q
  initial_state_ : Q
  accept_states_ : List Q
  delta_ : List ((Q × S) × List Q)
  epsilon_ : S
  M_ : Option (DFA S (List Q))
  deriving DecidableEq, Repr

/-- The variables `new_states`, `to_eval` (top of the stack first) and
`new_delta` of `construct_dfa`. -/
structure Subset_State (S Q : Type) where
  new_states : List (List Q)
  to_eval : List (List Q)
  new_delta : List ((List Q × S) × List Q)

namespace NFA

variable {S Q : Type} [DecidableEq S] [DecidableEq Q]

/-- The member `is_accepting`. -/
def is_accepting (N : NFA S Q) (q : Q) : Bool :=
  decide (q ∈ N.accept_states_)

/-- The number of destination states written in `delta_`; it bounds the number
of states a traversal of `delta_` can discover. -/
def value_count (N : NFA S Q) : Nat :=
  (N.delta_.map (fun e => e.2.length)).sum

/-- The `for` loop of `epsilon_closure` over the epsilon edges of one state,
on the pair `(ret, check_stack)`. -/
def epsilon_closure_visit : List Q → List Q → List Q → List Q × List Q
  | ret, check_stack, [] => (ret, check_stack)
  | ret, check_stack, q :: targets =>
    if q ∈ ret then epsilon_closure_visit ret check_stack targets
    else epsilon_closure_visit (set_insert ret q) (q :: check_stack) targets

/-- The `while` loop of `epsilon_closure`. -/
def epsilon_closure_loop (N : NFA S Q) : Nat → List Q → List Q → Except Error (List Q)
  | _, ret, [] => .ok ret
  | 0, _, _ :: _ => .error .out_of_fuel
  | fuel + 1, ret, check :: check_stack =>
    match map_find N.delta_ (check, N.epsilon_) with
    | some targets =>
      epsilon_closure_loop N fuel
        (epsilon_closure_visit ret check_stack targets).1
        (epsilon_closure_visit ret check_stack targets).2
    | none => epsilon_closure_loop N fuel ret check_stack

/-- The member `epsilon_closure`. -/
def epsilon_closure (N : NFA S Q) (q : Q) : Except Error (List Q) :=
  if q ∉ N.states_ then .error .NFA_Invalid_State_Error
  else N.epsilon_closure_loop (N.value_count + 1) [q] [q]

/-- The helper `get_ptr_to_member`: `none` stands for `nullptr`. -/
def get_ptr_to_member (set : List (List Q)) (state : List Q) : Option (List Q) :=
  set.find? (fun set_state =>
    decide (set_state.length = state.length) && state.all (fun q => decide (q ∈ set_state)))

/-- The loop `for (const Q_t & new_q : delta_.find({q, c})->second)` of
`construct_dfa`: the epsilon closures of `targets` are merged into `new_state`. -/
def merge_closures (N : NFA S Q) (new_state : List Q) (targets : List Q) :
    Except Error (List Q) :=
  targets.foldlM
    (fun new_state new_q =>
      match N.epsilon_closure new_q with
      | .error e => .error e
      | .ok closure => .ok (merge new_state closure))
    new_state

/-- The body of the loop `for (const Q_t & q : check_state)` of `construct_dfa`. -/
def next_state_step (N : NFA S Q) (c : S) (new_state : List Q) (q : Q) :
    Except Error (List Q) :=
  match map_find N.delta_ (q, c) with
  | none => .ok new_state
  | some targets => N.merge_closures new_state targets

/-- The set `new_state` that `construct_dfa` computes for `check_state` and `c`. -/
def next_state (N : NFA S Q) (check_state : List Q) (c : S) : Except Error (List Q) :=
  check_state.foldlM (N.next_state_step c) []

/-- The body of the loop `for (const S_t & c : new_sigma)` of `construct_dfa`.
A `new_state` without an equal member of `new_states` is a new element of
that set. -/
def construct_dfa_symbol (N : NFA S Q) (check_state : List Q)
    (st : Subset_State S Q) (c : S) : Except Error (Subset_State S Q) :=
  match N.next_state check_state c with
  | .error e => .error e
  | .ok new_state =>
    match get_ptr_to_member st.new_states new_state with
    | none =>
      .ok { new_states := st.new_states ++ [new_state]
            to_eval := new_state :: st.to_eval
            new_delta := map_assign st.new_delta (check_state, c) new_state }
    | some member =>
      .ok { st with new_delta := map_assign st.new_delta (check_state, c) member }

/-- The loop `while (!to_eval.empty())` of `construct_dfa`. -/
def construct_dfa_loop (N : NFA S Q) (new_sigma : List S) :
    Nat → Subset_State S Q → Except Error (Subset_State S Q)
  | 0, st =>
    match st.to_eval with
    | [] => .ok st
    | _ :: _ => .error .out_of_fuel
  | fuel + 1, st =>
    match st.to_eval with
    | [] => .ok st
    | check_state :: to_eval =>
      match new_sigma.foldlM (N.construct_dfa_symbol check_state)
          { st with to_eval := to_eval } with
      | .error e => .error e
      | .ok st => construct_dfa_loop N new_sigma fuel st

/-- The set `new_accept_states` of `construct_dfa`. -/
def dfa_accept_states (N : NFA S Q) (new_states : List (List Q)) : List (List Q) :=
  new_states.foldl
    (fun new_accept_states new_q =>
      if new_q.any (fun q => decide (q ∈ N.accept_states_))
      then set_insert new_accept_states new_q
      else new_accept_states)
    []

/-- The member `construct_dfa`: the object with `M_` assigned. -/
def construct_dfa (N : NFA S Q) : Except Error (NFA S Q) :=
  let new_sigma := N.sigma_.filter (fun c => decide (c ≠ N.epsilon_))
  match N.epsilon_closure N.initial_state_ with
  | .error e => .error e
  | .ok new_initial_state =>
    match N.construct_dfa_loop new_sigma (2 ^ (N.value_count + 1))
        { new_states := [new_initial_state]
          to_eval := [new_initial_state]
          new_delta := [] } with
    | .error e => .error e
    | .ok st =>
      .ok { N with
            M_ := some
              { sigma_ := new_sigma
                states_ := st.new_states
                initial_state_ := new_initial_state
                accept_states_ := N.dfa_accept_states st.new_states
                delta_ := st.new_delta } }

/-- The constructor `NFA(sigma, states, initial_state, accept_states, delta, epsilon)`. -/
def new (sigma : List S) (states : List Q) (initial_state : Q)
    (accept_states : List Q) (delta : List ((Q × S) × List Q)) (epsilon : S) :
    Except Error (NFA S Q) :=
  if epsilon ∉ sigma then .error .NFA_Epsilon_Not_In_Sigma_Error
  else
    construct_dfa
      { sigma_ := sigma
        states_ := states
        initial_state_ := initial_state
        accept_states_ := accept_states
        delta_ := delta
        epsilon_ := epsilon
        M_ := none }

/-- The member `to_dfa`. -/
def to_dfa (N : NFA S Q) : Except Error (DFA S (List Q)) :=
  match N.M_ with
  | none => .error .undefined_behaviour
  | some M => .ok M

/-- The member `operator()(const std::vector<S_t>&)`. -/
def accepts (N : NFA S Q) (str : List S) : Except Error Bool :=
  let new_str := str.filter (fun c => decide (c ≠ N.epsilon_))
  match N.M_ with
  | none => .error .undefined_behaviour
  | some M =>
    match M.accepts new_str with
    | .error .DFA_Invalid_Sigma_Character_Error =>
      .error .NFA_Invalid_Sigma_Character_Error
    | r => r

/-- The member `valid`. -/
def valid (N : NFA S Q) : Bool :=
  if N.states_.isEmpty then false
  else if !(N.accept_states_.all (fun q => decide (q ∈ N.states_))) then false
  else if N.initial_state_ ∉ N.states_ then false
  else
    N.delta_.all (fun p =>
      decide (p.1.1 ∈ N.states_) && decide (p.1.2 ∈ N.sigma_) &&
        p.2.all (fun q => decide (q ∈ N.states_)))

/-- The member `kleene_star`. -/
def kleene_star (N : NFA S Q) (new_initial_state : Q) : Except Error (NFA S Q) :=
  if new_initial_state ∈ N.states_ then
    .error .NFA_Invalid_Kleene_Star_Initial_State_Error
  else
    let new_states := set_insert N.states_ new_initial_state
    let new_accept_states := set_insert N.accept_states_ new_initial_state
    let new_delta :=
      N.accept_states_.foldl
        (fun new_delta q =>
          map_assign new_delta (q, N.epsilon_)
            (set_insert ((map_find new_delta (q, N.epsilon_)).getD []) N.initial_state_))
        N.delta_
    let new_delta := map_assign new_delta (new_initial_state, N.epsilon_) [N.initial_state_]
    NFA.new N.sigma_ new_states new_initial_state new_accept_states new_delta N.epsilon_

/-- The comparison of the alphabets at the head of `nfa_union` and `nfa_concat`. -/
def sigma_mismatch (N0 N1 : NFA S Q) : Bool :=
  decide (N0.sigma_.length ≠ N1.sigma_.length) ||
    N0.sigma_.any (fun c => decide (c ∉ N1.sigma_))

/-- The function `nfa_union`. -/
def nfa_union (N0 N1 : NFA S Q) (new_initial_state : Q) : Except Error (NFA S Q) :=
  if sigma_mismatch N0 N1 then .error .NFA_Union_Sigma_Mismatch_Error
  else
    let new_states := set_insert (merge (merge [] N0.states_) N1.states_) new_initial_state
    let new_accept_states := merge (merge [] N0.accept_states_) N1.accept_states_
    let new_delta := N0.delta_.foldl (fun d pair => map_assign d pair.1 pair.2) []
    let new_delta := N1.delta_.foldl (fun d pair => map_assign d pair.1 pair.2) new_delta
    let new_delta :=
      map_assign new_delta (new_initial_state, N0.epsilon_)
        (set_insert [N0.initial_state_] N1.initial_state_)
    NFA.new N0.sigma_ new_states new_initial_state new_accept_states new_delta N0.epsilon_

/-- The function `nfa_concat`. -/
def nfa_concat (N0 N1 : NFA S Q) : Except Error (NFA S Q) :=
  if sigma_mismatch N0 N1 then .error .NFA_Concatenation_Sigma_Mismatch_Error
  else
    let new_states := merge (merge [] N0.states_) N1.states_
    let new_accept_states := N1.accept_states_
    let new_delta := N0.delta_.foldl (fun d pair => map_assign d pair.1 pair.2) []
    let new_delta := N1.delta_.foldl (fun d pair => map_assign d pair.1 pair.2) new_delta
    let new_delta :=
      N0.accept_states_.foldl
        (fun new_delta q =>
          match map_find new_delta (q, N0.epsilon_) with
          | some targets =>
            map_assign new_delta (q, N0.epsilon_) (set_insert targets N1.initial_state_)
          | none => map_assign new_delta (q, N0.epsilon_) [N1.initial_state_])
        new_delta
    NFA.new N0.sigma_ new_states N0.initial_state_ new_accept_states new_delta N0.epsilon_

/-- The object `N` was returned by the constructor. -/
def Constructed (N : NFA S Q) : Prop :=
  ∃ sigma states initial_state accept_states delta epsilon,
    NFA.new sigma states initial_state accept_states delta epsilon = .ok N

/-- A direct edge of the transition table: `r ∈ Δ(q, c)`. -/
def edge (N : NFA S Q) (q : Q) (c : S) (r : Q) : Prop :=
  ∃ targets, map_find N.delta_ (q, c) = some targets ∧ r ∈ targets

/-- A path of the NFA from one state to another whose edge labels other than
`epsilon_` spell the word: epsilon edges may be taken before, between and
after the symbols. -/
inductive Path (N : NFA S Q) : Q → List S → Q → Prop
  | nil (q : Q) : Path N q [] q
  | eps {q r t : Q} {w : List S} :
      N.edge q N.epsilon_ r → Path N r w t → Path N q w t
  | sym {q r t : Q} {c : S} {w : List S} :
      c ≠ N.epsilon_ → N.edge q c r → Path N r w t → Path N q (c :: w) t

/-- The invariants of an NFA: `ε ∈ Σ`, `q₀ ∈ Q`, `F ⊆ Q`, every key of `Δ`
lies in `Q × Σ` and every value of `Δ` is a subset of `Q`. -/
structure Inv (N : NFA S Q) : Prop where
  epsilon_mem : N.epsilon_ ∈ N.sigma_
  initial_mem : N.initial_state_ ∈ N.states_
  accept_sub : ∀ q ∈ N.accept_states_, q ∈ N.states_
  key_mem : ∀ e ∈ N.delta_, e.1.1 ∈ N.states_ ∧ e.1.2 ∈ N.sigma_
  value_sub : ∀ e ∈ N.delta_, ∀ q ∈ e.2, q ∈ N.states_

/-- The set `T` holds exactly the states reached from a state of `X` by one
edge labelled `c` followed by epsilon edges. -/
def Good (N : NFA S Q) (T X : List Q) (c : S) : Prop :=
  ∀ r, r ∈ T ↔ ∃ q ∈ X, ∃ q', N.edge q c q' ∧ N.Path q' [] r

/-- Every entry of `new_delta` leads to a member of `new_states` that is the
right set of NFA states. -/
def Delta_Good (N : NFA S Q) (st : Subset_State S Q) : Prop :=
  ∀ X c T, map_find st.new_delta (X, c) = some T → T ∈ st.new_states ∧ N.Good T X c

/-- Every member of `new_states` is still on the stack or has all its entries
in `new_delta`. -/
def Delta_Done (new_sigma : List S) (st : Subset_State S Q) : Prop :=
  ∀ X ∈ st.new_states, X ∈ st.to_eval ∨
    ∀ c ∈ new_sigma, (map_find st.new_delta (X, c)).isSome

/-- The worklist state `st'` extends `st`: nothing is removed from
`new_states`, `to_eval` or the keys of `new_delta`, and every new member of
`new_states` is on the stack. -/
structure Extends (st st' : Subset_State S Q) : Prop where
  states_sub : ∀ X ∈ st.new_states, X ∈ st'.new_states
  eval_sub : ∀ X ∈ st.to_eval, X ∈ st'.to_eval
  keys_sub : ∀ k, (map_find st.new_delta k).isSome → (map_find st'.new_delta k).isSome
  fresh : ∀ X ∈ st'.new_states, X ∈ st.new_states ∨ X ∈ st'.to_eval

/-- The destination states written in `delta_`, with repetitions. -/
def values (N : NFA S Q) : List Q :=
  (N.delta_.map (fun e => e.2)).flatten

/-- The members of `new_states` have no repetition, hold only `q0` and
destination states of `delta_`, and differ from one another as sets. -/
structure States_Distinct (N : NFA S Q) (q0 : Q) (st : Subset_State S Q) : Prop where
  nodup : ∀ X ∈ st.new_states, X.Nodup
  sub : ∀ X ∈ st.new_states, ∀ r ∈ X, r ∈ q0 :: N.values
  distinct : (st.new_states.map List.toFinset).Nodup

end NFA

/-! ## Regex.h and Regex.cpp -/

/-- The member variables of `Regex`; the pointer `N_` is `none` while it is
`nullptr`. -/
structure Regex where
  expression_ : List Char
  regular_expression_ : List Char
  epsilon_ : List Char
  emptyset_ : List Char
  N_ : Option (NFA (List Char) (List Char))
  deriving DecidableEq, Repr

/-- The variables `i`, `regular_expression_` and `global_balance` of the main
loop of `format_expression`. -/
structure Format_State where
  i : Nat
  regular_expression_ : List Char
  global_balance : Int

/-- The variables `i`, `N_ptr` and `state_num` of the loop of
`construct_nfa_recursive`. -/
structure Compile_State where
  i : Nat
  N_ptr : Option (NFA (List Char) (List Char))
  state_num : Nat

namespace Regex

/-- The static set `Regex::regular_symbols`. -/
def regular_symbols : List Char := ['(', ')', '|', '*', '/']

/-- The static set `Regex::symbols`. -/
def symbols : List Char := ['(', ')', '|', '*', '/', '{', '}', '+', '?', '[', ']']

/-- The expression `s[i]` on a `std::string`: the terminating null character
at `i = s.size()`, undefined beyond. -/
def char_at (s : List Char) (i : Nat) : Except Error Char :=
  if i ≤ s.length then .ok (s.getD i (Char.ofNat 0)) else .error .undefined_behaviour

/-- The call `s.substr(pos, len)` for `pos ≤ s.size()`. -/
def substr (s : List Char) (pos len : Nat) : List Char :=
  (s.drop pos).take len

/-- The call `s.erase(pos, len)`. -/
def erase (s : List Char) (pos len : Nat) : List Char :=
  s.take pos ++ s.drop (pos + len)

/-- The loop that removes the epsilon sentinel from a string, as written in
`format_expression` (`probe_fixed = false`: the comparison reads
`substr(i, len)`) and in `operator()(std::string)` (`probe_fixed = true`: the
comparison reads `substr(1, len)`). -/
def remove_epsilon_loop (epsilon : List Char) (probe_fixed : Bool) :
    Nat → Nat → List Char → List Char
  | 0, _, str => str
  | fuel + 1, i, str =>
    if i + epsilon.length < str.length then
      if substr str (if probe_fixed then 1 else i) epsilon.length = epsilon then
        remove_epsilon_loop epsilon probe_fixed fuel i (erase str i epsilon.length)
      else remove_epsilon_loop epsilon probe_fixed fuel (i + 1) str
    else str

/-- The block "Remove all epsilon" of `format_expression` and of
`operator()(std::string)`. -/
def remove_epsilon (epsilon : List Char) (probe_fixed : Bool) (str : List Char) :
    List Char :=
  if epsilon ≠ [] then
    remove_epsilon_loop epsilon probe_fixed (2 * str.length + 1) 0 str
  else str

/-- The member `get_range_type`. -/
def get_range_type (c : Char) : Char :=
  if 'a' ≤ c ∧ c ≤ 'z' then 'a'
  else if 'A' ≤ c ∧ c ≤ 'Z' then 'A'
  else if '0' ≤ c ∧ c ≤ '9' then '0'
  else 'i'

/-- The loop `for (int j = val + 1; j <= upper_bound; ++j)` of
`get_range_string`, over `count` characters from code `j`. -/
def append_range : Nat → Nat → List Char → List Char
  | 0, _, ret => ret
  | count + 1, j, ret => append_range count (j + 1) (ret ++ ['|', Char.ofNat j])

/-- The `while` loop of `get_range_string`. -/
def get_range_loop (s : List Char) : Nat → Nat → List Char → Except Error (List Char)
  | 0, _, _ => .error .out_of_fuel
  | fuel + 1, i, ret =>
    if i + 1 < s.length then
      match char_at s i, char_at s (i + 1) with
      | .ok val, .ok next =>
        if get_range_type val = 'i' then .error .Regex_Invalid_Range_Error
        else
          let ret := if i ≠ 1 then ret ++ ['|'] else ret
          let ret := ret ++ [val]
          if next = ']' then .ok ret
          else if next.isAlphanum then get_range_loop s fuel (i + 1) ret
          else if next = '-' then
            match char_at s (i + 2) with
            | .ok upper_bound =>
              if upper_bound = ']' then .error .Regex_Invalid_Range_Error
              else if get_range_type upper_bound ≠ get_range_type val ∨ val > upper_bound then
                .error .Regex_Invalid_Range_Error
              else
                get_range_loop s fuel (i + 3)
                  (append_range (upper_bound.toNat - val.toNat) (val.toNat + 1) ret)
            | .error e => .error e
          else .error .Regex_Invalid_Range_Error
      | .error e, _ => .error e
      | _, .error e => .error e
    else .ok ret

/-- The member `get_range_string`. -/
def get_range_string (s : List Char) : Except Error (List Char) :=
  match get_range_loop s (s.length + 1) 1 ['('] with
  | .error e => .error e
  | .ok ret => .ok (ret ++ [')'])

/-- The largest value of an `int`. -/
def INT_MAX : Nat := 2147483647

/-- The conversion of a size to `int`, as in `int n = s.size()`: the size
modulo 2^32, read as a 32-bit two's-complement number. -/
def to_int (size : Nat) : Int :=
  if size % 4294967296 ≤ INT_MAX then ((size % 4294967296 : Nat) : Int)
  else ((size % 4294967296 : Nat) : Int) - 4294967296

/-- The loops of `get_power_string` that read a decimal bound: from position
`i` up to a character of `stops`, with the value read so far in `bound`.
An overflow of the `int` is undefined. -/
def read_bound (p : List Char) (stops : List Char) :
    Nat → Nat → Nat → Except Error (Nat × Nat)
  | 0, _, _ => .error .out_of_fuel
  | fuel + 1, i, bound =>
    match char_at p i with
    | .error e => .error e
    | .ok c =>
      if c ∈ stops then .ok (i, bound)
      else if !c.isDigit then .error .Regex_Invalid_Power_Error
      else if bound * 10 + (c.toNat - '0'.toNat) > INT_MAX then .error .undefined_behaviour
      else read_bound p stops fuel (i + 1) (bound * 10 + (c.toNat - '0'.toNat))

/-- The string `s` repeated `k` times. -/
def repeat_string (s : List Char) : Nat → List Char
  | 0 => []
  | k + 1 => repeat_string s k ++ s

/-- The loop `for (int j = lower_bound; j <= upper_bound; ++j)` of
`get_power_string`, over `count` values from `j`. -/
def append_powers (s : List Char) (lower_bound : Nat) :
    Nat → Nat → List Char → List Char
  | 0, _, ret => ret
  | count + 1, j, ret =>
    append_powers s lower_bound count (j + 1)
      ((if j ≠ lower_bound then ret ++ ['|'] else ret) ++ repeat_string s j)

/-- The member `get_power_string`. -/
def get_power_string (s p : List Char) : Except Error (List Char) :=
  match read_bound p [',', '}'] (p.length + 2) 1 0 with
  | .error e => .error e
  | .ok (i, lower_bound) =>
    match char_at p i, char_at p (i + 1) with
    | .ok c, .ok next =>
      if c = '}' then .ok (repeat_string s lower_bound)
      else if next = '}' then .ok (repeat_string s lower_bound ++ s ++ ['*'])
      else
        match read_bound p ['}'] (p.length + 2) (i + 1) 0 with
        | .error e => .error e
        | .ok (_, upper_bound) =>
          .ok (append_powers s lower_bound (upper_bound + 1 - lower_bound) lower_bound ['(']
            ++ [')'])
    | .ok c, .error e => if c = '}' then .ok (repeat_string s lower_bound) else .error e
    | .error e, _ => .error e

/-- The `do ... while` loop of `pop_prev_expression` on `(str_begin, balance)`. -/
def pop_prev_scan (s : List Char) : Nat → Int → Int → Except Error (Int × Int)
  | 0, _, _ => .error .out_of_fuel
  | fuel + 1, str_begin, balance =>
    match char_at s str_begin.toNat, char_at s (str_begin - 1).toNat with
    | .ok c, .ok before =>
      if str_begin - 1 ≥ 0 ∧ c ∈ regular_symbols ∧ before = '/' then
        let str_begin := str_begin - 1 - 1
        if balance > 0 ∧ str_begin ≥ 0 then pop_prev_scan s fuel str_begin balance
        else .ok (str_begin, balance)
      else
        let balance :=
          if c = ')' then balance + 1 else if c = '(' then balance - 1 else balance
        if balance < 0 then .error .Regex_Unbalanced_Parenthesized_Expression_Error
        else
          let str_begin := str_begin - 1
          if balance > 0 ∧ str_begin ≥ 0 then pop_prev_scan s fuel str_begin balance
          else .ok (str_begin, balance)
    | .error e, _ => .error e
    | _, .error e => .error e

/-- The member `pop_prev_expression`, called with `str_begin = s.size() - 1`
and `str_end = s.size()`: the popped expression and what is left of `s`. -/
def pop_prev_expression (s : List Char) : Except Error (List Char × List Char) :=
  if s = [] then .ok ([], s)
  else
    match pop_prev_scan s (s.length + 1) ((s.length : Int) - 1) 0 with
    | .error e => .error e
    | .ok (str_begin, balance) =>
      let str_begin := str_begin + 1
      if balance ≠ 0 then .error .Regex_Unbalanced_Parenthesized_Expression_Error
      else
        let len := ((s.length : Int) - str_begin).toNat
        .ok (substr s str_begin.toNat len, substr s 0 (s.length - len))

/-- The loops `while (f_expression[i] != ']')` and `while (f_expression[i] != '}')`
of `format_expression`: the index of the closing character. -/
def scan_close (f : List Char) (close : Char) (err : Error) : Nat → Nat → Except Error Nat
  | 0, _ => .error .out_of_fuel
  | fuel + 1, i =>
    match char_at f i with
    | .error e => .error e
    | .ok c =>
      if c ≠ close then
        if i + 1 ≥ f.length then .error err
        else
          match char_at f (i + 1) with
          | .error e => .error e
          | .ok c' =>
            if c' = '/' then .error .Regex_Invalid_Escape_Character_Error
            else scan_close f close err fuel (i + 1)
      else .ok i

/-- The body of the main loop of `format_expression` with the `++i` of the
`for` statement. -/
def format_step (f : List Char) (st : Format_State) : Except Error Format_State :=
  match char_at f st.i with
  | .error e => .error e
  | .ok c =>
    if c = '[' then
      match scan_close f ']' .Regex_Invalid_Range_Error (f.length + 1) st.i with
      | .error e => .error e
      | .ok i =>
        match get_range_string (substr f st.i (i + 1 - st.i)) with
        | .error e => .error e
        | .ok range =>
          .ok { st with i := i + 1, regular_expression_ := st.regular_expression_ ++ range }
    else if c = '{' then
      match scan_close f '}' .Regex_Invalid_Power_Error (f.length + 1) st.i with
      | .error e => .error e
      | .ok i =>
        match pop_prev_expression st.regular_expression_ with
        | .error e => .error e
        | .ok (target, rest) =>
          match get_power_string target (substr f st.i (i + 1 - st.i)) with
          | .error e => .error e
          | .ok power => .ok { st with i := i + 1, regular_expression_ := rest ++ power }
    else if c = '+' then
      match pop_prev_expression st.regular_expression_ with
      | .error e => .error e
      | .ok (target, rest) =>
        .ok { st with i := st.i + 1, regular_expression_ := rest ++ (target ++ target ++ ['*']) }
    else if c = '?' then
      match pop_prev_expression st.regular_expression_ with
      | .error e => .error e
      | .ok (target, rest) =>
        .ok { st with i := st.i + 1, regular_expression_ := rest ++ (['('] ++ target ++ ['|', ')']) }
    else if c = '/' then
      if st.i + 1 = f.length then .error .Regex_Invalid_Escape_Character_Error
      else
        match char_at f (st.i + 1) with
        | .error e => .error e
        | .ok next =>
          let r := if next ∈ regular_symbols then st.regular_expression_ ++ ['/']
                   else st.regular_expression_
          .ok { st with i := st.i + 2, regular_expression_ := r ++ [next] }
    else if c = ']' then .error .Regex_Invalid_Range_Error
    else if c = '}' then .error .Regex_Invalid_Power_Error
    else
      let escaped := decide (st.i ≥ 1) && decide (f.getD (st.i - 1) (Char.ofNat 0) = '/')
      let global_balance :=
        if !escaped then
          if c = '(' then st.global_balance + 1
          else if c = ')' then st.global_balance - 1
          else st.global_balance
        else st.global_balance
      .ok { i := st.i + 1
            regular_expression_ := st.regular_expression_ ++ [c]
            global_balance := global_balance }

/-- The main loop of `format_expression`. -/
def format_loop (f : List Char) : Nat → Format_State → Except Error Format_State
  | 0, _ => .error .out_of_fuel
  | fuel + 1, st =>
    if st.i < f.length then
      match format_step f st with
      | .error e => .error e
      | .ok st => format_loop f fuel st
    else .ok st

/-- The member `format_expression`: the value of `regular_expression_`. -/
def format_expression (expression epsilon : List Char) : Except Error (List Char) :=
  let f_expression := remove_epsilon epsilon false expression
  match format_loop f_expression (f_expression.length + 1)
      { i := 0, regular_expression_ := [], global_balance := 0 } with
  | .error e => .error e
  | .ok st =>
    if st.global_balance ≠ 0 then .error .Regex_Unbalanced_Parenthesized_Expression_Error
    else .ok st.regular_expression_

/-- The member `get_next_state_str`: the name and the incremented counter.
The counter is an `int`: the increment `++i` at `INT_MAX` is undefined. -/
def get_next_state_str (i : Nat) : Except Error (List Char × Nat) :=
  if i + 1 ≤ INT_MAX then .ok ('q' :: Nat.toDigits 10 i, i + 1)
  else .error .undefined_behaviour

/-- The member `nfa_of_epsilon`. -/
def nfa_of_epsilon (sigma : List (List Char)) (epsilon : List Char) (state_num : Nat) :
    Except Error (NFA (List Char) (List Char) × Nat) :=
  match get_next_state_str state_num with
  | .error e => .error e
  | .ok q0 =>
    match NFA.new sigma [q0.1] q0.1 [q0.1] [((q0.1, epsilon), [q0.1])] epsilon with
    | .error e => .error e
    | .ok N => .ok (N, q0.2)

/-- The member `nfa_of_symbol`. -/
def nfa_of_symbol (sigma : List (List Char)) (epsilon s : List Char) (state_num : Nat) :
    Except Error (NFA (List Char) (List Char) × Nat) :=
  match get_next_state_str state_num with
  | .error e => .error e
  | .ok q0 =>
    match get_next_state_str q0.2 with
    | .error e => .error e
    | .ok q1 =>
      match NFA.new sigma (set_insert [q0.1] q1.1) q0.1 [q1.1] [((q0.1, s), [q1.1])]
          epsilon with
      | .error e => .error e
      | .ok N => .ok (N, q1.2)

/-- The statement `if (i + 1 < n && s[i + 1] == '*')` that follows an atom or
a group in `construct_nfa_recursive`: the NFA, the index and the counter.
The bound `n` is the `int` of the loop; the sum `i + 1` is an `int`,
undefined beyond `INT_MAX`. -/
def apply_star (s : List Char) (n : Int) (i : Nat) (new_N : NFA (List Char) (List Char))
    (state_num : Nat) : Except Error (NFA (List Char) (List Char) × Nat × Nat) :=
  if i + 1 > INT_MAX then .error .undefined_behaviour
  else if ((i + 1 : Nat) : Int) < n ∧ s.getD (i + 1) (Char.ofNat 0) = '*' then
    match get_next_state_str state_num with
    | .error e => .error e
    | .ok q =>
      match new_N.kleene_star q.1 with
      | .error e => .error e
      | .ok N => .ok (N, i + 1, q.2)
  else .ok (new_N, i, state_num)

/-- The statement `if (N_ptr == nullptr) ... else *N_ptr = nfa_concat(*N_ptr, new_N)`. -/
def append_nfa (N_ptr : Option (NFA (List Char) (List Char)))
    (new_N : NFA (List Char) (List Char)) : Except Error (NFA (List Char) (List Char)) :=
  match N_ptr with
  | none => .ok new_N
  | some N => NFA.nfa_concat N new_N

/-- The loop `while (balance != 0)` of the branch `s[i] == '('`: the value of
`len` when the loop ends.  The index `start + len` is an `int`, undefined
beyond `INT_MAX`; as `start` is positive and the loop goes on after an escape
character, an increment of `len` overflows only if the next index does. -/
def group_scan (s : List Char) (start : Nat) : Nat → Nat → Int → Except Error Nat
  | 0, _, _ => .error .out_of_fuel
  | fuel + 1, len, balance =>
    if balance ≠ 0 then
      if start + len > INT_MAX then .error .undefined_behaviour
      else
        match char_at s (start + len) with
        | .error e => .error e
        | .ok c =>
          if c = '/' then group_scan s start fuel (len + 2) balance
          else if c = '(' then group_scan s start fuel (len + 1) (balance + 1)
          else if c = ')' then group_scan s start fuel (len + 1) (balance - 1)
          else group_scan s start fuel (len + 1) balance
    else .ok len

/-- The loop `while (start + len < n && ...)` of the branch `s[i] == '|'`: the
values of `len` and `balance` when the loop ends; `n` is the `int` bound of
the enclosing loop. -/
def alt_scan (s : List Char) (n : Int) (start : Nat) : Nat → Nat → Int → Nat × Int
  | 0, len, balance => (len, balance)
  | fuel + 1, len, balance =>
    if ((start + len : Nat) : Int) < n ∧
        ¬ (s.getD (start + len) (Char.ofNat 0) = '|' ∧ balance = 0) then
      let c := s.getD (start + len) (Char.ofNat 0)
      let balance := if c = '(' then balance + 1 else balance
      let balance := if c = ')' then balance - 1 else balance
      alt_scan s n start fuel (len + 1) balance
    else (len, balance)

/-- The body of the `for` loop of `construct_nfa_recursive` with the `++i` of
the `for` statement; `recurse` is the recursive call and `n` the `int` bound
`n = s.size()` of the loop.  The sums that can leave the range of `int` are
checked in `apply_star` (`i + 1`), in `group_scan` (`start + len`) and in
`get_next_state_str` (the counter); the other sums of the body are bounded by
them or by `n`. -/
def compile_step (sigma : List (List Char)) (epsilon : List Char)
    (recurse : List Char → Nat → Except Error (NFA (List Char) (List Char) × Nat))
    (s : List Char) (n : Int) (st : Compile_State) : Except Error Compile_State :=
  let c := s.getD st.i (Char.ofNat 0)
  if c ∉ regular_symbols ∨ c = '/' then
    let i := if c = '/' then st.i + 1 else st.i
    match char_at s i with
    | .error e => .error e
    | .ok sym =>
      match nfa_of_symbol sigma epsilon [sym] st.state_num with
      | .error e => .error e
      | .ok (new_N, state_num) =>
        match apply_star s n i new_N state_num with
        | .error e => .error e
        | .ok (new_N, i, state_num) =>
          match append_nfa st.N_ptr new_N with
          | .error e => .error e
          | .ok N => .ok { i := i + 1, N_ptr := some N, state_num := state_num }
  else if c = '(' then
    match group_scan s (st.i + 1) (s.length + 2) 0 1 with
    | .error e => .error e
    | .ok len1 =>
      let len := len1 - 1
      match recurse (substr s (st.i + 1) len) st.state_num with
      | .error e => .error e
      | .ok (new_N, state_num) =>
        match apply_star s n (st.i + (len + 1)) new_N state_num with
        | .error e => .error e
        | .ok (new_N, i, state_num) =>
          match append_nfa st.N_ptr new_N with
          | .error e => .error e
          | .ok N => .ok { i := i + 1, N_ptr := some N, state_num := state_num }
  else if c = '|' then
    let left : Except Error (NFA (List Char) (List Char) × Nat) :=
      match st.N_ptr with
      | some N => .ok (N, st.state_num)
      | none => nfa_of_epsilon sigma epsilon st.state_num
    match left with
    | .error e => .error e
    | .ok (N, state_num) =>
      let scan := alt_scan s n (st.i + 1) (s.length + 1) 0 0
      let len := if scan.2 = -1 then scan.1 - 1 else scan.1
      let right :=
        if len = 0 then nfa_of_epsilon sigma epsilon state_num
        else recurse (substr s (st.i + 1) len) state_num
      match right with
      | .error e => .error e
      | .ok (new_N, state_num) =>
        match get_next_state_str state_num with
        | .error e => .error e
        | .ok q =>
          match NFA.nfa_union N new_N q.1 with
          | .error e => .error e
          | .ok N => .ok { i := st.i + len + 1, N_ptr := some N, state_num := q.2 }
  else .error .Regex_NFA_Construction_Error

/-- The `for` loop of `construct_nfa_recursive`,
`for (int i = 0, n = s.size(); i < n; ++i)`, with the `int` bound `n`. -/
def compile_loop (sigma : List (List Char)) (epsilon : List Char)
    (recurse : List Char → Nat → Except Error (NFA (List Char) (List Char) × Nat))
    (s : List Char) (n : Int) : Nat → Compile_State → Except Error Compile_State
  | 0, _ => .error .out_of_fuel
  | fuel + 1, st =>
    if (st.i : Int) < n then
      match compile_step sigma epsilon recurse s n st with
      | .error e => .error e
      | .ok st => compile_loop sigma epsilon recurse s n fuel st
    else .ok st

/-- The member `construct_nfa_recursive`: the NFA and the value of `state_num`
on return.  The first argument bounds the depth of the recursion.  When the
loop is not entered, `*N_ptr` dereferences the null pointer. -/
def construct_nfa_recursive (sigma : List (List Char)) (epsilon : List Char) :
    Nat → List Char → Nat → Except Error (NFA (List Char) (List Char) × Nat)
  | 0, _, _ => .error .out_of_fuel
  | depth + 1, s, state_num =>
    if s.length = 0 ∨ (s.length = 1 ∧ s.getD 0 (Char.ofNat 0) = '*') then
      nfa_of_epsilon sigma epsilon state_num
    else
      match compile_loop sigma epsilon (construct_nfa_recursive sigma epsilon depth) s
          (to_int s.length) (s.length + 1)
          { i := 0, N_ptr := none, state_num := state_num } with
      | .error e => .error e
      | .ok st =>
        match st.N_ptr with
        | none => .error .undefined_behaviour
        | some N => .ok (N, st.state_num)

/-- The loop "Construct sigma" of `construct_nfa` on `(sigma, delimiter)`. -/
def construct_sigma : List Char → List (List Char) → Bool → List (List Char)
  | [], sigma, _ => sigma
  | c :: rest, sigma, delimiter =>
    if !delimiter && decide (c = '/') then construct_sigma rest sigma true
    else if delimiter || (decide (c ∉ regular_symbols) && decide ([c] ∉ sigma)) then
      construct_sigma rest (set_insert sigma [c]) false
    else construct_sigma rest sigma delimiter

/-- The member `construct_nfa`: the value of `N_`. -/
def construct_nfa (regular_expression : List Char) :
    Except Error (NFA (List Char) (List Char)) :=
  let sigma := set_insert (construct_sigma regular_expression [] false) []
  match construct_nfa_recursive sigma [] (regular_expression.length + 1)
      regular_expression 0 with
  | .error e => .error e
  | .ok (N, _) => .ok N

/-- The constructor `Regex(expression, epsilon, emptyset)`. -/
def new (expression epsilon emptyset : List Char) : Except Error Regex :=
  match format_expression expression epsilon with
  | .error e => .error e
  | .ok regular_expression =>
    match construct_nfa regular_expression with
    | .error e => .error e
    | .ok N =>
      .ok { expression_ := expression
            regular_expression_ := regular_expression
            epsilon_ := epsilon
            emptyset_ := emptyset
            N_ := some N }

/-- The member `operator()(const std::vector<std::string>&)`. -/
def accepts_vector (R : Regex) (str : List (List Char)) : Except Error Bool :=
  match R.N_ with
  | none => .error .undefined_behaviour
  | some N =>
    match N.accepts str with
    | .error .NFA_Invalid_Sigma_Character_Error => .ok false
    | r => r

/-- The vector `str_v` of `operator()(std::string)`: with `int n = str.size()`,
one symbol for each of the `n` first characters. -/
def split (str : List Char) : List (List Char) :=
  (str.take (to_int str.length).toNat).map (fun c => [c])

/-- The member `operator()(std::string)`.  The vector `str_v(n)` is created
with `int n = str.size()`: a negative `n` is a size beyond `max_size()`, for
which the constructor of the vector throws `std::length_error`. -/
def accepts (R : Regex) (str : List Char) : Except Error Bool :=
  let str := remove_epsilon R.epsilon_ true str
  if to_int str.length < 0 then .error .length_error
  else R.accepts_vector (split str)

/-- The member `to_nfa`. -/
def to_nfa (R : Regex) : Except Error (NFA (List Char) (List Char)) :=
  match R.N_ with
  | none => .error .undefined_behaviour
  | some N => .ok N

/-- The accessor `expression`. -/
def expression (R : Regex) : List Char := R.expression_

/-- The accessor `epsilon`. -/
def epsilon (R : Regex) : List Char := R.epsilon_

/-- The accessor `emptyset`, which returns `regular_expression_`. -/
def emptyset (R : Regex) : List Char := R.regular_expression_

/-- The accessor `regular_expression`, which returns `emptyset_`. -/
def regular_expression (R : Regex) : List Char := R.emptyset_

end Regex

namespace NFA

variable {Q : Type} [DecidableEq Q]

/-- The loop of `to_regex` that puts a `/` before every character of
`Regex::symbols` in `insert_str`. -/
def escape_symbols : List Char → List Char
  | [] => []
  | c :: rest =>
    if c ∈ Regex.symbols then '/' :: c :: escape_symbols rest
    else c :: escape_symbols rest

/-- The map `transitions` of `to_regex`, filled from the temporary delta. -/
def to_regex_transitions (new_delta : List ((Q × List Char) × List Q)) :
    List ((Q × Q) × List (List Char)) :=
  new_delta.foldl
    (fun transitions pair =>
      pair.2.foldl
        (fun transitions q =>
          let from_to := (pair.1.1, q)
          let transitions :=
            if (map_find transitions from_to).isNone then map_assign transitions from_to []
            else transitions
          let insertion := pair.1.2
          let current := (map_find transitions from_to).getD []
          if insertion ∉ current then
            map_assign transitions from_to (set_insert current (escape_symbols pair.1.2))
          else transitions)
        transitions)
    []

/-- The string `transition` that `to_regex` builds from the labels between two
states: the labels separated by `|`, in parentheses when there are several. -/
def join_labels (labels : List (List Char)) : List Char :=
  let joined :=
    labels.foldl
      (fun acc s => (acc.1 ++ acc.2 ++ s, ['|']))
      (([] : List Char), ([] : List Char))
  if labels.length > 1 then ['('] ++ joined.1 ++ [')'] else joined.1

/-- The first value of the map `old_trans` of `to_regex`. -/
def to_regex_old_trans (transitions : List ((Q × Q) × List (List Char))) :
    List ((Q × Q) × List Char) :=
  transitions.foldl (fun old_trans pair => map_assign old_trans pair.1 (join_labels pair.2)) []

/-- The test `old_trans.find(k) != old_trans.end() && old_trans[k] != emptyset`
of `to_regex`, with the label when it holds. -/
def label (old_trans : List ((Q × Q) × List Char)) (emptyset : List Char) (k : Q × Q) :
    Option (List Char) :=
  match map_find old_trans k with
  | some t => if t ≠ emptyset then some t else none
  | none => none

/-- The value that `to_regex` assigns to `new_trans[first_to_second]` when the
state `q` is removed. -/
def eliminate_pair (old_trans : List ((Q × Q) × List Char)) (emptyset epsilon : List Char)
    (q : Q) (pair : Q × Q) : List Char :=
  let trans1 : Option (List Char) :=
    match label old_trans emptyset (pair.1, q), label old_trans emptyset (q, pair.2) with
    | some a, some c =>
      match label old_trans emptyset (q, q) with
      | some b => if b ≠ epsilon then some (a ++ (['('] ++ b ++ [')', '*']) ++ c) else some (a ++ c)
      | none => some (a ++ c)
    | _, _ => none
  let trans2 := label old_trans emptyset (pair.1, pair.2)
  match trans1, trans2 with
  | some t1, some t2 => ['('] ++ t1 ++ ['|'] ++ t2 ++ [')']
  | some t1, none => t1
  | none, some t2 => t2
  | none, none => emptyset

/-- The loop `while (t_states.size() > 2)` of `to_regex`. -/
def eliminate_loop (qi qa : Q) (emptyset epsilon : List Char) :
    Nat → List Q → List ((Q × Q) × List Char) → Except Error (List ((Q × Q) × List Char))
  | 0, _, _ => .error .out_of_fuel
  | fuel + 1, t_states, old_trans =>
    if t_states.length > 2 then
      match t_states.find? (fun x => !(decide (x = qi) || decide (x = qa))) with
      | none => .error .undefined_behaviour
      | some q =>
        let t_states := t_states.filter (fun x => decide (x ≠ q))
        let cross_prod := t_states.flatMap (fun q0 => t_states.map (fun q1 => (q0, q1)))
        let new_trans :=
          cross_prod.foldl
            (fun new_trans pair =>
              map_assign new_trans pair (eliminate_pair old_trans emptyset epsilon q pair))
            []
        eliminate_loop qi qa emptyset epsilon fuel t_states new_trans
    else .ok old_trans

/-- The member `to_regex` of an `NFA` over strings. -/
def to_regex (N : NFA (List Char) Q) (qi qa : Q) (emptyset : List Char) :
    Except Error Regex :=
  if qi ∈ N.states_ then .error .NFA_To_Regex_Invalid_qi_Error
  else if qa ∈ N.states_ then .error .NFA_To_Regex_Invalid_qa_Error
  else
    let t_states := set_insert (set_insert N.states_ qi) qa
    let new_delta := map_assign N.delta_ (qi, N.epsilon_) [N.initial_state_]
    let new_delta :=
      N.accept_states_.foldl (fun new_delta q => map_assign new_delta (q, N.epsilon_) [qa])
        new_delta
    let old_trans := to_regex_old_trans (to_regex_transitions new_delta)
    match eliminate_loop qi qa emptyset N.epsilon_ (t_states.length + 1) t_states old_trans with
    | .error e => .error e
    | .ok old_trans =>
      Regex.new ((map_find old_trans (qi, qa)).getD []) N.epsilon_ emptyset

end NFA

/-! ## Concrete automata -/

/-- The DFA of scenario S4: `Σ = {0, 1}`, `Q = {10, 11}`, `q₀ = 10`, `F = {11}`;
the symbol `0` keeps the state and the symbol `1` changes it. -/
def dfa_parity : DFA Nat Nat :=
  { sigma_ := [0, 1]
    states_ := [10, 11]
    initial_state_ := 10
    accept_states_ := [11]
    delta_ := [((10, 0), 10), ((10, 1), 11), ((11, 0), 11), ((11, 1), 10)] }

/-- A one-state DFA without accept state: `Σ = {0}`, `Q = {10}`, `q₀ = 10`,
`F = ∅`, `δ(10, 0) = 10`. -/
def dfa_reject_all : DFA Nat Nat :=
  { sigma_ := [0]
    states_ := [10]
    initial_state_ := 10
    accept_states_ := []
    delta_ := [((10, 0), 10)] }

/-- A one-state DFA whose state is accepting: `Σ = {0}`, `Q = {10}`, `q₀ = 10`,
`F = {10}`, `δ(10, 0) = 10`. -/
def dfa_accept_all : DFA Nat Nat :=
  { sigma_ := [0]
    states_ := [10]
    initial_state_ := 10
    accept_states_ := [10]
    delta_ := [((10, 0), 10)] }

/-- A DFA for the non-empty words over `{0}` with two equivalent accept states:
`Q = {10, 11, 12}`, `q₀ = 10`, `F = {11, 12}`, `δ(10, 0) = 11`, `δ(11, 0) = 12`,
`δ(12, 0) = 11`. -/
def dfa_nonempty : DFA Nat Nat :=
  { sigma_ := [0]
    states_ := [10, 11, 12]
    initial_state_ := 10
    accept_states_ := [11, 12]
    delta_ := [((10, 0), 11), ((11, 0), 12), ((12, 0), 11)] }

/-- A two-state DFA for the non-empty words over `{0}`: `Q = {10, 11}`,
`q₀ = 10`, `F = {11}`, `δ(10, 0) = 11`, `δ(11, 0) = 11`. -/
def dfa_nonempty_small : DFA Nat Nat :=
  { sigma_ := [0]
    states_ := [10, 11]
    initial_state_ := 10
    accept_states_ := [11]
    delta_ := [((10, 0), 11), ((11, 0), 11)] }

/-- A DFA whose accept state cannot be reached: `Σ = {0}`, `Q = {10, 11}`,
`q₀ = 10`, `F = {11}`, `δ(10, 0) = 10`, `δ(11, 0) = 11`. -/
def dfa_isolated : DFA Nat Nat :=
  { sigma_ := [0]
    states_ := [10, 11]
    initial_state_ := 10
    accept_states_ := [11]
    delta_ := [((10, 0), 10), ((11, 0), 11)] }

/-- The DFA that `minimal()` returns for `dfa_isolated`. -/
def dfa_isolated_minimal : DFA Nat Nat :=
  { sigma_ := [0]
    states_ := [10, 11]
    initial_state_ := 10
    accept_states_ := [11]
    delta_ := [((11, 0), 11), ((10, 0), 10)] }

/-- The components of an NFA over the symbols `0` (epsilon), `1` and `2`:
`Q = {10, 11, 12}`, `q₀ = 10`, `F = {12}`, `Δ(10, 0) = {11}`, `Δ(11, 1) = {12}`. -/
def nfa_small : Except Error (NFA Nat Nat) :=
  NFA.new [0, 1, 2] [10, 11, 12] 10 [12] [((10, 0), [11]), ((11, 1), [12])] 0

/-- An NFA over strings in which the accept state `0` has an epsilon edge:
`Σ = {"", "a"}`, `Q = {0, 1, 2}`, `q₀ = 0`, `F = {0, 2}`, `Δ(0, "") = {1}`,
`Δ(1, "a") = {2}`, epsilon `""`. -/
def nfa_accept_epsilon : Except Error (NFA (List Char) Nat) :=
  NFA.new [[], ['a']] [0, 1, 2] 0 [0, 2] [((0, []), [1]), ((1, ['a']), [2])] []

/-! ## DFA.h: the function `dfa_intersection` -/

section Intersection

variable {S Q0 Q1 : Type} [DecidableEq S] [DecidableEq Q0] [DecidableEq Q1]

/-- The comparison `s0 != s1` of two `unordered_set`s: the sizes differ or
some element of `s0` is not found in `s1`. -/
def set_ne (s0 s1 : List S) : Bool :=
  decide (s0.length ≠ s1.length) || s0.any (fun c => decide (c ∉ s1))

/-- The set `new_states` of `dfa_intersection`. -/
def intersection_states (M0 : DFA S Q0) (M1 : DFA S Q1) : List (Q0 × Q1) :=
  M0.states_.foldl
    (fun new_states q0 =>
      M1.states_.foldl (fun new_states q1 => set_insert new_states (q0, q1)) new_states)
    []

/-- The body of the loop `for (const S_t & c : M0.sigma())` of
`dfa_intersection` for the state `q` of `new_states`. -/
def intersection_delta_step (M0 : DFA S Q0) (M1 : DFA S Q1) (q : Q0 × Q1)
    (new_delta : List (((Q0 × Q1) × S) × (Q0 × Q1))) (c : S) :
    Except Error (List (((Q0 × Q1) × S) × (Q0 × Q1))) :=
  match M0.delta_at q.1 c with
  | .error e => .error e
  | .ok next_q0 =>
    match M1.delta_at q.2 c with
    | .error e => .error e
    | .ok next_q1 => .ok (map_assign new_delta (q, c) (next_q0, next_q1))

/-- The loop `for (const S_t & c : M0.sigma())` of `dfa_intersection` for one
state `q` of `new_states`. -/
def intersection_delta_row (M0 : DFA S Q0) (M1 : DFA S Q1)
    (new_delta : List (((Q0 × Q1) × S) × (Q0 × Q1))) (q : Q0 × Q1) :
    Except Error (List (((Q0 × Q1) × S) × (Q0 × Q1))) :=
  M0.sigma_.foldlM (intersection_delta_step M0 M1 q) new_delta

/-- The map `new_delta` of `dfa_intersection`. -/
def intersection_delta (M0 : DFA S Q0) (M1 : DFA S Q1) (new_states : List (Q0 × Q1)) :
    Except Error (List (((Q0 × Q1) × S) × (Q0 × Q1))) :=
  new_states.foldlM (intersection_delta_row M0 M1) []

/-- The set `new_accept_states` of `dfa_intersection`. -/
def intersection_accept_states (M0 : DFA S Q0) (M1 : DFA S Q1)
    (new_states : List (Q0 × Q1)) : List (Q0 × Q1) :=
  new_states.foldl
    (fun new_accept_states q =>
      if M0.is_accepting q.1 then set_insert new_accept_states q
      else if M1.is_accepting q.2 then set_insert new_accept_states q
      else new_accept_states)
    []

/-- The function `dfa_intersection`. -/
def dfa_intersection (M0 : DFA S Q0) (M1 : DFA S Q1) : Except Error (DFA S (Q0 × Q1)) :=
  if set_ne M0.sigma_ M1.sigma_ then .error .DFA_Sigma_Mismatch_Intersection_Error
  else
    let new_states := intersection_states M0 M1
    match intersection_delta M0 M1 new_states with
    | .error e => .error e
    | .ok new_delta =>
      .ok { sigma_ := M0.sigma_
            states_ := new_states
            initial_state_ := (M0.initial_state_, M1.initial_state_)
            accept_states_ := intersection_accept_states M0 M1 new_states
            delta_ := new_delta }

/-- Every entry of the map is the pair of the transitions of `M0` and `M1`. -/
def Product_Delta (M0 : DFA S Q0) (M1 : DFA S Q1)
    (new_delta : List (((Q0 × Q1) × S) × (Q0 × Q1))) : Prop :=
  ∀ q c v, map_find new_delta (q, c) = some v →
    M0.delta_at q.1 c = .ok v.1 ∧ M1.delta_at q.2 c = .ok v.2

end Intersection

/-! ## Notions of the specification -/

namespace DFA

variable {S Q : Type} [DecidableEq S] [DecidableEq Q]

/-- The state reached from `q` by iterating `δ` over `w`; a pair outside the
keys of `δ` leaves the state where it is. -/
def delta_star (M : DFA S Q) (q : Q) (w : List S) : Q :=
  w.foldl (fun q c => (map_find M.delta_ (q, c)).getD q) q

end DFA

namespace NFA

variable {S Q : Type} [DecidableEq S] [DecidableEq Q]

/-- The set `X` contains `Δ(r, ε)` for every `r ∈ X`. -/
def Closed (N : NFA S Q) (X : List Q) : Prop :=
  ∀ r ∈ X, ∀ r', N.edge r N.epsilon_ r' → r' ∈ X

end NFA

namespace Regex

/-- The string `s` with every occurrence of the non-empty string `e` removed,
read from the left, the text around the occurrences being kept. -/
def remove_occurrences (e : List Char) : Nat → List Char → List Char
  | 0, s => s
  | _ + 1, [] => []
  | fuel + 1, c :: rest =>
    if e ≠ [] ∧ (c :: rest).take e.length = e then
      remove_occurrences e fuel ((c :: rest).drop e.length)
    else c :: remove_occurrences e fuel rest

end Regex

namespace NFA

variable {S Q : Type} [DecidableEq S] [DecidableEq Q]

/-- A direct edge of a transition table: `r ∈ d(k)`. -/
def edge_in (d : List ((Q × S) × List Q)) (k : Q × S) (r : Q) : Prop :=
  ∃ targets, map_find d k = some targets ∧ r ∈ targets

/-- The entry `e` of a transition table lies inside `states` and `sigma`. -/
def Entry_In (sigma : List S) (states : List Q) (e : (Q × S) × List Q) : Prop :=
  (e.1.1 ∈ states ∧ e.1.2 ∈ sigma) ∧ ∀ q ∈ e.2, q ∈ states

end NFA

/-! ## Concrete NFAs for the union and the concatenation -/

/-- An NFA over the alphabet of `nfa_small`, with the same epsilon `0` and
states disjoint from it: `Q = {20, 21}`, `q₀ = 20`, `F = {21}`,
`Δ(20, 2) = {21}`. It accepts `[2]`. -/
def nfa_small_two : Except Error (NFA Nat Nat) :=
  NFA.new [0, 1, 2] [20, 21] 20 [21] [((20, 2), [21])] 0

/-- An NFA with epsilon `0`: `Σ = {0, 1}`, `Q = {10}`, `q₀ = 10`, `F = {10}`,
no transition. It accepts the empty input. -/
def nfa_epsilon_zero : Except Error (NFA Nat Nat) :=
  NFA.new [0, 1] [10] 10 [10] [] 0

/-- An NFA over the same alphabet with epsilon `1`: `Σ = {0, 1}`,
`Q = {20, 21}`, `q₀ = 20`, `F = {21}`, `Δ(20, 1) = {21}`. The edge is an
epsilon edge of this NFA, so it accepts the empty input. -/
def nfa_epsilon_one : Except Error (NFA Nat Nat) :=
  NFA.new [0, 1] [20, 21] 20 [21] [((20, 1), [21])] 1

/-! ## DFA.h: the member `to_nfa` -/

namespace DFA

variable {S Q : Type} [DecidableEq S] [DecidableEq Q]

/-- The member `to_nfa` up to its `return` statement: the values `new_sigma`,
`new_states`, `initial_state_`, `new_accept_states`, `new_delta` and `epsilon`
that the statement hands to the constructor of `NFA<Q_t, S_t>`.  The members of
`new_states` and `new_accept_states` are the sets `{q}`, while
`initial_state_` and the targets in `new_delta` are states of the DFA. -/
def to_nfa_arguments (M : DFA S Q) (epsilon : S) :
    Except Error
      (List S × List (List Q) × Q × List (List Q) × List ((Q × S) × List Q) × S) :=
  if epsilon ∈ M.sigma_ then .error .DFA_To_NFA_Invalid_Epsilon_Error
  else
    let new_sigma := set_insert M.sigma_ epsilon
    let new_states := M.states_.foldl (fun new_states q => set_insert new_states [q]) []
    let new_accept_states :=
      M.states_.foldl
        (fun new_accept_states q =>
          if M.is_accepting q then set_insert new_accept_states [q] else new_accept_states)
        []
    let new_delta :=
      M.delta_.foldl (fun new_delta pair => map_assign new_delta (pair.1.1, pair.1.2) [pair.2]) []
    .ok (new_sigma, new_states, M.initial_state_, new_accept_states, new_delta, epsilon)

/-- The map `state_checks` of `valid` after the entries with the keys `seen`:
its keys are distinct, the set of a state is duplicate-free and holds exactly
the symbols `c` for which the pair of the state and `c` was seen. -/
structure Checks_Inv (state_checks : List (Q × List S)) (seen : List (Q × S)) : Prop where
  keys_nodup : (state_checks.map Prod.fst).Nodup
  value_nodup : ∀ p ∈ state_checks, p.2.Nodup
  sound : ∀ p ∈ state_checks, p.2 ≠ [] ∧ ∀ c ∈ p.2, (p.1, c) ∈ seen
  complete : ∀ k ∈ seen, ∃ cs, map_find state_checks k.1 = some cs ∧ k.2 ∈ cs

end DFA

/-- A DFA over the empty alphabet: `Σ = ∅`, `Q = {10}`, `q₀ = 10`, `F = ∅`,
`δ = ∅`. -/
def dfa_empty_sigma : DFA Nat Nat :=
  { sigma_ := []
    states_ := [10]
    initial_state_ := 10
    accept_states_ := []
    delta_ := [] }

/-! ## Reference automata -/

namespace DFA

variable {S Q K : Type} [DecidableEq S] [DecidableEq Q] [DecidableEq K]

end DFA

namespace Regex

variable {K : Type} [DecidableEq K]

end Regex

namespace NFA

variable {Q : Type} [DecidableEq Q]

/-- The temporary table `new_delta` of `to_regex` (the block "Temporary
delta"): `delta_` with the entry of `(qi, epsilon_)` and, for every accept
state, the entry of `(q, epsilon_)` assigned. -/
def to_regex_new_delta (N : NFA (List Char) Q) (qi qa : Q) :
    List ((Q × List Char) × List Q) :=
  let new_delta := map_assign N.delta_ (qi, N.epsilon_) [N.initial_state_]
  N.accept_states_.foldl (fun new_delta q => map_assign new_delta (q, N.epsilon_) [qa])
    new_delta

end NFA

namespace Regex

/-- The number of occurrences of the character `p` in an expression that are
not the second character of an escape pair `/c`, the pairs being read from the
left. -/
def unescaped_count (p : Char) : List Char → Nat
  | [] => 0
  | [c] => if c = p then 1 else 0
  | c :: d :: rest =>
    if c = '/' then unescaped_count p rest
    else (if c = p then 1 else 0) + unescaped_count p (d :: rest)

end Regex

namespace NFA

variable {S Q : Type} [DecidableEq S] [DecidableEq Q]

/-- The keys of `new_delta` are distinct pairs of a member of `new_states` and
a symbol of `new_sigma`, and the stack `to_eval` holds members of
`new_states`. -/
structure Keys_Inv (new_sigma : List S) (st : Subset_State S Q) : Prop where
  keys_nodup : (st.new_delta.map Prod.fst).Nodup
  key_mem : ∀ k ∈ st.new_delta.map Prod.fst, k.1 ∈ st.new_states ∧ k.2 ∈ new_sigma
  eval_sub : ∀ X ∈ st.to_eval, X ∈ st.new_states

end NFA

namespace Regex

end Regex

end Reglang

namespace Reglang

/-! ## Lemmas on the containers -/

section ContainerLemmas

variable {α κ ν : Type}

theorem mem_set_insert [DecidableEq α] (s : List α) (x y : α) :
    y ∈ set_insert s x ↔ y ∈ s ∨ y = x := by
  unfold set_insert
  split
  · constructor
    · intro h; exact Or.inl h
    · rintro (h | rfl)
      · exact h
      · assumption
  · simp

theorem nodup_set_insert [DecidableEq α] (s : List α) (x : α) (h : s.Nodup) :
    (set_insert s x).Nodup := by
  unfold set_insert
  split
  · exact h
  · rename_i hx
    exact List.nodup_append.mpr ⟨h, List.nodup_singleton x, by
      intro a ha hb
      simp at hb
      subst hb
      exact hx ha⟩

theorem length_set_insert_of_not_mem [DecidableEq α] (s : List α) (x : α) (h : x ∉ s) :
    (set_insert s x).length = s.length + 1 := by
  simp [set_insert, h]

theorem mem_merge [DecidableEq α] (s1 : List α) : ∀ (s0 : List α) (y : α),
    y ∈ merge s0 s1 ↔ y ∈ s0 ∨ y ∈ s1 := by
  induction s1 with
  | nil => intro s0 y; simp [merge]
  | cons x xs ih =>
    intro s0 y
    have h := ih (set_insert s0 x) y
    simp only [merge, List.foldl_cons] at h ⊢
    rw [h, mem_set_insert]
    simp only [List.mem_cons]
    tauto

theorem nodup_merge [DecidableEq α] (s1 : List α) : ∀ (s0 : List α),
    s0.Nodup → (merge s0 s1).Nodup := by
  induction s1 with
  | nil => intro s0 h; simpa [merge] using h
  | cons x xs ih =>
    intro s0 h
    have := ih (set_insert s0 x) (nodup_set_insert s0 x h)
    simpa [merge] using this

theorem map_find_mem [DecidableEq κ] (m : List (κ × ν)) (k : κ) (v : ν)
    (h : map_find m k = some v) : (k, v) ∈ m := by
  induction m with
  | nil => simp [map_find] at h
  | cons e m ih =>
    obtain ⟨k', v'⟩ := e
    simp only [map_find] at h
    split at h
    · rename_i hk
      subst hk
      simp only [Option.some.injEq] at h
      subst h
      exact List.mem_cons_self _ _
    · exact List.mem_cons_of_mem _ (ih h)

theorem map_find_assign [DecidableEq κ] (m : List (κ × ν)) (k k' : κ) (v : ν) :
    map_find (map_assign m k v) k' = if k = k' then some v else map_find m k' := by
  induction m with
  | nil => simp [map_assign, map_find]
  | cons e m ih =>
    obtain ⟨k0, v0⟩ := e
    by_cases h0 : k0 = k <;> by_cases h1 : k = k' <;> by_cases h2 : k0 = k' <;>
      simp_all [map_assign, map_find]

/-- Membership in a set filled by conditional insertion over a list. -/
theorem mem_foldl_insert_if [DecidableEq α] (p : α → Bool) (l : List α) :
    ∀ (acc : List α) (y : α),
      y ∈ l.foldl (fun acc x => if p x then set_insert acc x else acc) acc ↔
        y ∈ acc ∨ (y ∈ l ∧ p y = true) := by
  induction l with
  | nil => intro acc y; simp
  | cons x xs ih =>
    intro acc y
    simp only [List.foldl_cons, List.mem_cons]
    rw [ih]
    by_cases hp : p x = true
    · simp only [hp, if_true, mem_set_insert]
      constructor
      · rintro ((h | rfl) | h)
        · exact Or.inl h
        · exact Or.inr ⟨Or.inl rfl, hp⟩
        · exact Or.inr ⟨Or.inr h.1, h.2⟩
      · rintro (h | ⟨rfl | h, hy⟩)
        · exact Or.inl (Or.inl h)
        · exact Or.inl (Or.inr rfl)
        · exact Or.inr ⟨h, hy⟩
    · simp only [hp]
      constructor
      · rintro (h | h)
        · exact Or.inl h
        · exact Or.inr ⟨Or.inr h.1, h.2⟩
      · rintro (h | ⟨rfl | h, hy⟩)
        · exact Or.inl h
        · exact absurd hy hp
        · exact Or.inr ⟨h, hy⟩

/-- A successful monadic fold over a non-empty list is a successful first step
followed by a successful fold over the rest. -/
theorem foldlM_cons_ok {β : Type} (f : β → α → Except Error β) (a : β) (x : α)
    (xs : List α) (b : β) :
    (x :: xs).foldlM f a = Except.ok b ↔
      ∃ a', f a x = Except.ok a' ∧ xs.foldlM f a' = Except.ok b := by
  simp only [List.foldlM_cons, bind, Except.bind]
  cases h : f a x with
  | error e => simp
  | ok a' => simp

theorem foldlM_nil_ok {β : Type} (f : β → α → Except Error β) (a b : β) :
    ([] : List α).foldlM f a = Except.ok b ↔ a = b := by
  simp only [List.foldlM_nil, pure, Except.pure]
  constructor
  · intro h; injection h
  · intro h; rw [h]

end ContainerLemmas

/-! ## DFA: execution and complement -/

namespace DFA

variable {S Q : Type} [DecidableEq S] [DecidableEq Q]

/-- On a DFA that satisfies the invariants, the loop of `operator()` over
symbols of `sigma_` ends in a state of `states_`. -/
theorem run_ok (M : DFA S Q) (hM : M.Inv) :
    ∀ (w : List S) (q : Q), q ∈ M.states_ → (∀ c ∈ w, c ∈ M.sigma_) →
      ∃ r, M.run q w = .ok r ∧ r ∈ M.states_ := by
  intro w
  induction w with
  | nil => intro q hq _; exact ⟨q, rfl, hq⟩
  | cons c w ih =>
    intro q hq hw
    have hc : c ∈ M.sigma_ := hw c (List.mem_cons_self _ _)
    have ht := hM.total q hq c hc
    obtain ⟨r, hr⟩ := Option.isSome_iff_exists.mp ht
    have hr_mem : r ∈ M.states_ := hM.value_mem _ (map_find_mem _ _ _ hr)
    obtain ⟨t, ht1, ht2⟩ := ih r hr_mem (fun d hd => hw d (List.mem_cons_of_mem _ hd))
    refine ⟨t, ?_, ht2⟩
    simp only [run, validate, hc, if_true, delta_at, hr]
    exact ht1

theorem run_congr (M M' : DFA S Q) (hs : M.sigma_ = M'.sigma_)
    (hd : M.delta_ = M'.delta_) :
    ∀ (w : List S) (q : Q), M.run q w = M'.run q w := by
  intro w
  induction w with
  | nil => intro q; rfl
  | cons c w ih =>
    intro q
    simp only [run, validate, delta_at, hs, hd, ih]

theorem compliment_run (M : DFA S Q) (w : List S) (q : Q) :
    M.compliment.run q w = M.run q w :=
  run_congr M.compliment M rfl rfl w q

theorem mem_compliment_accept (M : DFA S Q) (q : Q) :
    q ∈ M.compliment.accept_states_ ↔ q ∈ M.states_ ∧ q ∉ M.accept_states_ := by
  have h := mem_foldl_insert_if (fun q => !M.is_accepting q) M.states_ [] q
  simp only [compliment]
  rw [h]
  simp [is_accepting]

/-- C7. On a DFA that satisfies the invariants and an input of symbols of
`sigma_`, `operator()` returns a boolean and the complement returns its
negation; the complement has the same `sigma_`, `states_`, `initial_state_`
and `delta_`, and its accept set is `states_` without `accept_states_`. -/
theorem compliment_accepts (M : DFA S Q) (hM : M.Inv) (w : List S)
    (hw : ∀ c ∈ w, c ∈ M.sigma_) :
    (∃ b, M.accepts w = .ok b ∧ M.compliment.accepts w = .ok (!b)) ∧
      M.compliment.sigma_ = M.sigma_ ∧
      M.compliment.states_ = M.states_ ∧
      M.compliment.initial_state_ = M.initial_state_ ∧
      M.compliment.delta_ = M.delta_ ∧
      ∀ q, q ∈ M.compliment.accept_states_ ↔ q ∈ M.states_ ∧ q ∉ M.accept_states_ := by
  refine ⟨?_, rfl, rfl, rfl, rfl, M.mem_compliment_accept⟩
  obtain ⟨r, hr, hr_mem⟩ := M.run_ok hM w M.initial_state_ hM.initial_mem hw
  refine ⟨M.is_accepting r, ?_, ?_⟩
  · simp only [accepts, hr]
  · have h1 : M.compliment.run M.compliment.initial_state_ w = .ok r := by
      rw [compliment_run]; exact hr
    simp only [accepts, h1]
    congr 1
    have h2 := M.mem_compliment_accept r
    simp only [is_accepting]
    by_cases hacc : r ∈ M.accept_states_
    · have : r ∉ M.compliment.accept_states_ := fun h => (h2.mp h).2 hacc
      simp [hacc, this]
    · have : r ∈ M.compliment.accept_states_ := h2.mpr ⟨hr_mem, hacc⟩
      simp [hacc, this]

/-- C7 (witness). The statement at the DFA of scenario S4 and the input `0001`. -/
theorem compliment_accepts_witness :
    dfa_parity.Inv ∧ (∀ c ∈ [0, 0, 0, 1], c ∈ dfa_parity.sigma_) ∧
      ((∃ b, dfa_parity.accepts [0, 0, 0, 1] = .ok b ∧
          dfa_parity.compliment.accepts [0, 0, 0, 1] = .ok (!b)) ∧
        dfa_parity.compliment.sigma_ = dfa_parity.sigma_ ∧
        dfa_parity.compliment.states_ = dfa_parity.states_ ∧
        dfa_parity.compliment.initial_state_ = dfa_parity.initial_state_ ∧
        dfa_parity.compliment.delta_ = dfa_parity.delta_ ∧
        ∀ q, q ∈ dfa_parity.compliment.accept_states_ ↔
          q ∈ dfa_parity.states_ ∧ q ∉ dfa_parity.accept_states_) :=
  have hinv : dfa_parity.Inv :=
    ⟨by decide, by decide, by decide, by decide, by decide⟩
  ⟨hinv, by decide, compliment_accepts dfa_parity hinv [0, 0, 0, 1] (by decide)⟩

end DFA

/-! ## DFA: minimisation of concrete automata -/

namespace DFA

variable {S Q : Type} [DecidableEq S] [DecidableEq Q]

/-- C2. The DFA `dfa_reject_all` satisfies the invariants and `valid()`, and it
rejects the empty input, but its `minimal()` accepts the empty input: the
branch taken when no state is accepting builds the DFA that always accepts. -/
theorem minimal_reject_all_accepts :
    dfa_reject_all.Inv ∧ dfa_reject_all.valid = true ∧
      dfa_reject_all.accepts [] = .ok false ∧
      dfa_reject_all.minimal =
        .ok { sigma_ := [0], states_ := [10], initial_state_ := 10,
              accept_states_ := [10], delta_ := [((10, 0), 10)] } ∧
      dfa_reject_all.minimal.bind (fun M => M.accepts []) = .ok true := by
  refine ⟨⟨?_, ?_, ?_, ?_, ?_⟩, ?_, ?_, ?_, ?_⟩ <;> decide

theorem dfa_nonempty_run :
    ∀ (w : List Nat), (∀ c ∈ w, c ∈ dfa_nonempty.sigma_) →
      ∀ q, q = 11 ∨ q = 12 →
        ∃ r, (r = 11 ∨ r = 12) ∧ dfa_nonempty.run q w = .ok r := by
  intro w
  induction w with
  | nil => intro _ q hq; exact ⟨q, hq, rfl⟩
  | cons c w ih =>
    intro hw q hq
    have hc : c = 0 := by
      have := hw c (List.mem_cons_self _ _)
      simpa [dfa_nonempty] using this
    subst hc
    have hw' : ∀ c ∈ w, c ∈ dfa_nonempty.sigma_ :=
      fun d hd => hw d (List.mem_cons_of_mem _ hd)
    rcases hq with rfl | rfl
    · exact ih hw' 12 (Or.inr rfl)
    · exact ih hw' 11 (Or.inl rfl)

theorem dfa_nonempty_small_run :
    ∀ (w : List Nat), (∀ c ∈ w, c ∈ dfa_nonempty_small.sigma_) →
      dfa_nonempty_small.run 11 w = .ok 11 := by
  intro w
  induction w with
  | nil => intro _; rfl
  | cons c w ih =>
    intro hw
    have hc : c = 0 := by
      have := hw c (List.mem_cons_self _ _)
      simpa [dfa_nonempty_small] using this
    subst hc
    exact ih (fun d hd => hw d (List.mem_cons_of_mem _ hd))

/-- C3. The DFA `dfa_nonempty` satisfies the invariants and `valid()`, and its
`minimal()` has the three states `10, 11, 12`, although the two-state DFA
`dfa_nonempty_small` over the same alphabet satisfies the invariants and
gives the same answer on every input. -/
theorem minimal_nonempty_not_minimum :
    dfa_nonempty.Inv ∧ dfa_nonempty.valid = true ∧
      dfa_nonempty.minimal.map (fun M => M.states_.length) = .ok 3 ∧
      dfa_nonempty_small.Inv ∧ dfa_nonempty_small.valid = true ∧
      dfa_nonempty_small.sigma_ = dfa_nonempty.sigma_ ∧
      dfa_nonempty_small.states_.length = 2 ∧
      ∀ w : List Nat, (∀ c ∈ w, c ∈ dfa_nonempty.sigma_) →
        dfa_nonempty_small.accepts w = dfa_nonempty.accepts w := by
  refine ⟨⟨?_, ?_, ?_, ?_, ?_⟩, ?_, ?_, ⟨?_, ?_, ?_, ?_, ?_⟩, ?_, ?_, ?_, ?_⟩
  all_goals try decide
  intro w hw
  cases w with
  | nil => rfl
  | cons c w =>
    have hc : c = 0 := by
      have := hw c (List.mem_cons_self _ _)
      simpa [dfa_nonempty] using this
    subst hc
    have hw' : ∀ c ∈ w, c ∈ dfa_nonempty.sigma_ :=
      fun d hd => hw d (List.mem_cons_of_mem _ hd)
    obtain ⟨r, hr, hrun⟩ := dfa_nonempty_run w hw' 11 (Or.inl rfl)
    have h1 : dfa_nonempty.run dfa_nonempty.initial_state_ (0 :: w) = .ok r := hrun
    have h2 : dfa_nonempty_small.run dfa_nonempty_small.initial_state_ (0 :: w) = .ok 11 :=
      dfa_nonempty_small_run w hw'
    simp only [accepts, h1, h2]
    rcases hr with rfl | rfl <;> rfl

theorem dfa_isolated_minimal_run :
    ∀ (w : List Nat) (r : Nat), dfa_isolated_minimal.run 10 w = .ok r → r = 10 := by
  intro w
  induction w with
  | nil =>
    intro r h
    simp only [run, Except.ok.injEq] at h
    exact h.symm
  | cons c w ih =>
    intro r h
    by_cases hc : c = 0
    · subst hc
      exact ih r h
    · have : c ∉ dfa_isolated_minimal.sigma_ := by simpa [dfa_isolated_minimal] using hc
      simp [run, validate, this] at h

/-- C4. The DFA `dfa_isolated` satisfies the invariants and `valid()`, and
`minimal()` returns a DFA to which the state `11` belongs although no input
leads to it from the initial state. -/
theorem minimal_isolated_unreachable :
    dfa_isolated.Inv ∧ dfa_isolated.valid = true ∧
      ∃ M, dfa_isolated.minimal = .ok M ∧ 11 ∈ M.states_ ∧
        ∀ w : List Nat, M.run M.initial_state_ w ≠ .ok 11 := by
  refine ⟨⟨?_, ?_, ?_, ?_, ?_⟩, ?_, dfa_isolated_minimal, ?_, ?_, ?_⟩
  all_goals try decide
  intro w h
  exact absurd (dfa_isolated_minimal_run w 11 h) (by decide)

/-- C5. The one-state DFA `dfa_accept_all`, whose state is accepting, satisfies
the invariants and `valid()`, and its `minimal()` has an empty accept set; the
one-state DFA `dfa_reject_all`, without accept state, gets the accept set
`{10}`: the two degenerate branches are exchanged. -/
theorem minimal_degenerate_swapped :
    dfa_accept_all.Inv ∧ dfa_accept_all.valid = true ∧
      (∀ q ∈ dfa_accept_all.states_, q ∈ dfa_accept_all.accept_states_) ∧
      dfa_accept_all.minimal =
        .ok { sigma_ := [0], states_ := [10], initial_state_ := 10,
              accept_states_ := [], delta_ := [((10, 0), 10)] } ∧
      (∀ q ∈ dfa_reject_all.states_, q ∉ dfa_reject_all.accept_states_) ∧
      dfa_reject_all.minimal.map (fun M => M.accept_states_) = .ok [10] := by
  refine ⟨⟨?_, ?_, ?_, ?_, ?_⟩, ?_, ?_, ?_, ?_, ?_⟩ <;> decide

/-- C6. The DFA `dfa_nonempty` satisfies the invariants and `valid()`; its
`minimal()` has three states but only two transitions and fails `valid()`,
so that a second `minimal()` reads an absent entry of `delta_`, which is
undefined. -/
theorem minimal_minimal_undefined :
    dfa_nonempty.Inv ∧ dfa_nonempty.valid = true ∧
      dfa_nonempty.minimal.map (fun M => M.states_.length) = .ok 3 ∧
      dfa_nonempty.minimal.map (fun M => M.delta_.length) = .ok 2 ∧
      dfa_nonempty.minimal.map (fun M => M.valid) = .ok false ∧
      dfa_nonempty.minimal.bind DFA.minimal = .error .undefined_behaviour := by
  refine ⟨⟨?_, ?_, ?_, ?_, ?_⟩, ?_, ?_, ?_, ?_, ?_⟩ <;> decide

end DFA

/-! ## NFA: paths and the epsilon closure -/

namespace NFA

variable {S Q : Type} [DecidableEq S] [DecidableEq Q]

theorem Path.append (N : NFA S Q) {q r t : Q} {u v : List S}
    (h1 : N.Path q u r) (h2 : N.Path r v t) : N.Path q (u ++ v) t := by
  induction h1 with
  | nil q => simpa using h2
  | eps he _ ih => exact Path.eps he (ih h2)
  | sym hc he _ ih => exact Path.sym hc he (ih h2)

theorem Path.eps_edge (N : NFA S Q) {q r t : Q} {u : List S}
    (h1 : N.Path q u r) (h2 : N.edge r N.epsilon_ t) : N.Path q u t := by
  have := Path.append N h1 (Path.eps h2 (Path.nil t))
  simpa using this

/-- A path that spells `w ++ [c]` reads `c` on its last labelled edge. -/
theorem Path.snoc_inv (N : NFA S Q) {q t : Q} {u : List S} (h : N.Path q u t) :
    ∀ (w : List S) (c : S), u = w ++ [c] →
      ∃ r r', N.Path q w r ∧ c ≠ N.epsilon_ ∧ N.edge r c r' ∧ N.Path r' [] t := by
  induction h with
  | nil q => intro w c hu; simp at hu
  | eps he _ ih =>
    intro w c hu
    obtain ⟨r, r', h1, h2, h3, h4⟩ := ih w c hu
    exact ⟨r, r', Path.eps he h1, h2, h3, h4⟩
  | @sym q r t c0 u0 hc he hp ih =>
    intro w c hu
    cases w with
    | nil =>
      simp only [List.nil_append, List.cons.injEq] at hu
      obtain ⟨rfl, rfl⟩ := hu
      exact ⟨q, r, Path.nil q, hc, he, hp⟩
    | cons a w =>
      simp only [List.cons_append, List.cons.injEq] at hu
      obtain ⟨rfl, hu⟩ := hu
      obtain ⟨r1, r', h1, h2, h3, h4⟩ := ih w c hu
      exact ⟨r1, r', Path.sym hc he h1, h2, h3, h4⟩

theorem Path.snoc (N : NFA S Q) {q r r' t : Q} {w : List S} {c : S}
    (h1 : N.Path q w r) (hc : c ≠ N.epsilon_) (he : N.edge r c r')
    (h2 : N.Path r' [] t) : N.Path q (w ++ [c]) t :=
  Path.append N h1 (Path.sym hc he h2)

/-- A set that is closed under epsilon edges contains every state that an
epsilon path reaches from one of its members. -/
theorem Path.mem_of_closed (N : NFA S Q) (X : List Q)
    (hX : ∀ r ∈ X, ∀ r', N.edge r N.epsilon_ r' → r' ∈ X)
    {q t : Q} {u : List S} (h : N.Path q u t) : u = [] → q ∈ X → t ∈ X := by
  induction h with
  | nil q => intro _ hq; exact hq
  | eps he _ ih => intro hu hq; exact ih hu (hX _ hq _ he)
  | sym _ _ _ _ => intro hu; simp at hu

theorem Path.congr (N N' : NFA S Q) (hd : N.delta_ = N'.delta_)
    (he : N.epsilon_ = N'.epsilon_) {q t : Q} {u : List S} (h : N.Path q u t) :
    N'.Path q u t := by
  induction h with
  | nil q => exact Path.nil q
  | eps h1 _ ih =>
    refine Path.eps ?_ ih
    unfold edge at h1 ⊢
    rw [← hd, ← he]
    exact h1
  | sym hc h1 _ ih =>
    refine Path.sym (he ▸ hc) ?_ ih
    unfold edge at h1 ⊢
    rw [← hd]
    exact h1

theorem epsilon_closure_visit_mem (targets : List Q) :
    ∀ (ret check_stack : List Q) (x : Q),
      (x ∈ (epsilon_closure_visit ret check_stack targets).1 ↔ x ∈ ret ∨ x ∈ targets) ∧
      (x ∈ (epsilon_closure_visit ret check_stack targets).2 ↔
        x ∈ check_stack ∨ (x ∈ targets ∧ x ∉ ret)) := by
  induction targets with
  | nil => intro ret st x; simp [epsilon_closure_visit]
  | cons q targets ih =>
    intro ret st x
    by_cases hq : q ∈ ret
    · simp only [epsilon_closure_visit, hq, if_true, List.mem_cons]
      obtain ⟨h1, h2⟩ := ih ret st x
      rw [h1, h2]
      constructor
      · constructor
        · rintro (h | h)
          · exact Or.inl h
          · exact Or.inr (Or.inr h)
        · rintro (h | rfl | h)
          · exact Or.inl h
          · exact Or.inl hq
          · exact Or.inr h
      · constructor
        · rintro (h | ⟨h, h'⟩)
          · exact Or.inl h
          · exact Or.inr ⟨Or.inr h, h'⟩
        · rintro (h | ⟨rfl | h, h'⟩)
          · exact Or.inl h
          · exact absurd hq h'
          · exact Or.inr ⟨h, h'⟩
    · simp only [epsilon_closure_visit, hq, if_false, List.mem_cons]
      obtain ⟨h1, h2⟩ := ih (set_insert ret q) (q :: st) x
      rw [h1, h2]
      simp only [mem_set_insert, List.mem_cons]
      constructor
      · tauto
      · constructor
        · rintro ((rfl | h) | ⟨h, h'⟩)
          · exact Or.inr ⟨Or.inl rfl, hq⟩
          · exact Or.inl h
          · exact Or.inr ⟨Or.inr h, fun hx => h' (Or.inl hx)⟩
        · rintro (h | ⟨rfl | h, h'⟩)
          · exact Or.inl (Or.inr h)
          · exact Or.inl (Or.inl rfl)
          · by_cases hxq : x = q
            · exact Or.inl (Or.inl hxq)
            · exact Or.inr ⟨h, fun hx => hx.elim h' hxq⟩

/-- The loop of `epsilon_closure` returns a set of states that an epsilon path
reaches from `q0`, which contains `ret` and is closed under epsilon edges. -/
theorem epsilon_closure_loop_spec (N : NFA S Q) (q0 : Q) :
    ∀ (fuel : Nat) (ret check_stack out : List Q),
      N.epsilon_closure_loop fuel ret check_stack = .ok out →
      (∀ r ∈ ret, N.Path q0 [] r) →
      (∀ r ∈ check_stack, r ∈ ret) →
      (∀ r ∈ ret, r ∈ check_stack ∨ ∀ r', N.edge r N.epsilon_ r' → r' ∈ ret) →
      (∀ r ∈ out, N.Path q0 [] r) ∧ (∀ r ∈ ret, r ∈ out) ∧
        (∀ r ∈ out, ∀ r', N.edge r N.epsilon_ r' → r' ∈ out) := by
  intro fuel
  induction fuel with
  | zero =>
    intro ret st out h h1 _ h3
    cases st with
    | nil =>
      simp only [epsilon_closure_loop, Except.ok.injEq] at h
      subst h
      refine ⟨h1, fun r hr => hr, fun r hr => ?_⟩
      rcases h3 r hr with h | h
      · simp at h
      · exact h
    | cons a st => simp [epsilon_closure_loop] at h
  | succ fuel ih =>
    intro ret st out h h1 h2 h3
    cases st with
    | nil =>
      simp only [epsilon_closure_loop, Except.ok.injEq] at h
      subst h
      refine ⟨h1, fun r hr => hr, fun r hr => ?_⟩
      rcases h3 r hr with h | h
      · simp at h
      · exact h
    | cons check st =>
      have hcheck : check ∈ ret := h2 check (List.mem_cons_self _ _)
      simp only [epsilon_closure_loop] at h
      cases hf : map_find N.delta_ (check, N.epsilon_) with
      | none =>
        rw [hf] at h
        obtain ⟨o1, o2, o3⟩ := ih ret st out h h1
          (fun r hr => h2 r (List.mem_cons_of_mem _ hr))
          (fun r hr => by
            rcases h3 r hr with h | h
            · rcases List.mem_cons.mp h with rfl | h
              · right
                intro r' ⟨targets, ht, _⟩
                rw [hf] at ht
                cases ht
              · exact Or.inl h
            · exact Or.inr h)
        exact ⟨o1, o2, o3⟩
      | some targets =>
        rw [hf] at h
        have hv := epsilon_closure_visit_mem targets ret st
        obtain ⟨o1, o2, o3⟩ := ih _ _ out h
          (fun r hr => by
            rcases ((hv r).1).mp hr with h | h
            · exact h1 r h
            · exact Path.eps_edge N (h1 check hcheck) ⟨targets, hf, h⟩)
          (fun r hr => by
            rcases ((hv r).2).mp hr with h | h
            · exact ((hv r).1).mpr (Or.inl (h2 r (List.mem_cons_of_mem _ h)))
            · exact ((hv r).1).mpr (Or.inr h.1))
          (fun r hr => by
            by_cases hr0 : r ∈ ret
            · rcases h3 r hr0 with h | h
              · rcases List.mem_cons.mp h with rfl | h
                · right
                  intro r' ⟨targets', ht, hr'⟩
                  rw [hf] at ht
                  cases ht
                  exact ((hv r').1).mpr (Or.inr hr')
                · exact Or.inl (((hv r).2).mpr (Or.inl h))
              · right
                intro r' he
                exact ((hv r').1).mpr (Or.inl (h r' he))
            · rcases ((hv r).1).mp hr with h | h
              · exact absurd h hr0
              · exact Or.inl (((hv r).2).mpr (Or.inr ⟨h, hr0⟩)))
        exact ⟨o1, fun r hr => o2 r (((hv r).1).mpr (Or.inl hr)), o3⟩

/-- The set returned by `epsilon_closure(q)` holds exactly the states that an
epsilon path reaches from `q`. -/
theorem epsilon_closure_spec (N : NFA S Q) (q : Q) (out : List Q)
    (h : N.epsilon_closure q = .ok out) :
    ∀ r, r ∈ out ↔ N.Path q [] r := by
  unfold epsilon_closure at h
  split at h
  · cases h
  · obtain ⟨o1, o2, o3⟩ := N.epsilon_closure_loop_spec q _ [q] [q] out h
      (fun r hr => by
        rw [List.mem_singleton] at hr
        subst hr
        exact Path.nil r)
      (fun r hr => hr)
      (fun r hr => Or.inl hr)
    intro r
    constructor
    · exact o1 r
    · intro hp
      exact Path.mem_of_closed N out o3 hp rfl (o2 q (List.mem_singleton_self q))

end NFA

/-! ## NFA: the subset construction -/

namespace NFA

variable {S Q : Type} [DecidableEq S] [DecidableEq Q]

theorem merge_closures_spec (N : NFA S Q) (targets : List Q) :
    ∀ (acc out : List Q), N.merge_closures acc targets = .ok out →
      (∀ r, r ∈ out ↔ r ∈ acc ∨ ∃ q' ∈ targets, N.Path q' [] r) ∧
        (acc.Nodup → out.Nodup) := by
  induction targets with
  | nil =>
    intro acc out h
    unfold merge_closures at h
    rw [foldlM_nil_ok] at h
    subst h
    simp
  | cons t targets ih =>
    intro acc out h
    unfold merge_closures at h
    rw [foldlM_cons_ok] at h
    obtain ⟨a', h1, h2⟩ := h
    cases hc : N.epsilon_closure t with
    | error e => rw [hc] at h1; cases h1
    | ok closure =>
      rw [hc] at h1
      simp only [Except.ok.injEq] at h1
      subst h1
      obtain ⟨i1, i2⟩ := ih _ out h2
      have hcl := N.epsilon_closure_spec t closure hc
      constructor
      · intro r
        rw [i1, mem_merge, hcl]
        simp only [List.mem_cons, exists_eq_or_imp]
        tauto
      · intro hacc
        exact i2 (nodup_merge _ _ hacc)

theorem next_state_fold_spec (N : NFA S Q) (c : S) (X : List Q) :
    ∀ (acc out : List Q), X.foldlM (N.next_state_step c) acc = .ok out →
      (∀ r, r ∈ out ↔ r ∈ acc ∨ ∃ q ∈ X, ∃ q', N.edge q c q' ∧ N.Path q' [] r) ∧
        (acc.Nodup → out.Nodup) := by
  induction X with
  | nil =>
    intro acc out h
    rw [foldlM_nil_ok] at h
    subst h
    simp
  | cons x X ih =>
    intro acc out h
    rw [foldlM_cons_ok] at h
    obtain ⟨a', h1, h2⟩ := h
    obtain ⟨i1, i2⟩ := ih a' out h2
    unfold next_state_step at h1
    cases hf : map_find N.delta_ (x, c) with
    | none =>
      rw [hf] at h1
      simp only [Except.ok.injEq] at h1
      subst h1
      constructor
      · intro r
        rw [i1]
        constructor
        · rintro (h | ⟨q, hq, q', he, hp⟩)
          · exact Or.inl h
          · exact Or.inr ⟨q, List.mem_cons_of_mem _ hq, q', he, hp⟩
        · rintro (h | ⟨q, hq, q', he, hp⟩)
          · exact Or.inl h
          · rcases List.mem_cons.mp hq with rfl | hq
            · obtain ⟨targets, ht, _⟩ := he
              rw [hf] at ht
              cases ht
            · exact Or.inr ⟨q, hq, q', he, hp⟩
      · exact i2
    | some targets =>
      rw [hf] at h1
      obtain ⟨m1, m2⟩ := N.merge_closures_spec targets acc a' h1
      constructor
      · intro r
        rw [i1, m1]
        constructor
        · rintro ((h | ⟨q', hq', hp⟩) | ⟨q, hq, q', he, hp⟩)
          · exact Or.inl h
          · exact Or.inr ⟨x, List.mem_cons_self _ _, q', ⟨targets, hf, hq'⟩, hp⟩
          · exact Or.inr ⟨q, List.mem_cons_of_mem _ hq, q', he, hp⟩
        · rintro (h | ⟨q, hq, q', he, hp⟩)
          · exact Or.inl (Or.inl h)
          · rcases List.mem_cons.mp hq with rfl | hq
            · obtain ⟨targets', ht, hq'⟩ := he
              rw [hf] at ht
              cases ht
              exact Or.inl (Or.inr ⟨q', hq', hp⟩)
            · exact Or.inr ⟨q, hq, q', he, hp⟩
      · intro hacc
        exact i2 (m2 hacc)

/-- The set `new_state` computed for `check_state` and `c` is the right one
and has no repetition. -/
theorem next_state_spec (N : NFA S Q) (X : List Q) (c : S) (out : List Q)
    (h : N.next_state X c = .ok out) : N.Good out X c ∧ out.Nodup := by
  obtain ⟨h1, h2⟩ := N.next_state_fold_spec c X [] out h
  refine ⟨fun r => ?_, h2 List.nodup_nil⟩
  rw [h1]
  simp

theorem get_ptr_to_member_some (set : List (List Q)) (state m : List Q)
    (h : get_ptr_to_member set state = some m) :
    m ∈ set ∧ m.length = state.length ∧ ∀ q ∈ state, q ∈ m := by
  unfold get_ptr_to_member at h
  have h1 := List.mem_of_find?_eq_some h
  have h2 := List.find?_some h
  simp only [Bool.and_eq_true, decide_eq_true_eq, List.all_eq_true] at h2
  exact ⟨h1, h2.1, h2.2⟩

/-- The member found by `get_ptr_to_member` has the same elements as `state`. -/
theorem get_ptr_to_member_mem (set : List (List Q)) (state m : List Q)
    (hs : state.Nodup) (h : get_ptr_to_member set state = some m) :
    ∀ q, q ∈ m ↔ q ∈ state := by
  obtain ⟨_, h2, h3⟩ := get_ptr_to_member_some set state m h
  have hp : state.Perm m :=
    (List.subperm_of_subset hs h3).perm_of_length_le (le_of_eq h2)
  intro q
  exact hp.mem_iff.symm

theorem Extends.refl (st : Subset_State S Q) : Extends st st :=
  ⟨fun _ h => h, fun _ h => h, fun _ h => h, fun _ h => Or.inl h⟩

theorem Extends.trans {st1 st2 st3 : Subset_State S Q}
    (h12 : Extends st1 st2) (h23 : Extends st2 st3) : Extends st1 st3 :=
  ⟨fun X h => h23.states_sub X (h12.states_sub X h),
   fun X h => h23.eval_sub X (h12.eval_sub X h),
   fun k h => h23.keys_sub k (h12.keys_sub k h),
   fun X h => by
     rcases h23.fresh X h with h | h
     · rcases h12.fresh X h with h | h
       · exact Or.inl h
       · exact Or.inr (h23.eval_sub X h)
     · exact Or.inr h⟩

/-- One symbol of the inner loop of `construct_dfa`: the entries stay right,
the state is extended and the entry for `(check_state, c)` is present. -/
theorem construct_dfa_symbol_spec (N : NFA S Q) (check_state : List Q)
    (st st' : Subset_State S Q) (c : S)
    (h : N.construct_dfa_symbol check_state st c = .ok st')
    (hg : N.Delta_Good st) :
    N.Delta_Good st' ∧ Extends st st' ∧
      (map_find st'.new_delta (check_state, c)).isSome := by
  unfold construct_dfa_symbol at h
  cases hn : N.next_state check_state c with
  | error e => rw [hn] at h; cases h
  | ok new_state =>
    rw [hn] at h
    simp only at h
    obtain ⟨hgood, hnodup⟩ := N.next_state_spec check_state c new_state hn
    cases hm : get_ptr_to_member st.new_states new_state with
    | none =>
      rw [hm] at h
      simp only [Except.ok.injEq] at h
      subst h
      refine ⟨?_, ⟨?_, ?_, ?_, ?_⟩, ?_⟩
      · intro X d T hf
        simp only [map_find_assign] at hf
        split at hf
        · rename_i hk
          simp only [Prod.mk.injEq] at hk
          obtain ⟨rfl, rfl⟩ := hk
          simp only [Option.some.injEq] at hf
          subst hf
          exact ⟨List.mem_append_right _ (List.mem_singleton_self _), hgood⟩
        · obtain ⟨h1, h2⟩ := hg X d T hf
          exact ⟨List.mem_append_left _ h1, h2⟩
      · intro X hX; exact List.mem_append_left _ hX
      · intro X hX; exact List.mem_cons_of_mem _ hX
      · intro k hk
        simp only [map_find_assign]
        split
        · rfl
        · exact hk
      · intro X hX
        rcases List.mem_append.mp hX with h | h
        · exact Or.inl h
        · rw [List.mem_singleton] at h
          subst h
          exact Or.inr (List.mem_cons_self _ _)
      · simp [map_find_assign]
    | some member =>
      rw [hm] at h
      simp only [Except.ok.injEq] at h
      subst h
      obtain ⟨hmem, _, _⟩ := get_ptr_to_member_some _ _ _ hm
      have heq := get_ptr_to_member_mem _ _ _ hnodup hm
      refine ⟨?_, ⟨?_, ?_, ?_, ?_⟩, ?_⟩
      · intro X d T hf
        simp only [map_find_assign] at hf
        split at hf
        · rename_i hk
          simp only [Prod.mk.injEq] at hk
          obtain ⟨rfl, rfl⟩ := hk
          simp only [Option.some.injEq] at hf
          subst hf
          exact ⟨hmem, fun r => (heq r).trans (hgood r)⟩
        · exact hg X d T hf
      · intro X hX; exact hX
      · intro X hX; exact hX
      · intro k hk
        simp only [map_find_assign]
        split
        · rfl
        · exact hk
      · intro X hX; exact Or.inl hX
      · simp [map_find_assign]

/-- The inner loop of `construct_dfa` over the symbols `cs`. -/
theorem construct_dfa_symbols_spec (N : NFA S Q) (check_state : List Q) (cs : List S) :
    ∀ (st st' : Subset_State S Q),
      cs.foldlM (N.construct_dfa_symbol check_state) st = .ok st' →
      N.Delta_Good st →
      N.Delta_Good st' ∧ Extends st st' ∧
        ∀ c ∈ cs, (map_find st'.new_delta (check_state, c)).isSome := by
  induction cs with
  | nil =>
    intro st st' h hg
    rw [foldlM_nil_ok] at h
    subst h
    exact ⟨hg, Extends.refl _, fun c hc => by simp at hc⟩
  | cons c cs ih =>
    intro st st' h hg
    rw [foldlM_cons_ok] at h
    obtain ⟨st1, h1, h2⟩ := h
    obtain ⟨g1, e1, k1⟩ := N.construct_dfa_symbol_spec check_state st st1 c h1 hg
    obtain ⟨g2, e2, k2⟩ := ih st1 st' h2 g1
    refine ⟨g2, e1.trans e2, fun d hd => ?_⟩
    rcases List.mem_cons.mp hd with rfl | hd
    · exact e2.keys_sub _ k1
    · exact k2 d hd

/-- The worklist loop of `construct_dfa` ends with an empty stack, right
entries and all entries present. -/
theorem construct_dfa_loop_spec (N : NFA S Q) (new_sigma : List S) :
    ∀ (fuel : Nat) (st st' : Subset_State S Q),
      N.construct_dfa_loop new_sigma fuel st = .ok st' →
      N.Delta_Good st → Delta_Done new_sigma st →
      N.Delta_Good st' ∧ Delta_Done new_sigma st' ∧ st'.to_eval = [] ∧
        ∀ X ∈ st.new_states, X ∈ st'.new_states := by
  intro fuel
  induction fuel with
  | zero =>
    intro st st' h hg hd
    unfold construct_dfa_loop at h
    cases he : st.to_eval with
    | nil =>
      rw [he] at h
      simp only [Except.ok.injEq] at h
      subst h
      exact ⟨hg, hd, he, fun X hX => hX⟩
    | cons a l => rw [he] at h; cases h
  | succ fuel ih =>
    intro st st' h hg hd
    unfold construct_dfa_loop at h
    cases he : st.to_eval with
    | nil =>
      rw [he] at h
      simp only [Except.ok.injEq] at h
      subst h
      exact ⟨hg, hd, he, fun X hX => hX⟩
    | cons check_state rest =>
      rw [he] at h
      simp only at h
      cases hf : new_sigma.foldlM (N.construct_dfa_symbol check_state)
          { st with to_eval := rest } with
      | error e => rw [hf] at h; cases h
      | ok st1 =>
        rw [hf] at h
        simp only at h
        obtain ⟨g1, e1, k1⟩ :=
          N.construct_dfa_symbols_spec check_state new_sigma _ st1 hf
            (fun X c T hT => hg X c T hT)
        have hd1 : Delta_Done new_sigma st1 := by
          intro X hX
          rcases e1.fresh X hX with h0 | h0
          · rcases hd X h0 with h1 | h1
            · rw [he] at h1
              rcases List.mem_cons.mp h1 with rfl | h1
              · exact Or.inr k1
              · exact Or.inl (e1.eval_sub X h1)
            · exact Or.inr (fun c hc => e1.keys_sub _ (h1 c hc))
          · exact Or.inl h0
        obtain ⟨g2, d2, t2, s2⟩ := ih st1 st' h g1 hd1
        exact ⟨g2, d2, t2, fun X hX => s2 X (e1.states_sub X hX)⟩

/-- In a DFA whose entries are right for the NFA, the loop of `operator()`
started in the set of states reached by `pre` ends in the set of states
reached by `pre ++ w`. -/
theorem dfa_run_spec (N : NFA S Q) (M : DFA S (List Q)) (q0 : Q)
    (hsig : ∀ c ∈ M.sigma_, c ≠ N.epsilon_)
    (hdelta : ∀ X ∈ M.states_, ∀ c ∈ M.sigma_,
      ∃ T, map_find M.delta_ (X, c) = some T ∧ T ∈ M.states_ ∧ N.Good T X c) :
    ∀ (w : List S) (pre : List S) (X : List Q), X ∈ M.states_ →
      (∀ c ∈ w, c ∈ M.sigma_) → (∀ r, r ∈ X ↔ N.Path q0 pre r) →
      ∃ T, M.run X w = .ok T ∧ T ∈ M.states_ ∧ ∀ r, r ∈ T ↔ N.Path q0 (pre ++ w) r := by
  intro w
  induction w with
  | nil =>
    intro pre X hX _ hsem
    exact ⟨X, rfl, hX, by simpa using hsem⟩
  | cons c w ih =>
    intro pre X hX hw hsem
    have hc : c ∈ M.sigma_ := hw c (List.mem_cons_self _ _)
    obtain ⟨T, hT, hTmem, hTgood⟩ := hdelta X hX c hc
    have hsem' : ∀ r, r ∈ T ↔ N.Path q0 (pre ++ [c]) r := by
      intro r
      rw [hTgood r]
      constructor
      · rintro ⟨q, hq, q', he, hp⟩
        exact Path.snoc N ((hsem q).mp hq) (hsig c hc) he hp
      · intro hp
        obtain ⟨q, q', h1, _, h3, h4⟩ := Path.snoc_inv N hp pre c rfl
        exact ⟨q, (hsem q).mpr h1, q', h3, h4⟩
    obtain ⟨T', hT', hT'mem, hT'sem⟩ :=
      ih (pre ++ [c]) T hTmem (fun d hd => hw d (List.mem_cons_of_mem _ hd)) hsem'
    refine ⟨T', ?_, hT'mem, ?_⟩
    · simp only [DFA.run, DFA.validate, hc, if_true, DFA.delta_at, hT]
      exact hT'
    · simpa using hT'sem

theorem mem_dfa_accept_states (N : NFA S Q) (new_states : List (List Q)) (T : List Q) :
    T ∈ N.dfa_accept_states new_states ↔
      T ∈ new_states ∧ ∃ f ∈ T, f ∈ N.accept_states_ := by
  have h := mem_foldl_insert_if
    (fun new_q : List Q => new_q.any (fun q => decide (q ∈ N.accept_states_)))
    new_states [] T
  unfold dfa_accept_states
  rw [h]
  simp

end NFA

/-! ## NFA: the construction terminates -/

namespace NFA

variable {S Q : Type} [DecidableEq S] [DecidableEq Q]

theorem values_length (N : NFA S Q) : N.values.length = N.value_count := by
  simp [values, value_count, List.length_flatten, List.map_map, Function.comp_def]

theorem mem_values_of_find (N : NFA S Q) (q : Q) (c : S) (targets : List Q)
    (h : map_find N.delta_ (q, c) = some targets) : ∀ r ∈ targets, r ∈ N.values := by
  intro r hr
  have := map_find_mem _ _ _ h
  simp only [values, List.mem_flatten, List.mem_map]
  exact ⟨targets, ⟨_, this, rfl⟩, hr⟩

theorem mem_values_of_edge (N : NFA S Q) {q r : Q} {c : S} (h : N.edge q c r) :
    r ∈ N.values := by
  obtain ⟨targets, h1, h2⟩ := h
  exact N.mem_values_of_find q c targets h1 r h2

theorem Path.mem_values (N : NFA S Q) {q t : Q} {u : List S} (h : N.Path q u t) :
    t = q ∨ t ∈ N.values := by
  induction h with
  | nil q => exact Or.inl rfl
  | eps he _ ih =>
    rcases ih with rfl | h
    · exact Or.inr (N.mem_values_of_edge he)
    · exact Or.inr h
  | sym _ he _ ih =>
    rcases ih with rfl | h
    · exact Or.inr (N.mem_values_of_edge he)
    · exact Or.inr h

theorem epsilon_closure_visit_nodup (targets : List Q) :
    ∀ (ret check_stack : List Q), ret.Nodup →
      (epsilon_closure_visit ret check_stack targets).1.Nodup ∧
      (epsilon_closure_visit ret check_stack targets).1.length + check_stack.length =
        ret.length + (epsilon_closure_visit ret check_stack targets).2.length := by
  induction targets with
  | nil => intro ret st h; exact ⟨h, rfl⟩
  | cons q targets ih =>
    intro ret st h
    by_cases hq : q ∈ ret
    · simp only [epsilon_closure_visit, hq, if_true]
      exact ih ret st h
    · simp only [epsilon_closure_visit, hq, if_false]
      obtain ⟨h1, h2⟩ := ih (set_insert ret q) (q :: st) (nodup_set_insert ret q h)
      refine ⟨h1, ?_⟩
      rw [length_set_insert_of_not_mem ret q hq, List.length_cons] at h2
      omega

/-- With enough fuel the loop of `epsilon_closure` returns a set. -/
theorem epsilon_closure_loop_ok (N : NFA S Q) (q0 : Q) :
    ∀ (fuel : Nat) (ret check_stack : List Q), ret.Nodup →
      (∀ r ∈ ret, r ∈ q0 :: N.values) →
      check_stack.length + (N.value_count + 1) ≤ fuel + ret.length →
      ∃ out, N.epsilon_closure_loop fuel ret check_stack = .ok out ∧ out.Nodup := by
  intro fuel
  induction fuel with
  | zero =>
    intro ret st hnd hsub hlen
    have hle : ret.length ≤ (q0 :: N.values).length :=
      (List.subperm_of_subset hnd hsub).length_le
    rw [List.length_cons, values_length] at hle
    cases st with
    | nil => exact ⟨ret, by simp [epsilon_closure_loop], hnd⟩
    | cons a st => simp only [List.length_cons] at hlen; omega
  | succ fuel ih =>
    intro ret st hnd hsub hlen
    cases st with
    | nil => exact ⟨ret, by simp [epsilon_closure_loop], hnd⟩
    | cons check st =>
      simp only [epsilon_closure_loop]
      cases hf : map_find N.delta_ (check, N.epsilon_) with
      | none =>
        simp only
        apply ih ret st hnd hsub
        simp only [List.length_cons] at hlen
        omega
      | some targets =>
        simp only
        obtain ⟨h1, h2⟩ := epsilon_closure_visit_nodup targets ret st hnd
        apply ih _ _ h1
        · intro r hr
          rcases ((epsilon_closure_visit_mem targets ret st r).1).mp hr with h | h
          · exact hsub r h
          · exact List.mem_cons_of_mem _ (N.mem_values_of_find _ _ _ hf r h)
        · simp only [List.length_cons] at hlen
          omega

/-- The call `epsilon_closure(q)` on a state of `states_` returns a set,
which has no repetition. -/
theorem epsilon_closure_ok (N : NFA S Q) (q : Q) (hq : q ∈ N.states_) :
    ∃ out, N.epsilon_closure q = .ok out ∧ out.Nodup := by
  unfold epsilon_closure
  simp only [hq, not_true_eq_false, if_false]
  apply N.epsilon_closure_loop_ok q
  · exact List.nodup_singleton q
  · intro r hr
    rw [List.mem_singleton] at hr
    subst hr
    exact List.mem_cons_self _ _
  · simp only [List.length_singleton]
    omega

theorem merge_closures_ok (N : NFA S Q) (targets : List Q)
    (ht : ∀ r ∈ targets, r ∈ N.states_) :
    ∀ acc, ∃ out, N.merge_closures acc targets = .ok out := by
  induction targets with
  | nil => intro acc; exact ⟨acc, rfl⟩
  | cons t targets ih =>
    intro acc
    obtain ⟨cl, hcl, _⟩ := N.epsilon_closure_ok t (ht t (List.mem_cons_self _ _))
    obtain ⟨out, hout⟩ := ih (fun r hr => ht r (List.mem_cons_of_mem _ hr)) (merge acc cl)
    refine ⟨out, ?_⟩
    unfold merge_closures
    rw [foldlM_cons_ok]
    refine ⟨merge acc cl, ?_, hout⟩
    rw [hcl]

theorem next_state_fold_ok (N : NFA S Q) (hN : N.Inv) (c : S) (X : List Q) :
    ∀ acc, ∃ out, X.foldlM (N.next_state_step c) acc = .ok out := by
  induction X with
  | nil => intro acc; exact ⟨acc, rfl⟩
  | cons x X ih =>
    intro acc
    have hstep : ∃ a', N.next_state_step c acc x = .ok a' := by
      unfold next_state_step
      cases hf : map_find N.delta_ (x, c) with
      | none => exact ⟨acc, rfl⟩
      | some targets =>
        exact N.merge_closures_ok targets
          (fun r hr => hN.value_sub _ (map_find_mem _ _ _ hf) r hr) acc
    obtain ⟨a', ha'⟩ := hstep
    obtain ⟨out, hout⟩ := ih a'
    exact ⟨out, (foldlM_cons_ok _ _ _ _ _).mpr ⟨a', ha', hout⟩⟩

theorem next_state_ok (N : NFA S Q) (hN : N.Inv) (X : List Q) (c : S) :
    ∃ out, N.next_state X c = .ok out :=
  N.next_state_fold_ok hN c X []

/-- A list of subsets of `U` that differ from one another as sets has at most
`2 ^ |U|` members. -/
theorem length_le_two_pow (U : List Q) (l : List (List Q))
    (hsub : ∀ X ∈ l, ∀ r ∈ X, r ∈ U) (hd : (l.map List.toFinset).Nodup) :
    l.length ≤ 2 ^ U.length := by
  have h1 : (l.map List.toFinset).toFinset ⊆ U.toFinset.powerset := by
    intro A hA
    rw [List.mem_toFinset, List.mem_map] at hA
    obtain ⟨X, hX, rfl⟩ := hA
    rw [Finset.mem_powerset]
    intro r hr
    rw [List.mem_toFinset] at hr ⊢
    exact hsub X hX r hr
  have h2 := Finset.card_le_card h1
  rw [List.toFinset_card_of_nodup hd, List.length_map, Finset.card_powerset] at h2
  exact h2.trans (Nat.pow_le_pow_right (by decide) (List.toFinset_card_le U))

/-- One symbol of the inner loop of `construct_dfa` succeeds on a
well-formed NFA, keeps the members of `new_states` distinct, and pushes as
many sets on the stack as it adds to `new_states`. -/
theorem construct_dfa_symbol_ok (N : NFA S Q) (hN : N.Inv) (q0 : Q)
    (check_state : List Q) (st : Subset_State S Q) (c : S)
    (hd : N.States_Distinct q0 st) :
    ∃ st', N.construct_dfa_symbol check_state st c = .ok st' ∧
      N.States_Distinct q0 st' ∧
      st'.new_states.length + st.to_eval.length =
        st.new_states.length + st'.to_eval.length := by
  obtain ⟨new_state, hn⟩ := N.next_state_ok hN check_state c
  obtain ⟨hgood, hnodup⟩ := N.next_state_spec check_state c new_state hn
  have hsub : ∀ r ∈ new_state, r ∈ q0 :: N.values := by
    intro r hr
    obtain ⟨q, _, q', he, hp⟩ := (hgood r).mp hr
    rcases Path.mem_values N hp with rfl | h
    · exact List.mem_cons_of_mem _ (N.mem_values_of_edge he)
    · exact List.mem_cons_of_mem _ h
  unfold construct_dfa_symbol
  rw [hn]
  simp only
  cases hm : get_ptr_to_member st.new_states new_state with
  | none =>
    simp only
    refine ⟨_, rfl, ⟨?_, ?_, ?_⟩, ?_⟩
    · intro X hX
      rcases List.mem_append.mp hX with h | h
      · exact hd.nodup X h
      · rw [List.mem_singleton] at h
        subst h
        exact hnodup
    · intro X hX
      rcases List.mem_append.mp hX with h | h
      · exact hd.sub X h
      · rw [List.mem_singleton] at h
        subst h
        exact hsub
    · rw [List.map_append, List.map_singleton]
      refine List.nodup_append.mpr ⟨hd.distinct, List.nodup_singleton _, ?_⟩
      intro A hA hB
      rw [List.mem_singleton] at hB
      subst hB
      rw [List.mem_map] at hA
      obtain ⟨X, hX, hXA⟩ := hA
      unfold get_ptr_to_member at hm
      rw [List.find?_eq_none] at hm
      apply hm X hX
      simp only [Bool.and_eq_true, decide_eq_true_eq, List.all_eq_true]
      constructor
      · rw [← List.toFinset_card_of_nodup (hd.nodup X hX),
          ← List.toFinset_card_of_nodup hnodup, hXA]
      · intro r hr
        have : r ∈ X.toFinset := by
          rw [hXA]
          exact List.mem_toFinset.mpr hr
        exact List.mem_toFinset.mp this
    · simp only [List.length_append, List.length_singleton, List.length_cons,
        List.length_nil]
      omega
  | some member =>
    simp only
    exact ⟨_, rfl, ⟨hd.nodup, hd.sub, hd.distinct⟩, rfl⟩

theorem construct_dfa_symbols_ok (N : NFA S Q) (hN : N.Inv) (q0 : Q)
    (check_state : List Q) (cs : List S) :
    ∀ (st : Subset_State S Q), N.States_Distinct q0 st →
      ∃ st', cs.foldlM (N.construct_dfa_symbol check_state) st = .ok st' ∧
        N.States_Distinct q0 st' ∧
        st'.new_states.length + st.to_eval.length =
          st.new_states.length + st'.to_eval.length := by
  induction cs with
  | nil => intro st hd; exact ⟨st, rfl, hd, rfl⟩
  | cons c cs ih =>
    intro st hd
    obtain ⟨st1, h1, d1, l1⟩ := N.construct_dfa_symbol_ok hN q0 check_state st c hd
    obtain ⟨st2, h2, d2, l2⟩ := ih st1 d1
    refine ⟨st2, (foldlM_cons_ok _ _ _ _ _).mpr ⟨st1, h1, h2⟩, d2, ?_⟩
    omega

/-- With enough fuel the worklist loop of `construct_dfa` returns. -/
theorem construct_dfa_loop_ok (N : NFA S Q) (hN : N.Inv) (q0 : Q) (new_sigma : List S) :
    ∀ (fuel : Nat) (st : Subset_State S Q), N.States_Distinct q0 st →
      st.to_eval.length + 2 ^ (N.value_count + 1) ≤ fuel + st.new_states.length →
      ∃ st', N.construct_dfa_loop new_sigma fuel st = .ok st' := by
  intro fuel
  induction fuel with
  | zero =>
    intro st hd hlen
    have hle := length_le_two_pow (q0 :: N.values) st.new_states hd.sub hd.distinct
    rw [List.length_cons, values_length] at hle
    unfold construct_dfa_loop
    cases he : st.to_eval with
    | nil => exact ⟨st, rfl⟩
    | cons a l =>
      rw [he, List.length_cons] at hlen
      omega
  | succ fuel ih =>
    intro st hd hlen
    unfold construct_dfa_loop
    cases he : st.to_eval with
    | nil => exact ⟨st, rfl⟩
    | cons check_state rest =>
      simp only
      obtain ⟨st1, h1, d1, l1⟩ :=
        N.construct_dfa_symbols_ok hN q0 check_state new_sigma
          { st with to_eval := rest } ⟨hd.nodup, hd.sub, hd.distinct⟩
      rw [h1]
      simp only
      apply ih st1 d1
      rw [he, List.length_cons] at hlen
      simp only at l1
      omega

end NFA

/-! ## NFA: the cached DFA decides the paths -/

namespace NFA

variable {S Q : Type} [DecidableEq S] [DecidableEq Q]

/-- What a successful `construct_dfa` leaves in `M_`. -/
theorem construct_dfa_spec (N0 N : NFA S Q) (h : N0.construct_dfa = .ok N) :
    ∃ M, N = { N0 with M_ := some M } ∧
      M.sigma_ = N0.sigma_.filter (fun c => decide (c ≠ N0.epsilon_)) ∧
      M.initial_state_ ∈ M.states_ ∧
      (∀ r, r ∈ M.initial_state_ ↔ N0.Path N0.initial_state_ [] r) ∧
      (∀ X ∈ M.states_, ∀ c ∈ M.sigma_,
        ∃ T, map_find M.delta_ (X, c) = some T ∧ T ∈ M.states_ ∧ N0.Good T X c) ∧
      M.accept_states_ = N0.dfa_accept_states M.states_ := by
  unfold construct_dfa at h
  simp only at h
  cases hc : N0.epsilon_closure N0.initial_state_ with
  | error e => rw [hc] at h; cases h
  | ok init =>
    rw [hc] at h
    simp only at h
    cases hl : N0.construct_dfa_loop
        (N0.sigma_.filter (fun c => decide (c ≠ N0.epsilon_)))
        (2 ^ (N0.value_count + 1))
        { new_states := [init], to_eval := [init], new_delta := [] } with
    | error e => rw [hl] at h; cases h
    | ok st =>
      rw [hl] at h
      simp only [Except.ok.injEq] at h
      obtain ⟨g, d, t, sub⟩ := N0.construct_dfa_loop_spec _ _ _ st hl
        (fun X c T hT => by simp [map_find] at hT)
        (fun X hX => Or.inl hX)
      refine ⟨_, h.symm, rfl, sub init (List.mem_singleton_self _),
        N0.epsilon_closure_spec _ init hc, ?_, rfl⟩
      intro X hX c hc'
      rcases d X hX with h0 | h0
      · rw [t] at h0
        cases h0
      · obtain ⟨T, hT⟩ := Option.isSome_iff_exists.mp (h0 c hc')
        obtain ⟨g1, g2⟩ := g X c T hT
        exact ⟨T, hT, g1, g2⟩

/-- On an NFA whose construction succeeded and an input of symbols of
`sigma_`, `operator()` returns the answer of the cached DFA on the input
without `epsilon_`, which tells whether a path that spells this word leads
from the initial state to an accept state. -/
theorem accepts_core (N0 N : NFA S Q) (h : N0.construct_dfa = .ok N) (w : List S)
    (hw : ∀ c ∈ w, c ∈ N0.sigma_) :
    ∃ M b, N.M_ = some M ∧
      M.accepts (w.filter (fun c => decide (c ≠ N0.epsilon_))) = .ok b ∧
      N.accepts w = .ok b ∧
      (b = true ↔ ∃ f ∈ N0.accept_states_,
        N0.Path N0.initial_state_ (w.filter (fun c => decide (c ≠ N0.epsilon_))) f) := by
  obtain ⟨M, hN, hsig, hinit, hsem, hdelta, hacc⟩ := N0.construct_dfa_spec N h
  have hsig' : ∀ c ∈ M.sigma_, c ≠ N0.epsilon_ := by
    intro c hc
    rw [hsig, List.mem_filter] at hc
    simpa using hc.2
  have hw' : ∀ c ∈ w.filter (fun c => decide (c ≠ N0.epsilon_)), c ∈ M.sigma_ := by
    intro c hc
    rw [List.mem_filter] at hc
    rw [hsig, List.mem_filter]
    exact ⟨hw c hc.1, hc.2⟩
  obtain ⟨T, hT, hTmem, hTsem⟩ :=
    dfa_run_spec N0 M N0.initial_state_ hsig' hdelta _ [] M.initial_state_ hinit hw' hsem
  have hM : M.accepts (w.filter (fun c => decide (c ≠ N0.epsilon_))) =
      .ok (M.is_accepting T) := by
    simp only [DFA.accepts, hT]
  refine ⟨M, M.is_accepting T, ?_, hM, ?_, ?_⟩
  · rw [hN]
  · subst hN
    simp only [accepts, hM]
  · simp only [DFA.is_accepting, decide_eq_true_eq, hacc, mem_dfa_accept_states]
    constructor
    · rintro ⟨_, f, hf, hfacc⟩
      exact ⟨f, hfacc, by simpa using (hTsem f).mp hf⟩
    · rintro ⟨f, hfacc, hp⟩
      exact ⟨hTmem, f, (hTsem f).mpr (by simpa using hp), hfacc⟩

/-- The constructor succeeds on components that satisfy the NFA invariants. -/
theorem new_ok (sigma : List S) (states : List Q) (q0 : Q) (F : List Q)
    (delta : List ((Q × S) × List Q)) (eps : S)
    (hinv : Inv (NFA.mk sigma states q0 F delta eps none)) :
    ∃ N, NFA.new sigma states q0 F delta eps = .ok N := by
  unfold NFA.new
  have he : eps ∈ sigma := hinv.epsilon_mem
  simp only [he, not_true_eq_false, if_false]
  unfold construct_dfa
  simp only
  obtain ⟨init, hc, hnd⟩ :=
    epsilon_closure_ok (NFA.mk sigma states q0 F delta eps none) q0 hinv.initial_mem
  rw [hc]
  simp only
  have hsem := epsilon_closure_spec _ _ _ hc
  obtain ⟨st, hst⟩ := construct_dfa_loop_ok (NFA.mk sigma states q0 F delta eps none) hinv q0
    (sigma.filter (fun c => decide (c ≠ eps))) (2 ^ (value_count (NFA.mk sigma states q0 F delta eps none) + 1))
    { new_states := [init], to_eval := [init], new_delta := [] }
    ⟨fun X hX => by
        rw [List.mem_singleton] at hX
        subst hX
        exact hnd,
      fun X hX r hr => by
        rw [List.mem_singleton] at hX
        subst hX
        rcases Path.mem_values _ ((hsem r).mp hr) with rfl | h
        · exact List.mem_cons_self _ _
        · exact List.mem_cons_of_mem _ h,
      by simp⟩
    (by
      simp only [List.length_singleton]
      exact Nat.le_of_eq (Nat.add_comm _ _))
  rw [hst]
  exact ⟨_, rfl⟩

/-- C1. For components that satisfy the NFA invariants the constructor
returns an NFA `N`, and on every input `w` of symbols of `sigma` other than
`eps` the call `N(w)` returns a boolean, which is true exactly when some path
of `N` from the initial state to an accept state spells `w`. -/
theorem accepts_iff_path (sigma : List S) (states : List Q) (q0 : Q) (F : List Q)
    (delta : List ((Q × S) × List Q)) (eps : S)
    (hinv : Inv (NFA.mk sigma states q0 F delta eps none)) :
    ∃ N, NFA.new sigma states q0 F delta eps = .ok N ∧
      (N.sigma_ = sigma ∧ N.states_ = states ∧ N.initial_state_ = q0 ∧
        N.accept_states_ = F ∧ N.delta_ = delta ∧ N.epsilon_ = eps) ∧
      ∀ w : List S, (∀ c ∈ w, c ∈ sigma ∧ c ≠ eps) →
        ∃ b, N.accepts w = .ok b ∧
          (b = true ↔ ∃ f ∈ N.accept_states_, N.Path N.initial_state_ w f) := by
  obtain ⟨N, hN⟩ := new_ok sigma states q0 F delta eps hinv
  have hN0 := hN
  unfold NFA.new at hN
  have he : eps ∈ sigma := hinv.epsilon_mem
  simp only [he, not_true_eq_false, if_false] at hN
  obtain ⟨M', hN', _⟩ := construct_dfa_spec _ N hN
  refine ⟨N, hN0, by subst hN'; exact ⟨rfl, rfl, rfl, rfl, rfl, rfl⟩, fun w hw => ?_⟩
  obtain ⟨M, b, _, _, h3, h4⟩ :=
    accepts_core _ N hN w (fun c hc => (hw c hc).1)
  have hfilter : w.filter (fun c => decide (c ≠ eps)) = w := by
    rw [List.filter_eq_self]
    intro c hc
    simpa using (hw c hc).2
  simp only [hfilter] at h4
  refine ⟨b, h3, h4.trans ?_⟩
  subst hN'
  constructor
  · rintro ⟨f, hf, hp⟩
    exact ⟨f, hf, Path.congr (NFA.mk sigma states q0 F delta eps none)
      (NFA.mk sigma states q0 F delta eps (some M')) rfl rfl hp⟩
  · rintro ⟨f, hf, hp⟩
    exact ⟨f, hf, Path.congr (NFA.mk sigma states q0 F delta eps (some M'))
      (NFA.mk sigma states q0 F delta eps none) rfl rfl hp⟩

/-- C1 (witness). The statement at the components of `nfa_small`. -/
theorem accepts_iff_path_witness :
    Inv (NFA.mk [0, 1, 2] [10, 11, 12] 10 [12] [((10, 0), [11]), ((11, 1), [12])] 0 none) ∧
      ∃ N, NFA.new [0, 1, 2] [10, 11, 12] 10 [12] [((10, 0), [11]), ((11, 1), [12])] 0 =
          .ok N ∧
        (N.sigma_ = [0, 1, 2] ∧ N.states_ = [10, 11, 12] ∧ N.initial_state_ = 10 ∧
          N.accept_states_ = [12] ∧ N.delta_ = [((10, 0), [11]), ((11, 1), [12])] ∧
          N.epsilon_ = 0) ∧
        ∀ w : List Nat, (∀ c ∈ w, c ∈ [0, 1, 2] ∧ c ≠ 0) →
          ∃ b, N.accepts w = .ok b ∧
            (b = true ↔ ∃ f ∈ N.accept_states_, N.Path N.initial_state_ w f) :=
  have hinv : Inv (NFA.mk [0, 1, 2] [10, 11, 12] 10 [12]
      [((10, 0), [11]), ((11, 1), [12])] 0 none) :=
    ⟨by decide, by decide, by decide, by decide, by decide⟩
  ⟨hinv, accepts_iff_path _ _ _ _ _ _ hinv⟩

/-- C9 (as amended). For components that satisfy the NFA invariants the
constructor returns an NFA `N` with a cached DFA `M`, and on every input `w`
of symbols of `sigma` the call `N(w)` returns the boolean that `M` returns on
`w` with every occurrence of `eps` removed. -/
theorem to_dfa_accepts (sigma : List S) (states : List Q) (q0 : Q) (F : List Q)
    (delta : List ((Q × S) × List Q)) (eps : S)
    (hinv : Inv (NFA.mk sigma states q0 F delta eps none)) :
    ∃ N M, NFA.new sigma states q0 F delta eps = .ok N ∧ N.to_dfa = .ok M ∧
      ∀ w : List S, (∀ c ∈ w, c ∈ sigma) →
        ∃ b, N.accepts w = .ok b ∧
          M.accepts (w.filter (fun c => decide (c ≠ eps))) = .ok b := by
  obtain ⟨N, hN⟩ := new_ok sigma states q0 F delta eps hinv
  have hN' := hN
  unfold NFA.new at hN'
  have he : eps ∈ sigma := hinv.epsilon_mem
  simp only [he, not_true_eq_false, if_false] at hN'
  obtain ⟨M, hM, _⟩ := construct_dfa_spec _ N hN'
  have hMN : N.M_ = some M := by rw [hM]
  refine ⟨N, M, hN, by simp only [to_dfa, hMN], fun w hw => ?_⟩
  obtain ⟨M', b, h1, h2, h3, _⟩ := accepts_core _ N hN' w hw
  rw [hMN] at h1
  simp only [Option.some.injEq] at h1
  subst h1
  exact ⟨b, h3, h2⟩

/-- C9 (counterexample). The NFA `nfa_small` is constructed and passes
`valid()`; on the input `[0]`, made of its epsilon symbol, which belongs to
`sigma_`, the NFA returns `false` while its `to_dfa()` fails with
`DFA_Invalid_Sigma_Character_Error`. -/
theorem to_dfa_rejects_epsilon :
    nfa_small.map (fun N => N.valid) = .ok true ∧
      nfa_small.map (fun N => decide (N.epsilon_ ∈ N.sigma_)) = .ok true ∧
      nfa_small.map (fun N => N.epsilon_) = .ok 0 ∧
      nfa_small.bind (fun N => N.accepts [0]) = .ok false ∧
      nfa_small.bind (fun N => N.to_dfa.bind (fun M => M.accepts [0])) =
        .error .DFA_Invalid_Sigma_Character_Error := by
  refine ⟨?_, ?_, ?_, ?_, ?_⟩ <;> decide

/-- C9 (witness). The amended statement at the components of `nfa_small`. -/
theorem to_dfa_accepts_witness :
    Inv (NFA.mk [0, 1, 2] [10, 11, 12] 10 [12] [((10, 0), [11]), ((11, 1), [12])] 0 none) ∧
      ∃ N M, NFA.new [0, 1, 2] [10, 11, 12] 10 [12] [((10, 0), [11]), ((11, 1), [12])] 0 =
          .ok N ∧ N.to_dfa = .ok M ∧
        ∀ w : List Nat, (∀ c ∈ w, c ∈ [0, 1, 2]) →
          ∃ b, N.accepts w = .ok b ∧
            M.accepts (w.filter (fun c => decide (c ≠ 0))) = .ok b :=
  have hinv : Inv (NFA.mk [0, 1, 2] [10, 11, 12] 10 [12]
      [((10, 0), [11]), ((11, 1), [12])] 0 none) :=
    ⟨by decide, by decide, by decide, by decide, by decide⟩
  ⟨hinv, to_dfa_accepts _ _ _ _ _ _ hinv⟩

end NFA

/-! ## NFA: a constructed object answers or rejects the alphabet -/

namespace NFA

variable {S Q : Type} [DecidableEq S] [DecidableEq Q]

/-- In a DFA with all its transitions, the loop of `operator()` fails with
`DFA_Invalid_Sigma_Character_Error` as soon as the input holds a symbol
outside `sigma_`. -/
theorem dfa_run_invalid {R : Type} [DecidableEq R] (M : DFA S R)
    (hdelta : ∀ X ∈ M.states_, ∀ c ∈ M.sigma_,
      ∃ T, map_find M.delta_ (X, c) = some T ∧ T ∈ M.states_) :
    ∀ (w : List S) (X : R), X ∈ M.states_ → (∃ c ∈ w, c ∉ M.sigma_) →
      M.run X w = .error .DFA_Invalid_Sigma_Character_Error := by
  intro w
  induction w with
  | nil => intro X _ h; obtain ⟨c, hc, _⟩ := h; cases hc
  | cons d w ih =>
    intro X hX h
    by_cases hd : d ∈ M.sigma_
    · obtain ⟨T, hT, hTmem⟩ := hdelta X hX d hd
      have h' : ∃ c ∈ w, c ∉ M.sigma_ := by
        obtain ⟨c, hc, hbad⟩ := h
        rcases List.mem_cons.mp hc with rfl | hc
        · exact absurd hd hbad
        · exact ⟨c, hc, hbad⟩
      simp only [DFA.run, DFA.validate, hd, if_true, DFA.delta_at, hT]
      exact ih T hTmem h'
    · simp [DFA.run, DFA.validate, hd]

/-- A constructed NFA returns a boolean on an input of symbols of `sigma_` and
fails with `NFA_Invalid_Sigma_Character_Error` on any other input. -/
theorem accepts_cases (N : NFA S Q) (hN : N.Constructed) (w : List S) :
    ((∀ c ∈ w, c ∈ N.sigma_) ∧ ∃ b, N.accepts w = .ok b) ∨
      ((∃ c ∈ w, c ∉ N.sigma_) ∧
        N.accepts w = .error .NFA_Invalid_Sigma_Character_Error) := by
  obtain ⟨sigma, states, q0, F, delta, eps, hnew⟩ := hN
  unfold NFA.new at hnew
  split at hnew
  · cases hnew
  · rename_i heps
    simp only [not_not] at heps
    obtain ⟨M, hNeq, hsig, hinit, _, hdelta, _⟩ := construct_dfa_spec _ N hnew
    by_cases hw : ∀ c ∈ w, c ∈ N.sigma_
    · left
      refine ⟨hw, ?_⟩
      have hw' : ∀ c ∈ w, c ∈ sigma := by
        intro c hc
        have := hw c hc
        rw [hNeq] at this
        exact this
      obtain ⟨_, b, _, _, h3, _⟩ := accepts_core _ N hnew w hw'
      exact ⟨b, h3⟩
    · right
      simp only [not_forall] at hw
      obtain ⟨c, hc, hbad⟩ := hw
      refine ⟨⟨c, hc, hbad⟩, ?_⟩
      subst hNeq
      simp only at hbad hsig
      have hc_ne : c ≠ eps := fun h => hbad (h ▸ heps)
      have hrun := dfa_run_invalid M
        (fun X hX d hd => by
          obtain ⟨T, h1, h2, _⟩ := hdelta X hX d hd
          exact ⟨T, h1, h2⟩)
        (w.filter (fun c => decide (c ≠ eps))) M.initial_state_ hinit
        ⟨c, List.mem_filter.mpr ⟨hc, by simpa using hc_ne⟩, fun h => by
          rw [hsig, List.mem_filter] at h
          exact hbad h.1⟩
      simp only [accepts, DFA.accepts, hrun]

theorem new_constructed (sigma : List S) (states : List Q) (q0 : Q) (F : List Q)
    (delta : List ((Q × S) × List Q)) (eps : S) (N : NFA S Q)
    (h : NFA.new sigma states q0 F delta eps = .ok N) : N.Constructed :=
  ⟨sigma, states, q0, F, delta, eps, h⟩

end NFA

/-! ## NFA: state elimination of a concrete automaton -/

namespace NFA

variable {S Q : Type} [DecidableEq S] [DecidableEq Q]

/-- C8. The NFA `nfa_accept_epsilon` is constructed and passes `valid()`, and
it accepts the input `a`; with the fresh states `3` and `4` and the sentinel
`#`, `to_regex` returns the `Regex` of the empty expression, which rejects
`a`: the epsilon edge that leaves the accept state `0` is overwritten by the
edge to `qa`. -/
theorem to_regex_rejects_accepted :
    nfa_accept_epsilon.map (fun N => N.valid) = .ok true ∧
      nfa_accept_epsilon.bind (fun N => N.accepts [['a']]) = .ok true ∧
      nfa_accept_epsilon.bind
          (fun N => (N.to_regex 3 4 ['#']).map (fun R => R.expression_)) = .ok [] ∧
      nfa_accept_epsilon.bind
          (fun N => (N.to_regex 3 4 ['#']).bind (fun R => R.accepts_vector [['a']])) =
        .ok false ∧
      nfa_accept_epsilon.bind
          (fun N => (N.to_regex 3 4 ['#']).bind (fun R => R.accepts ['a'])) =
        .ok false := by
  refine ⟨?_, ?_, ?_, ?_, ?_⟩ <;> decide

end NFA

/-! ## Regex: the compiled NFA is a constructed object -/

namespace Regex

end Regex

/-! ## Regex: membership and the compiled NFA -/

namespace Regex

theorem to_int_neg (n : Nat) (h : INT_MAX < n % 4294967296) : to_int n < 0 := by
  have h1 : n % 4294967296 < 4294967296 := Nat.mod_lt _ (by decide)
  unfold to_int
  rw [if_neg (by omega)]
  omega

/-- With the empty sentinel, `operator()(std::string)` throws
`std::length_error` on a string whose size is a negative `int`. -/
theorem accepts_length_error (R : Regex) (w : List Char) (heps : R.epsilon_ = [])
    (h : INT_MAX < w.length % 4294967296) : R.accepts w = .error .length_error := by
  simp only [accepts, heps, remove_epsilon, ne_eq, not_true_eq_false, if_false,
    to_int_neg _ h, if_true]

end Regex

end Reglang

/-! ## DFA: what `operator()` returns -/

namespace Reglang

namespace DFA

variable {S Q : Type} [DecidableEq S] [DecidableEq Q]

theorem run_eq_delta_star (M : DFA S Q) (hM : M.Inv) :
    ∀ (w : List S) (q : Q), q ∈ M.states_ → (∀ c ∈ w, c ∈ M.sigma_) →
      M.run q w = .ok (M.delta_star q w) := by
  intro w
  induction w with
  | nil => intro q _ _; rfl
  | cons c w ih =>
    intro q hq hw
    have hc : c ∈ M.sigma_ := hw c (List.mem_cons_self _ _)
    obtain ⟨r, hr⟩ := Option.isSome_iff_exists.mp (hM.total q hq c hc)
    have hr_mem : r ∈ M.states_ := hM.value_mem _ (map_find_mem _ _ _ hr)
    have h := ih r hr_mem (fun d hd => hw d (List.mem_cons_of_mem _ hd))
    simp only [run, validate, hc, if_true, delta_at, hr, h, delta_star, List.foldl_cons,
      Option.getD_some]

theorem run_invalid (M : DFA S Q) (hM : M.Inv) :
    ∀ (w : List S) (q : Q), q ∈ M.states_ → (∃ c ∈ w, c ∉ M.sigma_) →
      M.run q w = .error .DFA_Invalid_Sigma_Character_Error := by
  intro w
  induction w with
  | nil => intro q _ h; obtain ⟨c, hc, _⟩ := h; cases hc
  | cons d w ih =>
    intro q hq h
    by_cases hd : d ∈ M.sigma_
    · obtain ⟨r, hr⟩ := Option.isSome_iff_exists.mp (hM.total q hq d hd)
      have hr_mem : r ∈ M.states_ := hM.value_mem _ (map_find_mem _ _ _ hr)
      have h' : ∃ c ∈ w, c ∉ M.sigma_ := by
        obtain ⟨c, hc, hbad⟩ := h
        rcases List.mem_cons.mp hc with rfl | hc
        · exact absurd hd hbad
        · exact ⟨c, hc, hbad⟩
      simp only [run, validate, hd, if_true, delta_at, hr]
      exact ih r hr_mem h'
    · simp [run, validate, hd]

/-- C17. On a DFA that satisfies the invariants, `operator()` fails with
`DFA_Invalid_Sigma_Character_Error` exactly when some symbol of the input is
outside `sigma_`; on any other input it returns whether the state reached
from `initial_state_` by iterating `δ` over the input is an accept state, so
that no absent entry of `delta_` is read. -/
theorem accepts_spec (M : DFA S Q) (hM : M.Inv) (w : List S) :
    (M.accepts w = .error .DFA_Invalid_Sigma_Character_Error ↔ ∃ c ∈ w, c ∉ M.sigma_) ∧
      ((∀ c ∈ w, c ∈ M.sigma_) →
        M.accepts w =
          .ok (decide (M.delta_star M.initial_state_ w ∈ M.accept_states_))) := by
  have hgood : (∀ c ∈ w, c ∈ M.sigma_) →
      M.accepts w =
        .ok (decide (M.delta_star M.initial_state_ w ∈ M.accept_states_)) := by
    intro hw
    simp only [accepts, M.run_eq_delta_star hM w _ hM.initial_mem hw, is_accepting]
  refine ⟨⟨fun h => ?_, fun h => ?_⟩, hgood⟩
  · by_contra hne
    have hw : ∀ c ∈ w, c ∈ M.sigma_ := by
      intro c hc
      by_contra hbad
      exact hne ⟨c, hc, hbad⟩
    rw [hgood hw] at h
    cases h
  · simp only [accepts, M.run_invalid hM w _ hM.initial_mem h]

/-- C17 (witness). The statement at the DFA of scenario S4 and the input `0, 2`. -/
theorem accepts_spec_witness :
    dfa_parity.Inv ∧
      ((dfa_parity.accepts [0, 2] = .error .DFA_Invalid_Sigma_Character_Error ↔
          ∃ c ∈ [0, 2], c ∉ dfa_parity.sigma_) ∧
        ((∀ c ∈ [0, 2], c ∈ dfa_parity.sigma_) →
          dfa_parity.accepts [0, 2] =
            .ok (decide (dfa_parity.delta_star dfa_parity.initial_state_ [0, 2] ∈
              dfa_parity.accept_states_)))) :=
  have hinv : dfa_parity.Inv :=
    ⟨by decide, by decide, by decide, by decide, by decide⟩
  ⟨hinv, accepts_spec dfa_parity hinv [0, 2]⟩

end DFA

end Reglang

/-! ## NFA: the epsilon closure as a least fixed point -/

namespace Reglang

namespace NFA

variable {S Q : Type} [DecidableEq S] [DecidableEq Q]

/-- C15. The call `epsilon_closure(q)` fails with `NFA_Invalid_State_Error`
when `q` is not in `states_`; otherwise it returns a set `X` without
repetition that contains `q`, contains `Δ(r, ε)` for every `r ∈ X`, is
included in every set with these two properties, and holds exactly the
states that a path of epsilon edges reaches from `q`. -/
theorem epsilon_closure_smallest (N : NFA S Q) (q : Q) :
    (q ∉ N.states_ → N.epsilon_closure q = .error .NFA_Invalid_State_Error) ∧
      (q ∈ N.states_ →
        ∃ X, N.epsilon_closure q = .ok X ∧ X.Nodup ∧ q ∈ X ∧ N.Closed X ∧
          (∀ Y : List Q, q ∈ Y → N.Closed Y → ∀ r ∈ X, r ∈ Y) ∧
          ∀ r, r ∈ X ↔ N.Path q [] r) := by
  constructor
  · intro hq
    simp only [epsilon_closure, hq, not_false_eq_true, if_true]
  · intro hq
    obtain ⟨X, hX, hnd⟩ := N.epsilon_closure_ok q hq
    have hsem := N.epsilon_closure_spec q X hX
    refine ⟨X, hX, hnd, (hsem q).mpr (Path.nil q), ?_, ?_, hsem⟩
    · intro r hr r' he
      exact (hsem r').mpr (Path.eps_edge N ((hsem r).mp hr) he)
    · intro Y hqY hY r hr
      exact Path.mem_of_closed N Y hY ((hsem r).mp hr) rfl hqY

/-- C15 (witness). The statement at the record of `nfa_small`, at the state
`10` of `states_` and at the state `13` outside it. -/
theorem epsilon_closure_smallest_witness :
    (NFA.mk [0, 1, 2] [10, 11, 12] 10 [12] [((10, 0), [11]), ((11, 1), [12])] 0
        none).epsilon_closure 10 = .ok [10, 11] ∧
      (NFA.mk [0, 1, 2] [10, 11, 12] 10 [12] [((10, 0), [11]), ((11, 1), [12])] 0
        none).epsilon_closure 13 = .error .NFA_Invalid_State_Error ∧
      ∃ X, (NFA.mk [0, 1, 2] [10, 11, 12] 10 [12] [((10, 0), [11]), ((11, 1), [12])] 0
          none).epsilon_closure 10 = .ok X ∧ X.Nodup ∧ 10 ∈ X :=
  ⟨by decide, by decide, by
    obtain ⟨X, h1, h2, h3, _⟩ :=
      (epsilon_closure_smallest (NFA.mk [0, 1, 2] [10, 11, 12] 10 [12]
        [((10, 0), [11]), ((11, 1), [12])] 0 none) 10).2 (by decide)
    exact ⟨X, h1, h2, h3⟩⟩

theorem mem_states_of_path (N : NFA S Q) (hN : N.Inv) {q t : Q} {u : List S}
    (h : N.Path q u t) (hq : q ∈ N.states_) : t ∈ N.states_ := by
  rcases Path.mem_values N h with rfl | hv
  · exact hq
  · simp only [values, List.mem_flatten, List.mem_map] at hv
    obtain ⟨l, ⟨e, he, rfl⟩, ht⟩ := hv
    exact hN.value_sub e he t ht

/-- C16. On an NFA that satisfies the invariants and a state `q` of `states_`,
`epsilon_closure(q)` returns a set `X` that contains `q`; `epsilon_closure(r)`
returns a subset of `X` for every `r ∈ X`, and every member of `X` belongs to
`epsilon_closure(r)` for some `r ∈ X`. -/
theorem epsilon_closure_idempotent (N : NFA S Q) (hN : N.Inv) (q : Q)
    (hq : q ∈ N.states_) :
    ∃ X, N.epsilon_closure q = .ok X ∧ q ∈ X ∧
      (∀ r ∈ X, ∃ Y, N.epsilon_closure r = .ok Y ∧ ∀ t ∈ Y, t ∈ X) ∧
      (∀ t ∈ X, ∃ r ∈ X, ∃ Y, N.epsilon_closure r = .ok Y ∧ t ∈ Y) := by
  obtain ⟨X, hX, _⟩ := N.epsilon_closure_ok q hq
  have hsem := N.epsilon_closure_spec q X hX
  have hqX : q ∈ X := (hsem q).mpr (Path.nil q)
  refine ⟨X, hX, hqX, ?_, ?_⟩
  · intro r hr
    have hr_mem : r ∈ N.states_ := N.mem_states_of_path hN ((hsem r).mp hr) hq
    obtain ⟨Y, hY, _⟩ := N.epsilon_closure_ok r hr_mem
    have hsemY := N.epsilon_closure_spec r Y hY
    refine ⟨Y, hY, fun t ht => ?_⟩
    have := Path.append N ((hsem r).mp hr) ((hsemY t).mp ht)
    exact (hsem t).mpr (by simpa using this)
  · intro t ht
    exact ⟨q, hqX, X, hX, ht⟩

/-- C16 (witness). The statement at the record of `nfa_small` and the state `10`. -/
theorem epsilon_closure_idempotent_witness :
    Inv (NFA.mk [0, 1, 2] [10, 11, 12] 10 [12] [((10, 0), [11]), ((11, 1), [12])] 0 none) ∧
      ∃ X, (NFA.mk [0, 1, 2] [10, 11, 12] 10 [12] [((10, 0), [11]), ((11, 1), [12])] 0
          none).epsilon_closure 10 = .ok X ∧ 10 ∈ X ∧
        (∀ r ∈ X, ∃ Y, (NFA.mk [0, 1, 2] [10, 11, 12] 10 [12]
            [((10, 0), [11]), ((11, 1), [12])] 0 none).epsilon_closure r = .ok Y ∧
          ∀ t ∈ Y, t ∈ X) ∧
        (∀ t ∈ X, ∃ r ∈ X, ∃ Y, (NFA.mk [0, 1, 2] [10, 11, 12] 10 [12]
            [((10, 0), [11]), ((11, 1), [12])] 0 none).epsilon_closure r = .ok Y ∧
          t ∈ Y) :=
  have hinv : Inv (NFA.mk [0, 1, 2] [10, 11, 12] 10 [12]
      [((10, 0), [11]), ((11, 1), [12])] 0 none) :=
    ⟨by decide, by decide, by decide, by decide, by decide⟩
  ⟨hinv, epsilon_closure_idempotent _ hinv 10 (by decide)⟩

end NFA

end Reglang

/-! ## NFA: `operator()` and the cached DFA -/

namespace Reglang

namespace NFA

variable {S Q : Type} [DecidableEq S] [DecidableEq Q]

/-- A constructed NFA and its cached DFA: on an input of symbols of `sigma_`
both return the same boolean, the DFA on the input without `epsilon_`; on any
other input the DFA fails with its own error and the NFA with the NFA-level
error. -/
theorem accepts_cases_dfa (N : NFA S Q) (hN : N.Constructed) :
    ∃ M, N.M_ = some M ∧ ∀ w : List S,
      ((∀ c ∈ w, c ∈ N.sigma_) ∧
          ∃ b, N.accepts w = .ok b ∧
            M.accepts (w.filter (fun c => decide (c ≠ N.epsilon_))) = .ok b) ∨
        ((∃ c ∈ w, c ∉ N.sigma_) ∧
          N.accepts w = .error .NFA_Invalid_Sigma_Character_Error ∧
          M.accepts (w.filter (fun c => decide (c ≠ N.epsilon_))) =
            .error .DFA_Invalid_Sigma_Character_Error) := by
  obtain ⟨sigma, states, q0, F, delta, eps, hnew⟩ := hN
  unfold NFA.new at hnew
  split at hnew
  · cases hnew
  · rename_i heps
    simp only [not_not] at heps
    obtain ⟨M, hNeq, hsig, hinit, _, hdelta, _⟩ := construct_dfa_spec _ N hnew
    refine ⟨M, by rw [hNeq], fun w => ?_⟩
    by_cases hw : ∀ c ∈ w, c ∈ N.sigma_
    · left
      refine ⟨hw, ?_⟩
      have hw' : ∀ c ∈ w, c ∈ sigma := by
        intro c hc
        have := hw c hc
        rw [hNeq] at this
        exact this
      obtain ⟨M', b, h1, h2, h3, _⟩ := accepts_core _ N hnew w hw'
      have hMM : M' = M := by
        rw [hNeq] at h1
        simp only [Option.some.injEq] at h1
        exact h1.symm
      subst hMM
      refine ⟨b, h3, ?_⟩
      rw [hNeq]
      exact h2
    · right
      simp only [not_forall] at hw
      obtain ⟨c, hc, hbad⟩ := hw
      refine ⟨⟨c, hc, hbad⟩, ?_⟩
      subst hNeq
      simp only at hbad hsig
      have hc_ne : c ≠ eps := fun h => hbad (h ▸ heps)
      have hrun := dfa_run_invalid M
        (fun X hX d hd => by
          obtain ⟨T, h1, h2, _⟩ := hdelta X hX d hd
          exact ⟨T, h1, h2⟩)
        (w.filter (fun c => decide (c ≠ eps))) M.initial_state_ hinit
        ⟨c, List.mem_filter.mpr ⟨hc, by simpa using hc_ne⟩, fun h => by
          rw [hsig, List.mem_filter] at h
          exact hbad h.1⟩
      constructor
      · simp only [accepts, DFA.accepts, hrun]
      · simp only [DFA.accepts, hrun]

/-- C18. For components that satisfy the NFA invariants the constructor
returns an NFA `N` with a cached DFA `M`. On an input `w` of symbols of
`sigma`, `N(w)` returns the boolean that `M` returns on `w` with every
occurrence of `eps` removed; on an input with a symbol outside `sigma`, and
only then, `N(w)` fails, with `NFA_Invalid_Sigma_Character_Error`, the inner
DFA having failed with `DFA_Invalid_Sigma_Character_Error`. -/
theorem accepts_delegates (sigma : List S) (states : List Q) (q0 : Q) (F : List Q)
    (delta : List ((Q × S) × List Q)) (eps : S)
    (hinv : Inv (NFA.mk sigma states q0 F delta eps none)) :
    ∃ N M, NFA.new sigma states q0 F delta eps = .ok N ∧ N.to_dfa = .ok M ∧
      ∀ w : List S,
        ((∀ c ∈ w, c ∈ sigma) ∧
            ∃ b, N.accepts w = .ok b ∧
              M.accepts (w.filter (fun c => decide (c ≠ eps))) = .ok b) ∨
          ((∃ c ∈ w, c ∉ sigma) ∧
            N.accepts w = .error .NFA_Invalid_Sigma_Character_Error ∧
            M.accepts (w.filter (fun c => decide (c ≠ eps))) =
              .error .DFA_Invalid_Sigma_Character_Error) := by
  obtain ⟨N, hN⟩ := new_ok sigma states q0 F delta eps hinv
  obtain ⟨M, hM, hcases⟩ := accepts_cases_dfa N (new_constructed _ _ _ _ _ _ _ hN)
  have hN' := hN
  unfold NFA.new at hN'
  have he : eps ∈ sigma := hinv.epsilon_mem
  simp only [he, not_true_eq_false, if_false] at hN'
  obtain ⟨M', hNeq, _⟩ := construct_dfa_spec _ N hN'
  have hsig : N.sigma_ = sigma := by rw [hNeq]
  have heps : N.epsilon_ = eps := by rw [hNeq]
  refine ⟨N, M, hN, by simp only [to_dfa, hM], fun w => ?_⟩
  have := hcases w
  rw [hsig, heps] at this
  exact this

/-- C18 (witness). The statement at the components of `nfa_small`. -/
theorem accepts_delegates_witness :
    Inv (NFA.mk [0, 1, 2] [10, 11, 12] 10 [12] [((10, 0), [11]), ((11, 1), [12])] 0 none) ∧
      ∃ N M, NFA.new [0, 1, 2] [10, 11, 12] 10 [12] [((10, 0), [11]), ((11, 1), [12])] 0 =
          .ok N ∧ N.to_dfa = .ok M ∧
        ∀ w : List Nat,
          ((∀ c ∈ w, c ∈ [0, 1, 2]) ∧
              ∃ b, N.accepts w = .ok b ∧
                M.accepts (w.filter (fun c => decide (c ≠ 0))) = .ok b) ∨
            ((∃ c ∈ w, c ∉ [0, 1, 2]) ∧
              N.accepts w = .error .NFA_Invalid_Sigma_Character_Error ∧
              M.accepts (w.filter (fun c => decide (c ≠ 0))) =
                .error .DFA_Invalid_Sigma_Character_Error) :=
  have hinv : Inv (NFA.mk [0, 1, 2] [10, 11, 12] 10 [12]
      [((10, 0), [11]), ((11, 1), [12])] 0 none) :=
    ⟨by decide, by decide, by decide, by decide, by decide⟩
  ⟨hinv, accepts_delegates _ _ _ _ _ _ hinv⟩

end NFA

end Reglang

/-! ## Regex: properties shared by every compiled NFA -/

namespace Reglang

namespace Regex

theorem new_sigma {S Q : Type} [DecidableEq S] [DecidableEq Q]
    (sigma : List S) (states : List Q) (q0 : Q) (F : List Q)
    (delta : List ((Q × S) × List Q)) (eps : S) (N : NFA S Q)
    (h : NFA.new sigma states q0 F delta eps = .ok N) :
    N.sigma_ = sigma ∧ N.states_ = states ∧ N.initial_state_ = q0 ∧
      N.accept_states_ = F ∧ N.delta_ = delta ∧ N.epsilon_ = eps := by
  unfold NFA.new at h
  split at h
  · cases h
  · obtain ⟨M, hN, _⟩ := NFA.construct_dfa_spec _ N h
    subst hN
    exact ⟨rfl, rfl, rfl, rfl, rfl, rfl⟩

/-- C20. The `Regex` of the expression `ab` with the epsilon sentinel `e`
returns `false` on the string `aeb`, although the string without the
occurrence of `e` is `ab`, on whose split the vector membership test returns
`true`: the loop of `operator()(std::string)` compares `substr(1, len)` with
the sentinel and erases at the index `i`. -/
theorem accepts_keeps_sentinel :
    (Regex.new ['a', 'b'] ['e'] []).bind (fun R => R.accepts ['a', 'e', 'b']) = .ok false ∧
      remove_occurrences ['e'] 4 ['a', 'e', 'b'] = ['a', 'b'] ∧
      (Regex.new ['a', 'b'] ['e'] []).bind
          (fun R => R.accepts_vector (split (remove_occurrences ['e'] 4 ['a', 'e', 'b']))) =
        .ok true ∧
      remove_epsilon ['e'] true ['a', 'e', 'b'] = ['e', 'b'] := by
  refine ⟨?_, ?_, ?_, ?_⟩ <;> decide

end Regex

end Reglang

/-! ## DFA: the product of two automata -/

namespace Reglang

section IntersectionLemmas

variable {S Q0 Q1 : Type} [DecidableEq S] [DecidableEq Q0] [DecidableEq Q1]

theorem mem_foldl_insert_map {α β : Type} [DecidableEq β] (f : α → β) (l : List α) :
    ∀ (acc : List β) (y : β),
      y ∈ l.foldl (fun acc x => set_insert acc (f x)) acc ↔ y ∈ acc ∨ ∃ x ∈ l, y = f x := by
  induction l with
  | nil => intro acc y; simp
  | cons x xs ih =>
    intro acc y
    simp only [List.foldl_cons, ih, mem_set_insert, List.mem_cons, exists_eq_or_imp]
    tauto

theorem mem_intersection_states (M0 : DFA S Q0) (M1 : DFA S Q1) (q : Q0 × Q1) :
    q ∈ intersection_states M0 M1 ↔ q.1 ∈ M0.states_ ∧ q.2 ∈ M1.states_ := by
  have key : ∀ (l : List Q0) (acc : List (Q0 × Q1)),
      q ∈ l.foldl
          (fun new_states q0 =>
            M1.states_.foldl (fun new_states q1 => set_insert new_states (q0, q1))
              new_states)
          acc ↔ q ∈ acc ∨ (q.1 ∈ l ∧ q.2 ∈ M1.states_) := by
    intro l
    induction l with
    | nil => intro acc; simp
    | cons x xs ih =>
      intro acc
      simp only [List.foldl_cons, ih, List.mem_cons]
      rw [mem_foldl_insert_map (fun q1 => (x, q1)) M1.states_ acc q]
      constructor
      · rintro ((h | ⟨q1, hq1, rfl⟩) | h)
        · exact Or.inl h
        · exact Or.inr ⟨Or.inl rfl, hq1⟩
        · exact Or.inr ⟨Or.inr h.1, h.2⟩
      · rintro (h | ⟨rfl | h, h2⟩)
        · exact Or.inl (Or.inl h)
        · exact Or.inl (Or.inr ⟨q.2, h2, rfl⟩)
        · exact Or.inr ⟨h, h2⟩
  unfold intersection_states
  rw [key]
  simp

theorem mem_intersection_accept_states (M0 : DFA S Q0) (M1 : DFA S Q1)
    (new_states : List (Q0 × Q1)) (q : Q0 × Q1) :
    q ∈ intersection_accept_states M0 M1 new_states ↔
      q ∈ new_states ∧ (q.1 ∈ M0.accept_states_ ∨ q.2 ∈ M1.accept_states_) := by
  have h := mem_foldl_insert_if
    (fun q : Q0 × Q1 => M0.is_accepting q.1 || M1.is_accepting q.2) new_states [] q
  have hfun : (fun (new_accept_states : List (Q0 × Q1)) (q : Q0 × Q1) =>
      if M0.is_accepting q.1 then set_insert new_accept_states q
      else if M1.is_accepting q.2 then set_insert new_accept_states q
      else new_accept_states) =
      (fun new_accept_states q =>
        if (M0.is_accepting q.1 || M1.is_accepting q.2) = true
        then set_insert new_accept_states q else new_accept_states) := by
    funext acc q
    cases M0.is_accepting q.1 <;> cases M1.is_accepting q.2 <;> simp
  unfold intersection_accept_states
  rw [hfun, h]
  simp [DFA.is_accepting]

/-- One row of the product table: it is computed, the entries stay right, no
key is lost and the keys of the row are present. -/
theorem intersection_delta_row_spec (M0 : DFA S Q0) (M1 : DFA S Q1) (h0 : M0.Inv)
    (h1 : M1.Inv) (hsig : ∀ c ∈ M0.sigma_, c ∈ M1.sigma_) (q : Q0 × Q1)
    (hq0 : q.1 ∈ M0.states_) (hq1 : q.2 ∈ M1.states_) :
    ∀ (cs : List S), (∀ c ∈ cs, c ∈ M0.sigma_) →
      ∀ new_delta, Product_Delta M0 M1 new_delta →
        ∃ new_delta',
          cs.foldlM (intersection_delta_step M0 M1 q)
            new_delta = .ok new_delta' ∧
          Product_Delta M0 M1 new_delta' ∧
          (∀ k, (map_find new_delta k).isSome → (map_find new_delta' k).isSome) ∧
          ∀ c ∈ cs, (map_find new_delta' (q, c)).isSome := by
  intro cs
  induction cs with
  | nil =>
    intro _ nd hnd
    exact ⟨nd, rfl, hnd, fun _ h => h, fun c hc => by cases hc⟩
  | cons c cs ih =>
    intro hcs nd hnd
    have hc : c ∈ M0.sigma_ := hcs c (List.mem_cons_self _ _)
    obtain ⟨a, ha⟩ := Option.isSome_iff_exists.mp (h0.total q.1 hq0 c hc)
    obtain ⟨b, hb⟩ := Option.isSome_iff_exists.mp (h1.total q.2 hq1 c (hsig c hc))
    have ha' : M0.delta_at q.1 c = .ok a := by simp only [DFA.delta_at, ha]
    have hb' : M1.delta_at q.2 c = .ok b := by simp only [DFA.delta_at, hb]
    have hnd1 : Product_Delta M0 M1 (map_assign nd (q, c) (a, b)) := by
      intro q' c' v hv
      rw [map_find_assign] at hv
      split at hv
      · rename_i hk
        simp only [Prod.mk.injEq] at hk
        obtain ⟨rfl, rfl⟩ := hk
        simp only [Option.some.injEq] at hv
        subst hv
        exact ⟨ha', hb'⟩
      · exact hnd q' c' v hv
    obtain ⟨nd', hfold, hgood, hmono, hrow⟩ :=
      ih (fun d hd => hcs d (List.mem_cons_of_mem _ hd)) _ hnd1
    refine ⟨nd', ?_, hgood, ?_, ?_⟩
    · rw [foldlM_cons_ok]
      exact ⟨_, by simp only [intersection_delta_step, ha', hb'], hfold⟩
    · intro k hk
      apply hmono
      rw [map_find_assign]
      split
      · rfl
      · exact hk
    · intro d hd
      rcases List.mem_cons.mp hd with rfl | hd
      · apply hmono
        simp [map_find_assign]
      · exact hrow d hd

/-- The product table is computed, every entry is right and every pair of a
state of the list and a symbol of `M0.sigma_` is a key. -/
theorem intersection_delta_spec (M0 : DFA S Q0) (M1 : DFA S Q1) (h0 : M0.Inv)
    (h1 : M1.Inv) (hsig : ∀ c ∈ M0.sigma_, c ∈ M1.sigma_) :
    ∀ (qs : List (Q0 × Q1)), (∀ q ∈ qs, q.1 ∈ M0.states_ ∧ q.2 ∈ M1.states_) →
      ∀ new_delta, Product_Delta M0 M1 new_delta →
        ∃ new_delta',
          qs.foldlM (intersection_delta_row M0 M1) new_delta = .ok new_delta' ∧
          Product_Delta M0 M1 new_delta' ∧
          (∀ k, (map_find new_delta k).isSome → (map_find new_delta' k).isSome) ∧
          ∀ q ∈ qs, ∀ c ∈ M0.sigma_, (map_find new_delta' (q, c)).isSome := by
  intro qs
  induction qs with
  | nil =>
    intro _ nd hnd
    exact ⟨nd, rfl, hnd, fun _ h => h, fun q hq => by cases hq⟩
  | cons q qs ih =>
    intro hqs nd hnd
    obtain ⟨hq0, hq1⟩ := hqs q (List.mem_cons_self _ _)
    obtain ⟨nd1, hrow, hgood1, hmono1, hkeys1⟩ :=
      intersection_delta_row_spec M0 M1 h0 h1 hsig q hq0 hq1 M0.sigma_ (fun _ h => h) nd hnd
    obtain ⟨nd', hfold, hgood, hmono, hkeys⟩ :=
      ih (fun p hp => hqs p (List.mem_cons_of_mem _ hp)) nd1 hgood1
    refine ⟨nd', ?_, hgood, fun k hk => hmono k (hmono1 k hk), ?_⟩
    · rw [foldlM_cons_ok]
      exact ⟨nd1, hrow, hfold⟩
    · intro p hp c hc
      rcases List.mem_cons.mp hp with rfl | hp
      · exact hmono _ (hkeys1 c hc)
      · exact hkeys p hp c hc

/-- In a DFA whose table is a product table with all its keys, the loop of
`operator()` runs the two automata side by side. -/
theorem product_run (M0 : DFA S Q0) (M1 : DFA S Q1) (M : DFA S (Q0 × Q1))
    (h0 : M0.Inv) (h1 : M1.Inv) (hsig : M.sigma_ = M0.sigma_)
    (hsig1 : ∀ c ∈ M0.sigma_, c ∈ M1.sigma_)
    (hgood : Product_Delta M0 M1 M.delta_)
    (hkeys : ∀ q : Q0 × Q1, q.1 ∈ M0.states_ → q.2 ∈ M1.states_ → ∀ c ∈ M0.sigma_,
      (map_find M.delta_ (q, c)).isSome) :
    ∀ (w : List S) (q : Q0 × Q1), q.1 ∈ M0.states_ → q.2 ∈ M1.states_ →
      (∀ c ∈ w, c ∈ M0.sigma_) →
      ∃ r0 r1, M0.run q.1 w = .ok r0 ∧ M1.run q.2 w = .ok r1 ∧
        M.run q w = .ok (r0, r1) ∧ r0 ∈ M0.states_ ∧ r1 ∈ M1.states_ := by
  intro w
  induction w with
  | nil => intro q hq0 hq1 _; exact ⟨q.1, q.2, rfl, rfl, rfl, hq0, hq1⟩
  | cons c w ih =>
    intro q hq0 hq1 hw
    have hc : c ∈ M0.sigma_ := hw c (List.mem_cons_self _ _)
    obtain ⟨v, hv⟩ := Option.isSome_iff_exists.mp (hkeys q hq0 hq1 c hc)
    obtain ⟨ha, hb⟩ := hgood q c v hv
    have ha_mem : v.1 ∈ M0.states_ := by
      unfold DFA.delta_at at ha
      split at ha
      · rename_i r hr
        simp only [Except.ok.injEq] at ha
        subst ha
        exact h0.value_mem _ (map_find_mem _ _ _ hr)
      · cases ha
    have hb_mem : v.2 ∈ M1.states_ := by
      unfold DFA.delta_at at hb
      split at hb
      · rename_i r hr
        simp only [Except.ok.injEq] at hb
        subst hb
        exact h1.value_mem _ (map_find_mem _ _ _ hr)
      · cases hb
    obtain ⟨r0, r1, e0, e1, e, m0, m1⟩ :=
      ih v ha_mem hb_mem (fun d hd => hw d (List.mem_cons_of_mem _ hd))
    refine ⟨r0, r1, ?_, ?_, ?_, m0, m1⟩
    · simp only [DFA.run, DFA.validate, hc, if_true, ha]
      exact e0
    · simp only [DFA.run, DFA.validate, hsig1 c hc, if_true, hb]
      exact e1
    · have hcM : c ∈ M.sigma_ := hsig ▸ hc
      simp only [DFA.run, DFA.validate, hcM, if_true, DFA.delta_at, hv]
      exact e

/-- C11. For two DFAs that satisfy the invariants and have the same alphabet,
`dfa_intersection` returns a DFA which, on every input of symbols of the
alphabet, accepts exactly when the first or the second DFA accepts. -/
theorem dfa_intersection_accepts (M0 : DFA S Q0) (M1 : DFA S Q1) (h0 : M0.Inv)
    (h1 : M1.Inv) (hn0 : M0.sigma_.Nodup) (hn1 : M1.sigma_.Nodup)
    (hsig : ∀ c, c ∈ M0.sigma_ ↔ c ∈ M1.sigma_) :
    ∃ M, dfa_intersection M0 M1 = .ok M ∧
      ∀ w : List S, (∀ c ∈ w, c ∈ M0.sigma_) →
        ∃ b0 b1, M0.accepts w = .ok b0 ∧ M1.accepts w = .ok b1 ∧
          M.accepts w = .ok (b0 || b1) := by
  have hsub : ∀ c ∈ M0.sigma_, c ∈ M1.sigma_ := fun c hc => (hsig c).mp hc
  have hlen : M0.sigma_.length = M1.sigma_.length :=
    ((List.perm_ext_iff_of_nodup hn0 hn1).mpr hsig).length_eq
  have hne : set_ne M0.sigma_ M1.sigma_ = false := by
    simp only [set_ne, hlen, ne_eq, not_true_eq_false, decide_False, Bool.false_or,
      List.any_eq_false, decide_eq_true_eq, not_not]
    exact hsub
  obtain ⟨nd, hnd, hgood, _, hkeys⟩ :=
    intersection_delta_spec M0 M1 h0 h1 hsub (intersection_states M0 M1)
      (fun q hq => (mem_intersection_states M0 M1 q).mp hq) []
      (fun q c v hv => by simp [map_find] at hv)
  refine ⟨_, by
    unfold dfa_intersection
    simp only [hne, Bool.false_eq_true, if_false]
    unfold intersection_delta at *
    rw [hnd], fun w hw => ?_⟩
  obtain ⟨r0, r1, e0, e1, e, m0, m1⟩ :=
    product_run M0 M1
      { sigma_ := M0.sigma_
        states_ := intersection_states M0 M1
        initial_state_ := (M0.initial_state_, M1.initial_state_)
        accept_states_ := intersection_accept_states M0 M1 (intersection_states M0 M1)
        delta_ := nd }
      h0 h1 rfl hsub hgood
      (fun q hq0 hq1 c hc =>
        hkeys q ((mem_intersection_states M0 M1 q).mpr ⟨hq0, hq1⟩) c hc)
      w (M0.initial_state_, M1.initial_state_) h0.initial_mem h1.initial_mem hw
  refine ⟨M0.is_accepting r0, M1.is_accepting r1, ?_, ?_, ?_⟩
  · simp only [DFA.accepts]
    simp only at e0
    rw [e0]
  · simp only [DFA.accepts]
    simp only at e1
    rw [e1]
  · simp only [DFA.accepts, e]
    congr 1
    simp only [DFA.is_accepting, mem_intersection_accept_states, mem_intersection_states]
    by_cases ha : r0 ∈ M0.accept_states_ <;> by_cases hb : r1 ∈ M1.accept_states_ <;>
      simp [ha, hb, m0, m1]

end IntersectionLemmas

namespace DFA

/-- C11 (witness). The statement at the DFA of scenario S4 taken twice. -/
theorem dfa_intersection_accepts_witness :
    dfa_parity.Inv ∧ dfa_parity.sigma_.Nodup ∧
      (∀ c, c ∈ dfa_parity.sigma_ ↔ c ∈ dfa_parity.sigma_) ∧
      ∃ M, dfa_intersection dfa_parity dfa_parity = .ok M ∧
        ∀ w : List Nat, (∀ c ∈ w, c ∈ dfa_parity.sigma_) →
          ∃ b0 b1, dfa_parity.accepts w = .ok b0 ∧ dfa_parity.accepts w = .ok b1 ∧
            M.accepts w = .ok (b0 || b1) :=
  have hinv : dfa_parity.Inv :=
    ⟨by decide, by decide, by decide, by decide, by decide⟩
  ⟨hinv, by decide, fun _ => Iff.rfl,
    dfa_intersection_accepts dfa_parity dfa_parity hinv hinv (by decide) (by decide)
      (fun _ => Iff.rfl)⟩

end DFA

end Reglang

/-! ## NFA: transition tables built from other tables -/

namespace Reglang

namespace NFA

variable {S Q : Type} [DecidableEq S] [DecidableEq Q]

theorem forall_mem_map_assign {κ ν : Type} [DecidableEq κ] (P : κ × ν → Prop)
    (m : List (κ × ν)) (k : κ) (v : ν) (hm : ∀ e ∈ m, P e) (hkv : P (k, v)) :
    ∀ e ∈ map_assign m k v, P e := by
  induction m with
  | nil =>
    intro e he
    simp only [map_assign, List.mem_singleton] at he
    subst he
    exact hkv
  | cons e0 m ih =>
    obtain ⟨k0, v0⟩ := e0
    intro e he
    simp only [map_assign] at he
    split at he
    · rcases List.mem_cons.mp he with rfl | he
      · exact hkv
      · exact hm e (List.mem_cons_of_mem _ he)
    · rcases List.mem_cons.mp he with rfl | he
      · exact hm _ (List.mem_cons_self _ _)
      · exact ih (fun e he => hm e (List.mem_cons_of_mem _ he)) e he

theorem edge_in_assign (d : List ((Q × S) × List Q)) (k0 k : Q × S) (v : List Q) (r : Q) :
    edge_in (map_assign d k0 v) k r ↔ (k0 = k ∧ r ∈ v) ∨ (k0 ≠ k ∧ edge_in d k r) := by
  unfold edge_in
  rw [map_find_assign]
  by_cases h : k0 = k
  · simp [h]
  · simp [h]

/-- The statement `new_delta[k0].insert(x)`. -/
theorem edge_in_insert (d : List ((Q × S) × List Q)) (k0 k : Q × S) (x r : Q) :
    edge_in (map_assign d k0 (set_insert ((map_find d k0).getD []) x)) k r ↔
      edge_in d k r ∨ (k0 = k ∧ r = x) := by
  rw [edge_in_assign]
  by_cases h : k0 = k
  · subst h
    simp only [true_and, ne_eq, not_true_eq_false, false_and, or_false, mem_set_insert]
    unfold edge_in
    cases hf : map_find d k0 with
    | none => simp
    | some ts => simp
  · simp [h]

/-- The statement of `nfa_concat` that inserts `x` in `new_delta[k0]` or
creates the entry. -/
theorem edge_in_bridge (d : List ((Q × S) × List Q)) (k0 k : Q × S) (x r : Q) :
    edge_in
        (match map_find d k0 with
          | some targets => map_assign d k0 (set_insert targets x)
          | none => map_assign d k0 [x]) k r ↔
      edge_in d k r ∨ (k0 = k ∧ r = x) := by
  cases hf : map_find d k0 with
  | none =>
    simp only
    rw [edge_in_assign]
    by_cases h : k0 = k
    · subst h
      simp [edge_in, hf]
    · simp [h]
  | some ts =>
    simp only
    rw [edge_in_assign]
    by_cases h : k0 = k
    · subst h
      simp [edge_in, hf, mem_set_insert]
    · simp [h]

/-- The loop of `kleene_star` over the accept states. -/
theorem edge_in_star_fold (eps : S) (x : Q) (fs : List Q) :
    ∀ (d : List ((Q × S) × List Q)) (k : Q × S) (r : Q),
      edge_in
          (fs.foldl
            (fun new_delta q =>
              map_assign new_delta (q, eps)
                (set_insert ((map_find new_delta (q, eps)).getD []) x))
            d) k r ↔
        edge_in d k r ∨ (∃ f ∈ fs, (f, eps) = k ∧ r = x) := by
  induction fs with
  | nil => intro d k r; simp
  | cons f fs ih =>
    intro d k r
    simp only [List.foldl_cons, ih, edge_in_insert, List.mem_cons, exists_eq_or_imp]
    tauto

/-- The loop of `nfa_concat` over the accept states of `N0`. -/
theorem edge_in_bridge_fold (eps : S) (x : Q) (fs : List Q) :
    ∀ (d : List ((Q × S) × List Q)) (k : Q × S) (r : Q),
      edge_in
          (fs.foldl
            (fun new_delta q =>
              match map_find new_delta (q, eps) with
              | some targets => map_assign new_delta (q, eps) (set_insert targets x)
              | none => map_assign new_delta (q, eps) [x])
            d) k r ↔
        edge_in d k r ∨ (∃ f ∈ fs, (f, eps) = k ∧ r = x) := by
  induction fs with
  | nil => intro d k r; simp
  | cons f fs ih =>
    intro d k r
    simp only [List.foldl_cons, ih, edge_in_bridge, List.mem_cons, exists_eq_or_imp]
    tauto

/-- The loops of `nfa_union` and `nfa_concat` that copy a table with distinct
keys into `new_delta`. -/
theorem map_find_copy {κ ν : Type} [DecidableEq κ] (l : List (κ × ν)) :
    (l.map Prod.fst).Nodup → ∀ (init : List (κ × ν)) (k : κ),
      map_find (l.foldl (fun d pair => map_assign d pair.1 pair.2) init) k =
        match map_find l k with
        | some v => some v
        | none => map_find init k := by
  induction l with
  | nil => intro _ init k; simp [map_find]
  | cons e l ih =>
    obtain ⟨k0, v0⟩ := e
    intro hnd init k
    simp only [List.map_cons, List.nodup_cons] at hnd
    simp only [List.foldl_cons, ih hnd.2, map_find, map_find_assign]
    by_cases hk : k0 = k
    · subst hk
      have hnone : map_find l k0 = none := by
        cases hf : map_find l k0 with
        | none => rfl
        | some v =>
          exact absurd (List.mem_map_of_mem Prod.fst (map_find_mem _ _ _ hf)) hnd.1
      simp [hnone]
    · simp [hk]

theorem forall_mem_copy {κ ν : Type} [DecidableEq κ] (P : κ × ν → Prop)
    (l : List (κ × ν)) (hl : ∀ e ∈ l, P e) :
    ∀ (init : List (κ × ν)), (∀ e ∈ init, P e) →
      ∀ e ∈ l.foldl (fun d pair => map_assign d pair.1 pair.2) init, P e := by
  induction l with
  | nil => intro init hinit; simpa using hinit
  | cons e0 l ih =>
    intro init hinit
    simp only [List.foldl_cons]
    exact ih (fun e he => hl e (List.mem_cons_of_mem _ he)) _
      (forall_mem_map_assign P init e0.1 e0.2 hinit (hl e0 (List.mem_cons_self _ _)))

/-- A path of `N` is a path of `N'` when `N'` has the edges of `N` and the
same epsilon symbol. -/
theorem Path.mono (N N' : NFA S Q) (he : N.epsilon_ = N'.epsilon_)
    (hedge : ∀ q c r, N.edge q c r → N'.edge q c r) {q t : Q} {u : List S}
    (h : N.Path q u t) : N'.Path q u t := by
  induction h with
  | nil q => exact Path.nil q
  | eps h1 _ ih => exact Path.eps (he ▸ hedge _ _ _ h1) ih
  | sym hc h1 _ ih => exact Path.sym (he ▸ hc) (hedge _ _ _ h1) ih

/-- On a constructed NFA and an input of symbols of `sigma_`, `operator()`
returns whether a path from the initial state to an accept state spells the
input without `epsilon_`. -/
theorem accepts_path (N : NFA S Q) (hN : N.Constructed) (w : List S)
    (hw : ∀ c ∈ w, c ∈ N.sigma_) :
    ∃ b, N.accepts w = .ok b ∧
      (b = true ↔ ∃ f ∈ N.accept_states_,
        N.Path N.initial_state_ (w.filter (fun c => decide (c ≠ N.epsilon_))) f) := by
  obtain ⟨sigma, states, q0, F, delta, eps, hnew⟩ := hN
  unfold NFA.new at hnew
  split at hnew
  · cases hnew
  · obtain ⟨M, hNeq, _⟩ := construct_dfa_spec _ N hnew
    have hw' : ∀ c ∈ w, c ∈ sigma := by
      intro c hc
      have := hw c hc
      rw [hNeq] at this
      exact this
    obtain ⟨_, b, _, _, h3, h4⟩ := accepts_core _ N hnew w hw'
    refine ⟨b, h3, h4.trans ?_⟩
    subst hNeq
    constructor
    · rintro ⟨f, hf, hp⟩
      exact ⟨f, hf, Path.congr (NFA.mk sigma states q0 F delta eps none)
        (NFA.mk sigma states q0 F delta eps (some M)) rfl rfl hp⟩
    · rintro ⟨f, hf, hp⟩
      exact ⟨f, hf, Path.congr (NFA.mk sigma states q0 F delta eps (some M))
        (NFA.mk sigma states q0 F delta eps none) rfl rfl hp⟩

/-- A constructed NFA returns `true` only on inputs of symbols of `sigma_`. -/
theorem mem_sigma_of_accepts (N : NFA S Q) (hN : N.Constructed) (w : List S) (b : Bool)
    (h : N.accepts w = .ok b) : ∀ c ∈ w, c ∈ N.sigma_ := by
  rcases N.accepts_cases hN w with ⟨h1, _⟩ | ⟨_, herr⟩
  · exact h1
  · rw [herr] at h
    cases h

theorem mem_states_of_find (N : NFA S Q) (hN : N.Inv) (q : Q) (c : S) (ts : List Q)
    (h : map_find N.delta_ (q, c) = some ts) :
    q ∈ N.states_ ∧ c ∈ N.sigma_ ∧ ∀ r ∈ ts, r ∈ N.states_ :=
  ⟨(hN.key_mem _ (map_find_mem _ _ _ h)).1, (hN.key_mem _ (map_find_mem _ _ _ h)).2,
    hN.value_sub _ (map_find_mem _ _ _ h)⟩

theorem find_none_of_not_mem (N : NFA S Q) (hN : N.Inv) (q : Q) (c : S)
    (hq : q ∉ N.states_) : map_find N.delta_ (q, c) = none := by
  cases hf : map_find N.delta_ (q, c) with
  | none => rfl
  | some ts => exact absurd (N.mem_states_of_find hN q c ts hf).1 hq

end NFA

end Reglang

/-! ## NFA: the Kleene star -/

namespace Reglang

namespace NFA

variable {S Q : Type} [DecidableEq S] [DecidableEq Q]

theorem Entry_In.of_subset (sigma : List S) (states states' : List Q)
    (hsub : ∀ q ∈ states, q ∈ states') (e : (Q × S) × List Q)
    (h : Entry_In sigma states e) : Entry_In sigma states' e :=
  ⟨⟨hsub _ h.1.1, h.1.2⟩, fun q hq => hsub q (h.2 q hq)⟩

theorem entry_in_find (sigma : List S) (states : List Q) (d : List ((Q × S) × List Q))
    (hd : ∀ e ∈ d, Entry_In sigma states e) (k : Q × S) :
    ∀ q ∈ (map_find d k).getD [], q ∈ states := by
  intro q hq
  cases hf : map_find d k with
  | none => rw [hf] at hq; cases hq
  | some ts =>
    rw [hf] at hq
    exact (hd _ (map_find_mem _ _ _ hf)).2 q hq

/-- The table built by the loop of `kleene_star` stays inside the states and
the alphabet. -/
theorem entry_in_star_fold (sigma : List S) (states : List Q) (eps : S) (x : Q)
    (heps : eps ∈ sigma) (hx : x ∈ states) (fs : List Q) :
    (∀ f ∈ fs, f ∈ states) → ∀ (d : List ((Q × S) × List Q)),
      (∀ e ∈ d, Entry_In sigma states e) →
      ∀ e ∈ fs.foldl
          (fun new_delta q =>
            map_assign new_delta (q, eps)
              (set_insert ((map_find new_delta (q, eps)).getD []) x))
          d, Entry_In sigma states e := by
  induction fs with
  | nil => intro _ d hd; simpa using hd
  | cons f fs ih =>
    intro hfs d hd
    simp only [List.foldl_cons]
    apply ih (fun g hg => hfs g (List.mem_cons_of_mem _ hg))
    apply forall_mem_map_assign (Entry_In sigma states) d _ _ hd
    refine ⟨⟨hfs f (List.mem_cons_self _ _), heps⟩, fun q hq => ?_⟩
    rcases (mem_set_insert _ _ _).mp hq with h | rfl
    · exact entry_in_find sigma states d hd _ q h
    · exact hx

/-- C12. For a constructed NFA `N` that satisfies the invariants and a state
`s` outside `states_`, `kleene_star(s)` returns an NFA that accepts the empty
input and the concatenation of every finite sequence of inputs that `N`
accepts. -/
theorem kleene_star_accepts (N : NFA S Q) (hc : N.Constructed) (hi : N.Inv) (s : Q)
    (hs : s ∉ N.states_) :
    ∃ N', N.kleene_star s = .ok N' ∧ N'.accepts [] = .ok true ∧
      ∀ ws : List (List S), (∀ w ∈ ws, N.accepts w = .ok true) →
        N'.accepts ws.flatten = .ok true := by
  have hsub : ∀ q ∈ N.states_, q ∈ set_insert N.states_ s :=
    fun q hq => (mem_set_insert _ _ _).mpr (Or.inl hq)
  have hs_mem : s ∈ set_insert N.states_ s := (mem_set_insert _ _ _).mpr (Or.inr rfl)
  have hentries : ∀ e ∈ map_assign
      (N.accept_states_.foldl
        (fun new_delta q =>
          map_assign new_delta (q, N.epsilon_)
            (set_insert ((map_find new_delta (q, N.epsilon_)).getD []) N.initial_state_))
        N.delta_) (s, N.epsilon_) [N.initial_state_],
      Entry_In N.sigma_ (set_insert N.states_ s) e := by
    apply forall_mem_map_assign
    · apply entry_in_star_fold N.sigma_ (set_insert N.states_ s) N.epsilon_ N.initial_state_
        hi.epsilon_mem (hsub _ hi.initial_mem) N.accept_states_
        (fun f hf => hsub f (hi.accept_sub f hf))
      intro e he
      exact Entry_In.of_subset N.sigma_ N.states_ _ hsub e ⟨hi.key_mem e he, hi.value_sub e he⟩
    · refine ⟨⟨hs_mem, hi.epsilon_mem⟩, fun q hq => ?_⟩
      rw [List.mem_singleton] at hq
      subst hq
      exact hsub _ hi.initial_mem
  obtain ⟨N', hN'⟩ := new_ok N.sigma_ (set_insert N.states_ s) s
    (set_insert N.accept_states_ s) _ N.epsilon_
    ⟨hi.epsilon_mem, hs_mem,
      fun q hq => by
        rcases (mem_set_insert _ _ _).mp hq with h | rfl
        · exact hsub q (hi.accept_sub q h)
        · exact hs_mem,
      fun e he => (hentries e he).1, fun e he => (hentries e he).2⟩
  have hstar : N.kleene_star s = .ok N' := by
    unfold kleene_star
    simp only [hs, if_false]
    exact hN'
  obtain ⟨hsig, _, hinit, hacc, hdelta, heps⟩ := Regex.new_sigma _ _ _ _ _ _ _ hN'
  have hcons : N'.Constructed := new_constructed _ _ _ _ _ _ _ hN'
  have hedge' : ∀ k r, N'.edge k.1 k.2 r ↔
      ((s, N.epsilon_) = k ∧ r ∈ [N.initial_state_]) ∨
        ((s, N.epsilon_) ≠ k ∧
          (edge_in N.delta_ k r ∨
            ∃ f ∈ N.accept_states_, (f, N.epsilon_) = k ∧ r = N.initial_state_)) := by
    intro k r
    have h1 : N'.edge k.1 k.2 r ↔ edge_in N'.delta_ k r := Iff.rfl
    rw [h1, hdelta, edge_in_assign, edge_in_star_fold]
  have hlift_edge : ∀ q c r, N.edge q c r → N'.edge q c r := by
    intro q c r he
    refine (hedge' (q, c) r).mpr (Or.inr ⟨?_, Or.inl he⟩)
    intro hk
    simp only [Prod.mk.injEq] at hk
    obtain ⟨targets, ht, _⟩ := he
    exact hs (hk.1 ▸ (N.mem_states_of_find hi q c targets ht).1)
  have hedge_s : N'.edge s N'.epsilon_ N.initial_state_ := by
    rw [heps]
    exact (hedge' (s, N.epsilon_) _).mpr (Or.inl ⟨rfl, List.mem_singleton_self _⟩)
  have hedge_f : ∀ f ∈ N.accept_states_, N'.edge f N'.epsilon_ N.initial_state_ := by
    intro f hf
    rw [heps]
    refine (hedge' (f, N.epsilon_) _).mpr (Or.inr ⟨?_, Or.inr ⟨f, hf, rfl, rfl⟩⟩)
    intro hk
    simp only [Prod.mk.injEq] at hk
    exact hs (hk.1 ▸ hi.accept_sub f hf)
  have hlift : ∀ {q t : Q} {u : List S}, N.Path q u t → N'.Path q u t :=
    fun h => Path.mono N N' heps.symm hlift_edge h
  have hF : ∀ f ∈ N.accept_states_, f ∈ N'.accept_states_ := by
    intro f hf
    rw [hacc]
    exact (mem_set_insert _ _ _).mpr (Or.inl hf)
  have hchain : ∀ ws : List (List S),
      (∀ w ∈ ws, ∃ f ∈ N.accept_states_,
        N.Path N.initial_state_ (w.filter (fun c => decide (c ≠ N.epsilon_))) f) →
      ∀ f ∈ N.accept_states_, ∃ f' ∈ N'.accept_states_,
        N'.Path f (ws.flatten.filter (fun c => decide (c ≠ N.epsilon_))) f' := by
    intro ws
    induction ws with
    | nil => intro _ f hf; exact ⟨f, hF f hf, Path.nil f⟩
    | cons w ws ih =>
      intro hws f hf
      obtain ⟨f1, hf1, hp1⟩ := hws w (List.mem_cons_self _ _)
      obtain ⟨f', hf', hp'⟩ := ih (fun v hv => hws v (List.mem_cons_of_mem _ hv)) f1 hf1
      refine ⟨f', hf', ?_⟩
      rw [List.flatten_cons, List.filter_append]
      exact Path.eps (hedge_f f hf) (Path.append N' (hlift hp1) hp')
  have hall : ∀ ws : List (List S), (∀ w ∈ ws, N.accepts w = .ok true) →
      N'.accepts ws.flatten = .ok true := by
    intro ws hws
    have hsym : ∀ c ∈ ws.flatten, c ∈ N'.sigma_ := by
      intro c hc
      rw [List.mem_flatten] at hc
      obtain ⟨w, hw, hcw⟩ := hc
      rw [hsig]
      exact N.mem_sigma_of_accepts hc w true (hws w hw) c hcw
    obtain ⟨b, hb, hiff⟩ := N'.accepts_path hcons ws.flatten hsym
    have hpaths : ∀ w ∈ ws, ∃ f ∈ N.accept_states_,
        N.Path N.initial_state_ (w.filter (fun c => decide (c ≠ N.epsilon_))) f := by
      intro w hw
      obtain ⟨b', hb', hiff'⟩ :=
        N.accepts_path hc w (N.mem_sigma_of_accepts hc w true (hws w hw))
      rw [hws w hw] at hb'
      simp only [Except.ok.injEq] at hb'
      exact hiff'.mp hb'.symm
    have htrue : b = true := by
      rw [hiff, hinit, heps]
      cases ws with
      | nil =>
        exact ⟨s, by rw [hacc]; exact (mem_set_insert _ _ _).mpr (Or.inr rfl), Path.nil s⟩
      | cons w ws =>
        obtain ⟨f1, hf1, hp1⟩ := hpaths w (List.mem_cons_self _ _)
        obtain ⟨f', hf', hp'⟩ :=
          hchain ws (fun v hv => hpaths v (List.mem_cons_of_mem _ hv)) f1 hf1
        refine ⟨f', hf', ?_⟩
        rw [List.flatten_cons, List.filter_append]
        exact Path.eps hedge_s (Path.append N' (hlift hp1) hp')
    rw [hb, htrue]
  exact ⟨N', hstar, hall [] (fun w hw => by cases hw), hall⟩

end NFA

end Reglang

namespace Reglang

namespace NFA

variable {S Q : Type} [DecidableEq S] [DecidableEq Q]

/-- The NFA returned by the constructor satisfies the invariants that its
components satisfy. -/
theorem inv_of_new (sigma : List S) (states : List Q) (q0 : Q) (F : List Q)
    (delta : List ((Q × S) × List Q)) (eps : S) (N : NFA S Q)
    (h : NFA.new sigma states q0 F delta eps = .ok N)
    (hinv : Inv (NFA.mk sigma states q0 F delta eps none)) : N.Inv := by
  unfold NFA.new at h
  split at h
  · cases h
  · obtain ⟨M, hN, _⟩ := construct_dfa_spec _ N h
    subst hN
    exact ⟨hinv.epsilon_mem, hinv.initial_mem, hinv.accept_sub, hinv.key_mem,
      hinv.value_sub⟩

/-- C12 (witness). The statement at the NFA `nfa_small` and the state `13`. -/
theorem kleene_star_accepts_witness :
    ∃ N, nfa_small = .ok N ∧ N.Constructed ∧ N.Inv ∧ 13 ∉ N.states_ ∧
      ∃ N', N.kleene_star 13 = .ok N' ∧ N'.accepts [] = .ok true ∧
        ∀ ws : List (List Nat), (∀ w ∈ ws, N.accepts w = .ok true) →
          N'.accepts ws.flatten = .ok true := by
  have hinv : Inv (NFA.mk [0, 1, 2] [10, 11, 12] 10 [12]
      [((10, 0), [11]), ((11, 1), [12])] 0 none) :=
    ⟨by decide, by decide, by decide, by decide, by decide⟩
  obtain ⟨N, hN⟩ := new_ok _ _ _ _ _ _ hinv
  have hc : N.Constructed := new_constructed _ _ _ _ _ _ _ hN
  have hi : N.Inv := inv_of_new _ _ _ _ _ _ _ hN hinv
  have hs : 13 ∉ N.states_ := by
    rw [(Regex.new_sigma _ _ _ _ _ _ _ hN).2.1]
    decide
  exact ⟨N, hN, hc, hi, hs, kleene_star_accepts N hc hi 13 hs⟩

end NFA

end Reglang

/-! ## NFA: the union -/

namespace Reglang

namespace NFA

variable {S Q : Type} [DecidableEq S] [DecidableEq Q]

/-- A path of `N` that starts in a set which the edges of `N` do not leave,
and on which every edge of `N` is an edge of `N'`, is a path of `N'` and ends
in the set. -/
theorem Path.transfer (N N' : NFA S Q) (he : N.epsilon_ = N'.epsilon_) (X : List Q)
    (hstep : ∀ q ∈ X, ∀ c r, N.edge q c r → N'.edge q c r ∧ r ∈ X)
    {q t : Q} {u : List S} (h : N.Path q u t) : q ∈ X → N'.Path q u t ∧ t ∈ X := by
  induction h with
  | nil q => intro hq; exact ⟨Path.nil q, hq⟩
  | eps h1 _ ih =>
    intro hq
    obtain ⟨e, hr⟩ := hstep _ hq _ _ h1
    obtain ⟨p, ht⟩ := ih hr
    exact ⟨Path.eps (he ▸ e) p, ht⟩
  | sym hc h1 _ ih =>
    intro hq
    obtain ⟨e, hr⟩ := hstep _ hq _ _ h1
    obtain ⟨p, ht⟩ := ih hr
    exact ⟨Path.sym (he ▸ hc) e p, ht⟩

theorem sigma_mismatch_false (N0 N1 : NFA S Q) (hn0 : N0.sigma_.Nodup)
    (hn1 : N1.sigma_.Nodup) (hsig : ∀ c, c ∈ N0.sigma_ ↔ c ∈ N1.sigma_) :
    sigma_mismatch N0 N1 = false := by
  have hlen : N0.sigma_.length = N1.sigma_.length :=
    ((List.perm_ext_iff_of_nodup hn0 hn1).mpr hsig).length_eq
  simp only [sigma_mismatch, hlen, ne_eq, not_true_eq_false, decide_False, Bool.false_or,
    List.any_eq_false, decide_eq_true_eq, not_not]
  exact fun c hc => (hsig c).mp hc

/-- The table `new_delta` of `nfa_union` and `nfa_concat` after the two copy
loops: the entry of `N1` when there is one, the entry of `N0` otherwise. -/
theorem edge_in_copies (N0 N1 : NFA S Q) (hk0 : (N0.delta_.map Prod.fst).Nodup)
    (hk1 : (N1.delta_.map Prod.fst).Nodup) (k : Q × S) (r : Q) :
    edge_in
        (N1.delta_.foldl (fun d pair => map_assign d pair.1 pair.2)
          (N0.delta_.foldl (fun d pair => map_assign d pair.1 pair.2) [])) k r ↔
      edge_in N1.delta_ k r ∨ (map_find N1.delta_ k = none ∧ edge_in N0.delta_ k r) := by
  unfold edge_in
  rw [map_find_copy _ hk1, map_find_copy _ hk0]
  cases h1 : map_find N1.delta_ k with
  | some v => simp
  | none =>
    cases h0 : map_find N0.delta_ k with
    | some v => simp
    | none => simp [map_find]

/-- With disjoint state sets the copied table has the edges of `N0` out of
the states of `N0` and the edges of `N1` out of the states of `N1`. -/
theorem edge_in_copies_disjoint (N0 N1 : NFA S Q) (hi0 : N0.Inv) (hi1 : N1.Inv)
    (hk0 : (N0.delta_.map Prod.fst).Nodup) (hk1 : (N1.delta_.map Prod.fst).Nodup)
    (hdisj : ∀ q ∈ N0.states_, q ∉ N1.states_) (q : Q) (c : S) (r : Q) :
    (q ∈ N0.states_ →
      (edge_in
          (N1.delta_.foldl (fun d pair => map_assign d pair.1 pair.2)
            (N0.delta_.foldl (fun d pair => map_assign d pair.1 pair.2) [])) (q, c) r ↔
        N0.edge q c r)) ∧
      (q ∈ N1.states_ →
        (edge_in
            (N1.delta_.foldl (fun d pair => map_assign d pair.1 pair.2)
              (N0.delta_.foldl (fun d pair => map_assign d pair.1 pair.2) [])) (q, c) r ↔
          N1.edge q c r)) ∧
      (q ∉ N0.states_ → q ∉ N1.states_ →
        ¬ edge_in
            (N1.delta_.foldl (fun d pair => map_assign d pair.1 pair.2)
              (N0.delta_.foldl (fun d pair => map_assign d pair.1 pair.2) [])) (q, c) r) := by
  rw [edge_in_copies N0 N1 hk0 hk1]
  refine ⟨fun hq => ?_, fun hq => ?_, fun hq0 hq1 => ?_⟩
  · have hnone := N1.find_none_of_not_mem hi1 q c (hdisj q hq)
    constructor
    · rintro (⟨ts, h, _⟩ | ⟨_, h⟩)
      · rw [hnone] at h
        cases h
      · exact h
    · intro h
      exact Or.inr ⟨hnone, h⟩
  · have hnone := N0.find_none_of_not_mem hi0 q c (fun h => hdisj q h hq)
    constructor
    · rintro (h | ⟨_, ts, h, _⟩)
      · exact h
      · rw [hnone] at h
        cases h
    · intro h
      exact Or.inl h
  · rintro (⟨ts, h, _⟩ | ⟨_, ts, h, _⟩)
    · rw [N1.find_none_of_not_mem hi1 q c hq1] at h
      cases h
    · rw [N0.find_none_of_not_mem hi0 q c hq0] at h
      cases h

theorem entry_in_copies (N0 N1 : NFA S Q) (hi0 : N0.Inv) (hi1 : N1.Inv)
    (hsig : ∀ c, c ∈ N0.sigma_ ↔ c ∈ N1.sigma_) (states : List Q)
    (h0 : ∀ q ∈ N0.states_, q ∈ states) (h1 : ∀ q ∈ N1.states_, q ∈ states) :
    ∀ e ∈ N1.delta_.foldl (fun d pair => map_assign d pair.1 pair.2)
        (N0.delta_.foldl (fun d pair => map_assign d pair.1 pair.2) []),
      Entry_In N0.sigma_ states e := by
  apply forall_mem_copy
  · intro e he
    exact ⟨⟨h1 _ (hi1.key_mem e he).1, (hsig _).mpr (hi1.key_mem e he).2⟩,
      fun q hq => h1 q (hi1.value_sub e he q hq)⟩
  · apply forall_mem_copy
    · intro e he
      exact ⟨⟨h0 _ (hi0.key_mem e he).1, (hi0.key_mem e he).2⟩,
        fun q hq => h0 q (hi0.value_sub e he q hq)⟩
    · intro e he
      cases he

/-- C13. For two constructed NFAs that satisfy the invariants, with the same
alphabet, the same epsilon symbol and disjoint state sets, and a state `s` in
neither state set, `nfa_union` returns an NFA which, on every input of
symbols of the alphabet other than epsilon, accepts exactly when the first or
the second NFA accepts. -/
theorem nfa_union_accepts (N0 N1 : NFA S Q) (hc0 : N0.Constructed) (hc1 : N1.Constructed)
    (hi0 : N0.Inv) (hi1 : N1.Inv)
    (hk0 : (N0.delta_.map Prod.fst).Nodup) (hk1 : (N1.delta_.map Prod.fst).Nodup)
    (hn0 : N0.sigma_.Nodup) (hn1 : N1.sigma_.Nodup)
    (hsig : ∀ c, c ∈ N0.sigma_ ↔ c ∈ N1.sigma_) (heps : N0.epsilon_ = N1.epsilon_)
    (hdisj : ∀ q ∈ N0.states_, q ∉ N1.states_) (s : Q)
    (hs0 : s ∉ N0.states_) (hs1 : s ∉ N1.states_) (w : List S)
    (hw : ∀ c ∈ w, c ∈ N0.sigma_ ∧ c ≠ N0.epsilon_) :
    ∃ N b0 b1, nfa_union N0 N1 s = .ok N ∧ N0.accepts w = .ok b0 ∧
      N1.accepts w = .ok b1 ∧ N.accepts w = .ok (b0 || b1) := by
  have hQ : ∀ q, q ∈ set_insert (merge (merge [] N0.states_) N1.states_) s ↔
      q ∈ N0.states_ ∨ q ∈ N1.states_ ∨ q = s := by
    intro q
    simp only [mem_set_insert, mem_merge, List.not_mem_nil, false_or]
    tauto
  have hF : ∀ q, q ∈ merge (merge [] N0.accept_states_) N1.accept_states_ ↔
      q ∈ N0.accept_states_ ∨ q ∈ N1.accept_states_ := by
    intro q
    simp only [mem_merge, List.not_mem_nil, false_or]
  have hentries : ∀ e ∈ map_assign
      (N1.delta_.foldl (fun d pair => map_assign d pair.1 pair.2)
        (N0.delta_.foldl (fun d pair => map_assign d pair.1 pair.2) []))
      (s, N0.epsilon_) (set_insert [N0.initial_state_] N1.initial_state_),
      Entry_In N0.sigma_ (set_insert (merge (merge [] N0.states_) N1.states_) s) e := by
    apply forall_mem_map_assign
    · exact entry_in_copies N0 N1 hi0 hi1 hsig _
        (fun q hq => (hQ q).mpr (Or.inl hq)) (fun q hq => (hQ q).mpr (Or.inr (Or.inl hq)))
    · refine ⟨⟨(hQ s).mpr (Or.inr (Or.inr rfl)), hi0.epsilon_mem⟩, fun q hq => ?_⟩
      simp only [mem_set_insert, List.mem_singleton] at hq
      rcases hq with rfl | rfl
      · exact (hQ _).mpr (Or.inl hi0.initial_mem)
      · exact (hQ _).mpr (Or.inr (Or.inl hi1.initial_mem))
  obtain ⟨N, hN⟩ := new_ok N0.sigma_ _ s _ _ N0.epsilon_
    ⟨hi0.epsilon_mem, (hQ s).mpr (Or.inr (Or.inr rfl)),
      fun q hq => by
        rcases (hF q).mp hq with h | h
        · exact (hQ q).mpr (Or.inl (hi0.accept_sub q h))
        · exact (hQ q).mpr (Or.inr (Or.inl (hi1.accept_sub q h))),
      fun e he => (hentries e he).1, fun e he => (hentries e he).2⟩
  have hunion : nfa_union N0 N1 s = .ok N := by
    unfold nfa_union
    simp only [sigma_mismatch_false N0 N1 hn0 hn1 hsig, Bool.false_eq_true, if_false]
    exact hN
  obtain ⟨hNsig, _, hNinit, hNacc, hNdelta, hNeps⟩ := Regex.new_sigma _ _ _ _ _ _ _ hN
  have hcons : N.Constructed := new_constructed _ _ _ _ _ _ _ hN
  have hedge : ∀ q c r, N.edge q c r ↔
      ((s, N0.epsilon_) = (q, c) ∧ r ∈ set_insert [N0.initial_state_] N1.initial_state_) ∨
        ((s, N0.epsilon_) ≠ (q, c) ∧
          edge_in
            (N1.delta_.foldl (fun d pair => map_assign d pair.1 pair.2)
              (N0.delta_.foldl (fun d pair => map_assign d pair.1 pair.2) [])) (q, c) r) := by
    intro q c r
    have h1 : N.edge q c r ↔ edge_in N.delta_ (q, c) r := Iff.rfl
    rw [h1, hNdelta, edge_in_assign]
  have hne_of_mem : ∀ q c, (q ∈ N0.states_ ∨ q ∈ N1.states_) →
      (s, N0.epsilon_) ≠ (q, c) := by
    intro q c hq hk
    simp only [Prod.mk.injEq] at hk
    rcases hq with h | h
    · exact hs0 (hk.1 ▸ h)
    · exact hs1 (hk.1 ▸ h)
  have hE0 : ∀ q ∈ N0.states_, ∀ c r, N.edge q c r ↔ N0.edge q c r := by
    intro q hq c r
    rw [hedge]
    have := (edge_in_copies_disjoint N0 N1 hi0 hi1 hk0 hk1 hdisj q c r).1 hq
    constructor
    · rintro (⟨hk, _⟩ | ⟨_, h⟩)
      · exact absurd hk (hne_of_mem q c (Or.inl hq))
      · exact this.mp h
    · intro h
      exact Or.inr ⟨hne_of_mem q c (Or.inl hq), this.mpr h⟩
  have hE1 : ∀ q ∈ N1.states_, ∀ c r, N.edge q c r ↔ N1.edge q c r := by
    intro q hq c r
    rw [hedge]
    have := (edge_in_copies_disjoint N0 N1 hi0 hi1 hk0 hk1 hdisj q c r).2.1 hq
    constructor
    · rintro (⟨hk, _⟩ | ⟨_, h⟩)
      · exact absurd hk (hne_of_mem q c (Or.inr hq))
      · exact this.mp h
    · intro h
      exact Or.inr ⟨hne_of_mem q c (Or.inr hq), this.mpr h⟩
  have hEs : ∀ c r, N.edge s c r ↔
      c = N0.epsilon_ ∧ (r = N0.initial_state_ ∨ r = N1.initial_state_) := by
    intro c r
    rw [hedge]
    have := (edge_in_copies_disjoint N0 N1 hi0 hi1 hk0 hk1 hdisj s c r).2.2 hs0 hs1
    simp only [mem_set_insert, List.mem_singleton, Prod.mk.injEq, true_and, ne_eq]
    constructor
    · rintro (⟨hk, hr⟩ | ⟨_, h⟩)
      · exact ⟨hk.symm, hr⟩
      · exact absurd h this
    · rintro ⟨hk, hr⟩
      exact Or.inl ⟨hk.symm, hr⟩
  have hto0 : ∀ {q t : Q} {u : List S}, N.Path q u t → q ∈ N0.states_ →
      N0.Path q u t ∧ t ∈ N0.states_ :=
    fun h => Path.transfer N N0 hNeps N0.states_
      (fun q hq c r he =>
        ⟨(hE0 q hq c r).mp he, by
          obtain ⟨ts, hts, hr⟩ := (hE0 q hq c r).mp he
          exact (N0.mem_states_of_find hi0 q c ts hts).2.2 r hr⟩) h
  have hfrom0 : ∀ {q t : Q} {u : List S}, N0.Path q u t → q ∈ N0.states_ →
      N.Path q u t ∧ t ∈ N0.states_ :=
    fun h => Path.transfer N0 N hNeps.symm N0.states_
      (fun q hq c r he =>
        ⟨(hE0 q hq c r).mpr he, by
          obtain ⟨ts, hts, hr⟩ := he
          exact (N0.mem_states_of_find hi0 q c ts hts).2.2 r hr⟩) h
  have hto1 : ∀ {q t : Q} {u : List S}, N.Path q u t → q ∈ N1.states_ →
      N1.Path q u t ∧ t ∈ N1.states_ :=
    fun h => Path.transfer N N1 (hNeps.trans heps) N1.states_
      (fun q hq c r he =>
        ⟨(hE1 q hq c r).mp he, by
          obtain ⟨ts, hts, hr⟩ := (hE1 q hq c r).mp he
          exact (N1.mem_states_of_find hi1 q c ts hts).2.2 r hr⟩) h
  have hfrom1 : ∀ {q t : Q} {u : List S}, N1.Path q u t → q ∈ N1.states_ →
      N.Path q u t ∧ t ∈ N1.states_ :=
    fun h => Path.transfer N1 N (hNeps.trans heps).symm N1.states_
      (fun q hq c r he =>
        ⟨(hE1 q hq c r).mpr he, by
          obtain ⟨ts, hts, hr⟩ := he
          exact (N1.mem_states_of_find hi1 q c ts hts).2.2 r hr⟩) h
  have hPs : ∀ {u : List S} {t : Q}, N.Path s u t →
      (u = [] ∧ t = s) ∨ N.Path N0.initial_state_ u t ∨ N.Path N1.initial_state_ u t := by
    intro u t h
    cases h with
    | nil => exact Or.inl ⟨rfl, rfl⟩
    | eps he hp =>
      rcases ((hEs _ _).mp he).2 with rfl | rfl
      · exact Or.inr (Or.inl hp)
      · exact Or.inr (Or.inr hp)
    | sym hc he hp =>
      exact absurd (((hEs _ _).mp he).1.trans hNeps.symm) hc
  have hfilter : ∀ e : S, e = N0.epsilon_ →
      w.filter (fun c => decide (c ≠ e)) = w := by
    intro e he
    rw [List.filter_eq_self]
    intro c hc
    simpa [he] using (hw c hc).2
  obtain ⟨b, hb, hiff⟩ := N.accepts_path hcons w (fun c hc => hNsig ▸ (hw c hc).1)
  obtain ⟨b0, hb0, hiff0⟩ := N0.accepts_path hc0 w (fun c hc => (hw c hc).1)
  obtain ⟨b1, hb1, hiff1⟩ := N1.accepts_path hc1 w (fun c hc => (hsig c).mp (hw c hc).1)
  rw [hfilter _ hNeps, hNinit, hNacc] at hiff
  rw [hfilter _ rfl] at hiff0
  rw [hfilter _ heps.symm] at hiff1
  refine ⟨N, b0, b1, hunion, hb0, hb1, ?_⟩
  rw [hb]
  congr 1
  rw [Bool.eq_iff_iff, Bool.or_eq_true, hiff, hiff0, hiff1]
  constructor
  · rintro ⟨f, hf, hp⟩
    rcases hPs hp with ⟨_, rfl⟩ | hp0 | hp1
    · rcases (hF _).mp hf with h | h
      · exact absurd (hi0.accept_sub _ h) hs0
      · exact absurd (hi1.accept_sub _ h) hs1
    · obtain ⟨p0, hf0⟩ := hto0 hp0 hi0.initial_mem
      rcases (hF f).mp hf with h | h
      · exact Or.inl ⟨f, h, p0⟩
      · exact absurd (hi1.accept_sub f h) (hdisj f hf0)
    · obtain ⟨p1, hf1⟩ := hto1 hp1 hi1.initial_mem
      rcases (hF f).mp hf with h | h
      · exact absurd hf1 (hdisj f (hi0.accept_sub f h))
      · exact Or.inr ⟨f, h, p1⟩
  · rintro (⟨f, hf, hp⟩ | ⟨f, hf, hp⟩)
    · refine ⟨f, (hF f).mpr (Or.inl hf), ?_⟩
      exact Path.eps ((hEs _ _).mpr ⟨hNeps, Or.inl rfl⟩) (hfrom0 hp hi0.initial_mem).1
    · refine ⟨f, (hF f).mpr (Or.inr hf), ?_⟩
      exact Path.eps ((hEs _ _).mpr ⟨hNeps, Or.inr rfl⟩) (hfrom1 hp hi1.initial_mem).1

end NFA

end Reglang

/-! ## NFA: the concatenation -/

namespace Reglang

namespace NFA

variable {S Q : Type} [DecidableEq S] [DecidableEq Q]

/-- C13 (witness). The statement at the NFAs `nfa_small` and `nfa_small_two`,
the state `30` and the input `[2]`. -/
theorem nfa_union_accepts_witness :
    ∃ N0 N1, nfa_small = .ok N0 ∧ nfa_small_two = .ok N1 ∧
      ∃ N b0 b1, nfa_union N0 N1 30 = .ok N ∧ N0.accepts [2] = .ok b0 ∧
        N1.accepts [2] = .ok b1 ∧ N.accepts [2] = .ok (b0 || b1) := by
  have hinv0 : Inv (NFA.mk [0, 1, 2] [10, 11, 12] 10 [12]
      [((10, 0), [11]), ((11, 1), [12])] 0 none) :=
    ⟨by decide, by decide, by decide, by decide, by decide⟩
  have hinv1 : Inv (NFA.mk [0, 1, 2] [20, 21] 20 [21] [((20, 2), [21])] 0 none) :=
    ⟨by decide, by decide, by decide, by decide, by decide⟩
  obtain ⟨N0, hN0⟩ := new_ok _ _ _ _ _ _ hinv0
  obtain ⟨N1, hN1⟩ := new_ok _ _ _ _ _ _ hinv1
  obtain ⟨hs0, hq0, _, _, hd0, he0⟩ := Regex.new_sigma _ _ _ _ _ _ _ hN0
  obtain ⟨hs1, hq1, _, _, hd1, he1⟩ := Regex.new_sigma _ _ _ _ _ _ _ hN1
  refine ⟨N0, N1, hN0, hN1, ?_⟩
  exact nfa_union_accepts N0 N1 (new_constructed _ _ _ _ _ _ _ hN0)
    (new_constructed _ _ _ _ _ _ _ hN1) (inv_of_new _ _ _ _ _ _ _ hN0 hinv0)
    (inv_of_new _ _ _ _ _ _ _ hN1 hinv1) (by rw [hd0]; decide) (by rw [hd1]; decide)
    (by rw [hs0]; decide) (by rw [hs1]; decide) (by rw [hs0, hs1]; exact fun _ => Iff.rfl)
    (by rw [he0, he1]) (by rw [hq0, hq1]; decide) 30 (by rw [hq0]; decide)
    (by rw [hq1]; decide) [2] (by rw [hs0, he0]; decide)

/-- On a constructed NFA and an input of symbols of `sigma_` other than
`epsilon_`, `operator()` returns `true` exactly when a path from the initial
state to an accept state spells the input. -/
theorem accepts_true_iff (N : NFA S Q) (hN : N.Constructed) (u : List S)
    (hu : ∀ c ∈ u, c ∈ N.sigma_ ∧ c ≠ N.epsilon_) :
    N.accepts u = .ok true ↔
      ∃ f ∈ N.accept_states_, N.Path N.initial_state_ u f := by
  obtain ⟨b, hb, hiff⟩ := N.accepts_path hN u (fun c hc => (hu c hc).1)
  have hfilter : u.filter (fun c => decide (c ≠ N.epsilon_)) = u := by
    rw [List.filter_eq_self]
    intro c hc
    simpa using (hu c hc).2
  rw [hfilter] at hiff
  rw [hb, ← hiff]
  constructor
  · intro h
    cases h
    rfl
  · intro h
    rw [h]

/-- The table built by the loop of `nfa_concat` stays inside the states and
the alphabet. -/
theorem entry_in_bridge_fold (sigma : List S) (states : List Q) (eps : S) (x : Q)
    (heps : eps ∈ sigma) (hx : x ∈ states) (fs : List Q) :
    (∀ f ∈ fs, f ∈ states) → ∀ (d : List ((Q × S) × List Q)),
      (∀ e ∈ d, Entry_In sigma states e) →
      ∀ e ∈ fs.foldl
          (fun new_delta q =>
            match map_find new_delta (q, eps) with
            | some targets => map_assign new_delta (q, eps) (set_insert targets x)
            | none => map_assign new_delta (q, eps) [x])
          d, Entry_In sigma states e := by
  induction fs with
  | nil => intro _ d hd; simpa using hd
  | cons f fs ih =>
    intro hfs d hd
    simp only [List.foldl_cons]
    apply ih (fun g hg => hfs g (List.mem_cons_of_mem _ hg))
    cases hf : map_find d (f, eps) with
    | none =>
      apply forall_mem_map_assign (Entry_In sigma states) d _ _ hd
      refine ⟨⟨hfs f (List.mem_cons_self _ _), heps⟩, fun q hq => ?_⟩
      rw [List.mem_singleton] at hq
      exact hq ▸ hx
    | some ts =>
      apply forall_mem_map_assign (Entry_In sigma states) d _ _ hd
      refine ⟨⟨hfs f (List.mem_cons_self _ _), heps⟩, fun q hq => ?_⟩
      rcases (mem_set_insert _ _ _).mp hq with h | rfl
      · exact (hd _ (map_find_mem _ _ _ hf)).2 q h
      · exact hx

/-- C14 (counterexample). The NFAs `nfa_epsilon_zero` and `nfa_epsilon_one`
are constructed and pass `valid()`, have the same alphabet and disjoint state
sets, and both accept the empty input; `nfa_concat` of the two returns an NFA
that rejects the empty input, which splits as the empty input followed by the
empty input. Their epsilon symbols are `0` and `1`. -/
theorem nfa_concat_rejects_split :
    nfa_epsilon_zero.map (fun N => (N.valid, N.sigma_, N.states_, N.epsilon_)) =
        .ok (true, [0, 1], [10], 0) ∧
      nfa_epsilon_one.map (fun N => (N.valid, N.sigma_, N.states_, N.epsilon_)) =
        .ok (true, [0, 1], [20, 21], 1) ∧
      nfa_epsilon_zero.bind (fun N => N.accepts []) = .ok true ∧
      nfa_epsilon_one.bind (fun N => N.accepts []) = .ok true ∧
      nfa_epsilon_zero.bind (fun N0 => nfa_epsilon_one.bind (fun N1 =>
        (nfa_concat N0 N1).bind (fun N => N.accepts []))) = .ok false := by
  refine ⟨?_, ?_, ?_, ?_, ?_⟩ <;> decide

/-- The language of the NFA that `nfa_concat` returns for two constructed
NFAs with the same alphabet and epsilon symbol and disjoint state sets: the
words that split into a word of the first and a word of the second. -/
theorem nfa_concat_language (N0 N1 : NFA S Q) (hc0 : N0.Constructed) (hc1 : N1.Constructed)
    (hi0 : N0.Inv) (hi1 : N1.Inv)
    (hk0 : (N0.delta_.map Prod.fst).Nodup) (hk1 : (N1.delta_.map Prod.fst).Nodup)
    (hn0 : N0.sigma_.Nodup) (hn1 : N1.sigma_.Nodup)
    (hsig : ∀ c, c ∈ N0.sigma_ ↔ c ∈ N1.sigma_) (heps : N0.epsilon_ = N1.epsilon_)
    (hdisj : ∀ q ∈ N0.states_, q ∉ N1.states_) (w : List S)
    (hw : ∀ c ∈ w, c ∈ N0.sigma_ ∧ c ≠ N0.epsilon_) :
    ∃ N b, nfa_concat N0 N1 = .ok N ∧ N.accepts w = .ok b ∧
      (b = true ↔ ∃ u v, w = u ++ v ∧ N0.accepts u = .ok true ∧
        N1.accepts v = .ok true) := by
  have hQ : ∀ q, q ∈ merge (merge [] N0.states_) N1.states_ ↔
      q ∈ N0.states_ ∨ q ∈ N1.states_ := by
    intro q
    simp only [mem_merge, List.not_mem_nil, false_or]
  have hentries : ∀ e ∈ N0.accept_states_.foldl
      (fun new_delta q =>
        match map_find new_delta (q, N0.epsilon_) with
        | some targets =>
          map_assign new_delta (q, N0.epsilon_) (set_insert targets N1.initial_state_)
        | none => map_assign new_delta (q, N0.epsilon_) [N1.initial_state_])
      (N1.delta_.foldl (fun d pair => map_assign d pair.1 pair.2)
        (N0.delta_.foldl (fun d pair => map_assign d pair.1 pair.2) [])),
      Entry_In N0.sigma_ (merge (merge [] N0.states_) N1.states_) e := by
    apply entry_in_bridge_fold _ _ _ _ hi0.epsilon_mem
      ((hQ _).mpr (Or.inr hi1.initial_mem)) _
      (fun f hf => (hQ f).mpr (Or.inl (hi0.accept_sub f hf)))
    exact entry_in_copies N0 N1 hi0 hi1 hsig _
      (fun q hq => (hQ q).mpr (Or.inl hq)) (fun q hq => (hQ q).mpr (Or.inr hq))
  obtain ⟨N, hN⟩ := new_ok N0.sigma_ _ N0.initial_state_ N1.accept_states_ _ N0.epsilon_
    ⟨hi0.epsilon_mem, (hQ _).mpr (Or.inl hi0.initial_mem),
      fun q hq => (hQ q).mpr (Or.inr (hi1.accept_sub q hq)),
      fun e he => (hentries e he).1, fun e he => (hentries e he).2⟩
  have hconcat : nfa_concat N0 N1 = .ok N := by
    unfold nfa_concat
    simp only [sigma_mismatch_false N0 N1 hn0 hn1 hsig, Bool.false_eq_true, if_false]
    exact hN
  obtain ⟨hNsig, _, hNinit, hNacc, hNdelta, hNeps⟩ := Regex.new_sigma _ _ _ _ _ _ _ hN
  have hcons : N.Constructed := new_constructed _ _ _ _ _ _ _ hN
  have hedge : ∀ q c r, N.edge q c r ↔
      edge_in
          (N1.delta_.foldl (fun d pair => map_assign d pair.1 pair.2)
            (N0.delta_.foldl (fun d pair => map_assign d pair.1 pair.2) [])) (q, c) r ∨
        (∃ f ∈ N0.accept_states_, (f, N0.epsilon_) = (q, c) ∧ r = N1.initial_state_) := by
    intro q c r
    have h1 : N.edge q c r ↔ edge_in N.delta_ (q, c) r := Iff.rfl
    rw [h1, hNdelta, edge_in_bridge_fold]
  have hE0 : ∀ q ∈ N0.states_, ∀ c r, N.edge q c r ↔
      N0.edge q c r ∨ (q ∈ N0.accept_states_ ∧ c = N0.epsilon_ ∧ r = N1.initial_state_) := by
    intro q hq c r
    rw [hedge, (edge_in_copies_disjoint N0 N1 hi0 hi1 hk0 hk1 hdisj q c r).1 hq]
    simp only [Prod.mk.injEq]
    constructor
    · rintro (h | ⟨f, hf, ⟨rfl, rfl⟩, hr⟩)
      · exact Or.inl h
      · exact Or.inr ⟨hf, rfl, hr⟩
    · rintro (h | ⟨hf, rfl, hr⟩)
      · exact Or.inl h
      · exact Or.inr ⟨q, hf, ⟨rfl, rfl⟩, hr⟩
  have hE1 : ∀ q ∈ N1.states_, ∀ c r, N.edge q c r ↔ N1.edge q c r := by
    intro q hq c r
    rw [hedge, (edge_in_copies_disjoint N0 N1 hi0 hi1 hk0 hk1 hdisj q c r).2.1 hq]
    simp only [Prod.mk.injEq]
    constructor
    · rintro (h | ⟨f, hf, ⟨rfl, _⟩, _⟩)
      · exact h
      · exact absurd hq (hdisj f (hi0.accept_sub f hf))
    · intro h
      exact Or.inl h
  have hto1 : ∀ {q t : Q} {u : List S}, N.Path q u t → q ∈ N1.states_ →
      N1.Path q u t ∧ t ∈ N1.states_ :=
    fun h => Path.transfer N N1 (hNeps.trans heps) N1.states_
      (fun q hq c r he =>
        ⟨(hE1 q hq c r).mp he, by
          obtain ⟨ts, hts, hr⟩ := (hE1 q hq c r).mp he
          exact (N1.mem_states_of_find hi1 q c ts hts).2.2 r hr⟩) h
  have hfrom1 : ∀ {q t : Q} {u : List S}, N1.Path q u t → q ∈ N1.states_ →
      N.Path q u t ∧ t ∈ N1.states_ :=
    fun h => Path.transfer N1 N (hNeps.trans heps).symm N1.states_
      (fun q hq c r he =>
        ⟨(hE1 q hq c r).mpr he, by
          obtain ⟨ts, hts, hr⟩ := he
          exact (N1.mem_states_of_find hi1 q c ts hts).2.2 r hr⟩) h
  have hfrom0 : ∀ {q t : Q} {u : List S}, N0.Path q u t → q ∈ N0.states_ →
      N.Path q u t ∧ t ∈ N0.states_ :=
    fun h => Path.transfer N0 N hNeps.symm N0.states_
      (fun q hq c r he =>
        ⟨(hE0 q hq c r).mpr (Or.inl he), by
          obtain ⟨ts, hts, hr⟩ := he
          exact (N0.mem_states_of_find hi0 q c ts hts).2.2 r hr⟩) h
  have hdecomp : ∀ {q t : Q} {x : List S}, N.Path q x t → q ∈ N0.states_ →
      (N0.Path q x t ∧ t ∈ N0.states_) ∨
        ∃ u v f, x = u ++ v ∧ N0.Path q u f ∧ f ∈ N0.accept_states_ ∧
          N1.Path N1.initial_state_ v t := by
    intro q t x h
    induction h with
    | nil q => intro hq; exact Or.inl ⟨Path.nil q, hq⟩
    | @eps q r t x h1 hp ih =>
      intro hq
      rw [hNeps] at h1
      rcases (hE0 q hq _ r).mp h1 with he | ⟨hf, _, hr⟩
      · obtain ⟨ts, hts, hr⟩ := he
        have hr' := (N0.mem_states_of_find hi0 q _ ts hts).2.2 r hr
        rcases ih hr' with ⟨p, ht⟩ | ⟨u, v, f, hx, p, hf, p1⟩
        · exact Or.inl ⟨Path.eps ⟨ts, hts, hr⟩ p, ht⟩
        · exact Or.inr ⟨u, v, f, hx, Path.eps ⟨ts, hts, hr⟩ p, hf, p1⟩
      · subst hr
        exact Or.inr ⟨[], x, q, rfl, Path.nil q, hf, (hto1 hp hi1.initial_mem).1⟩
    | @sym q r t c x hc h1 hp ih =>
      intro hq
      rw [hNeps] at hc
      rcases (hE0 q hq c r).mp h1 with he | ⟨_, hce, _⟩
      · obtain ⟨ts, hts, hr⟩ := he
        have hr' := (N0.mem_states_of_find hi0 q _ ts hts).2.2 r hr
        rcases ih hr' with ⟨p, ht⟩ | ⟨u, v, f, hx, p, hf, p1⟩
        · exact Or.inl ⟨Path.sym hc ⟨ts, hts, hr⟩ p, ht⟩
        · exact Or.inr ⟨c :: u, v, f, by rw [hx]; rfl, Path.sym hc ⟨ts, hts, hr⟩ p, hf, p1⟩
      · exact absurd hce hc
  obtain ⟨b, hb, hiff⟩ := N.accepts_path hcons w (fun c hc => hNsig ▸ (hw c hc).1)
  have hfilter : w.filter (fun c => decide (c ≠ N.epsilon_)) = w := by
    rw [List.filter_eq_self]
    intro c hc
    simpa [hNeps] using (hw c hc).2
  rw [hfilter, hNinit, hNacc] at hiff
  refine ⟨N, b, hconcat, hb, ?_⟩
  rw [hiff]
  constructor
  · rintro ⟨f, hf, hp⟩
    rcases hdecomp hp hi0.initial_mem with ⟨_, hf0⟩ | ⟨u, v, f0, hx, p0, hf0, p1⟩
    · exact absurd (hi1.accept_sub f hf) (hdisj f hf0)
    · refine ⟨u, v, hx, ?_, ?_⟩
      · rw [accepts_true_iff N0 hc0 u
          (fun c hc => hw c (hx ▸ List.mem_append_left v hc))]
        exact ⟨f0, hf0, p0⟩
      · rw [accepts_true_iff N1 hc1 v
          (fun c hc => ⟨(hsig c).mp (hw c (hx ▸ List.mem_append_right u hc)).1,
            heps ▸ (hw c (hx ▸ List.mem_append_right u hc)).2⟩)]
        exact ⟨f, hf, p1⟩
  · rintro ⟨u, v, hx, h0, h1⟩
    rw [accepts_true_iff N0 hc0 u
      (fun c hc => hw c (hx ▸ List.mem_append_left v hc))] at h0
    rw [accepts_true_iff N1 hc1 v
      (fun c hc => ⟨(hsig c).mp (hw c (hx ▸ List.mem_append_right u hc)).1,
        heps ▸ (hw c (hx ▸ List.mem_append_right u hc)).2⟩)] at h1
    obtain ⟨f0, hf0, p0⟩ := h0
    obtain ⟨f1, hf1, p1⟩ := h1
    refine ⟨f1, hf1, ?_⟩
    rw [hx]
    apply Path.append N (hfrom0 p0 hi0.initial_mem).1
    apply Path.eps _ (hfrom1 p1 hi1.initial_mem).1
    rw [hNeps]
    exact (hE0 f0 (hi0.accept_sub f0 hf0) _ _).mpr (Or.inr ⟨hf0, rfl, rfl⟩)

/-- C14 (amended). For two constructed NFAs that satisfy the invariants, with
the same alphabet, the same epsilon symbol and disjoint state sets,
`nfa_concat` returns an NFA which, on every input `w` of symbols of the
alphabet other than epsilon, returns `true` exactly when `w` splits as
`u ++ v` with `u` accepted by the first NFA and `v` by the second. -/
theorem nfa_concat_accepts (N0 N1 : NFA S Q) (hc0 : N0.Constructed) (hc1 : N1.Constructed)
    (hi0 : N0.Inv) (hi1 : N1.Inv)
    (hk0 : (N0.delta_.map Prod.fst).Nodup) (hk1 : (N1.delta_.map Prod.fst).Nodup)
    (hn0 : N0.sigma_.Nodup) (hn1 : N1.sigma_.Nodup)
    (hsig : ∀ c, c ∈ N0.sigma_ ↔ c ∈ N1.sigma_) (heps : N0.epsilon_ = N1.epsilon_)
    (hdisj : ∀ q ∈ N0.states_, q ∉ N1.states_) (w : List S)
    (hw : ∀ c ∈ w, c ∈ N0.sigma_ ∧ c ≠ N0.epsilon_) :
    ∃ N b, nfa_concat N0 N1 = .ok N ∧ N.accepts w = .ok b ∧
      (b = true ↔ ∃ u v, w = u ++ v ∧ N0.accepts u = .ok true ∧
        N1.accepts v = .ok true) :=
  nfa_concat_language N0 N1 hc0 hc1 hi0 hi1 hk0 hk1 hn0 hn1 hsig heps hdisj w hw

/-- C14 (witness). The amended statement at the NFAs `nfa_small` and
`nfa_small_two` and the input `[2]`. -/
theorem nfa_concat_accepts_witness :
    ∃ N0 N1, nfa_small = .ok N0 ∧ nfa_small_two = .ok N1 ∧
      ∃ N b, nfa_concat N0 N1 = .ok N ∧ N.accepts [2] = .ok b ∧
        (b = true ↔ ∃ u v, [2] = u ++ v ∧ N0.accepts u = .ok true ∧
          N1.accepts v = .ok true) := by
  have hinv0 : Inv (NFA.mk [0, 1, 2] [10, 11, 12] 10 [12]
      [((10, 0), [11]), ((11, 1), [12])] 0 none) :=
    ⟨by decide, by decide, by decide, by decide, by decide⟩
  have hinv1 : Inv (NFA.mk [0, 1, 2] [20, 21] 20 [21] [((20, 2), [21])] 0 none) :=
    ⟨by decide, by decide, by decide, by decide, by decide⟩
  obtain ⟨N0, hN0⟩ := new_ok _ _ _ _ _ _ hinv0
  obtain ⟨N1, hN1⟩ := new_ok _ _ _ _ _ _ hinv1
  obtain ⟨hs0, hq0, _, _, hd0, he0⟩ := Regex.new_sigma _ _ _ _ _ _ _ hN0
  obtain ⟨hs1, hq1, _, _, hd1, he1⟩ := Regex.new_sigma _ _ _ _ _ _ _ hN1
  refine ⟨N0, N1, hN0, hN1, ?_⟩
  exact nfa_concat_accepts N0 N1 (new_constructed _ _ _ _ _ _ _ hN0)
    (new_constructed _ _ _ _ _ _ _ hN1) (inv_of_new _ _ _ _ _ _ _ hN0 hinv0)
    (inv_of_new _ _ _ _ _ _ _ hN1 hinv1) (by rw [hd0]; decide) (by rw [hd1]; decide)
    (by rw [hs0]; decide) (by rw [hs1]; decide) (by rw [hs0, hs1]; exact fun _ => Iff.rfl)
    (by rw [he0, he1]) (by rw [hq0, hq1]; decide) [2] (by rw [hs0, he0]; decide)

end NFA

end Reglang

/-! ## Regex: the normalized expression and the accessors -/

namespace Reglang

namespace Regex

/-- C21. With the epsilon sentinel `e`, the expression `ae` is normalized to
`ae`: the occurrence of the sentinel at the very end is kept, although the
expression without the occurrences of `e` is `a`, whose normalization is `a`.
An occurrence before the end is removed: `aeb` is normalized to `ab`.  The
loop headed "Remove all epsilon" runs while `i < size - len` and so never
compares the last `len` characters. -/
theorem format_expression_keeps_final_epsilon :
    format_expression ['a', 'e'] ['e'] = .ok ['a', 'e'] ∧
      (Regex.new ['a', 'e'] ['e'] []).map (fun R => R.regular_expression_) =
        .ok ['a', 'e'] ∧
      remove_occurrences ['e'] 3 ['a', 'e'] = ['a'] ∧
      format_expression (remove_occurrences ['e'] 3 ['a', 'e']) [] = .ok ['a'] ∧
      format_expression ['a', 'e', 'b'] ['e'] = .ok ['a', 'b'] ∧
      remove_epsilon ['e'] false ['a', 'e'] = ['a', 'e'] := by
  refine ⟨?_, ?_, ?_, ?_, ?_, ?_⟩ <;> decide

/-- C22. For the `Regex` constructed from the expression `a+`, the epsilon
sentinel `""` and the emptyset sentinel `0`, whose normalized expression is
`aa*`: `expression()` returns `a+` and `epsilon()` returns `""`, but
`emptyset()` returns the normalized expression `aa*` and
`regular_expression()` returns the emptyset sentinel `0`. -/
theorem accessors_swapped :
    format_expression ['a', '+'] [] = .ok ['a', 'a', '*'] ∧
      (Regex.new ['a', '+'] [] ['0']).map
          (fun R => (R.expression, R.epsilon, R.emptyset, R.regular_expression)) =
        .ok (['a', '+'], [], ['a', 'a', '*'], ['0']) := by
  refine ⟨?_, ?_⟩ <;> decide

end Regex

namespace DFA

/-- C23. At the DFA `dfa_accept_all` and the epsilon symbol `1`, `to_nfa`
reaches its `return` statement with the state set `{{10}}` and the accept set
`{{10}}`, whose members are sets of states, together with the initial state
`10` and the transition `(10, 0) ↦ {10}`, whose target is a state: the initial
state and the targets are not members of the state set. -/
theorem to_nfa_arguments_mismatch :
    dfa_accept_all.to_nfa_arguments 1 =
      .ok ([0, 1], [[10]], 10, [[10]], [((10, 0), [10])], 1) := by
  rfl

end DFA

end Reglang

/-! ## NFA: the components of the Kleene star -/

namespace Reglang

namespace NFA

variable {S Q : Type} [DecidableEq S] [DecidableEq Q]

/-- The loop of `kleene_star` leaves every entry alone whose key is not an
accept state paired with epsilon. -/
theorem map_find_star_fold_other (eps : S) (x : Q) (fs : List Q) :
    ∀ (d : List ((Q × S) × List Q)) (k : Q × S), (∀ f ∈ fs, k ≠ (f, eps)) →
      map_find
          (fs.foldl
            (fun new_delta q =>
              map_assign new_delta (q, eps)
                (set_insert ((map_find new_delta (q, eps)).getD []) x))
            d) k =
        map_find d k := by
  induction fs with
  | nil => intro d k _; rfl
  | cons f fs ih =>
    intro d k hk
    simp only [List.foldl_cons]
    rw [ih _ k (fun g hg => hk g (List.mem_cons_of_mem _ hg)), map_find_assign]
    have hne : (f, eps) ≠ k := fun h => hk f (List.mem_cons_self _ _) h.symm
    simp only [hne, if_false]

/-- C26. For an NFA `N` that satisfies the invariants and a state `s`:
`kleene_star(s)` fails with `NFA_Invalid_Kleene_Star_Initial_State_Error`
exactly when `s ∈ Q`; otherwise it returns an NFA over the same alphabet and
epsilon whose states are `Q ∪ {s}`, whose accept states are `F ∪ {s}`, whose
initial state is `s`, and whose table maps `(s, ε)` to `{q₀}`, maps `(f, ε)`
for every `f ∈ F` to `Δ(f, ε) ∪ {q₀}`, and agrees with `Δ` on every other key. -/
theorem kleene_star_spec (N : NFA S Q) (hi : N.Inv) (s : Q) :
    (N.kleene_star s = .error .NFA_Invalid_Kleene_Star_Initial_State_Error ↔
        s ∈ N.states_) ∧
      (s ∉ N.states_ →
        ∃ N', N.kleene_star s = .ok N' ∧
          N'.sigma_ = N.sigma_ ∧ N'.epsilon_ = N.epsilon_ ∧
          (∀ q, q ∈ N'.states_ ↔ q ∈ N.states_ ∨ q = s) ∧
          (∀ q, q ∈ N'.accept_states_ ↔ q ∈ N.accept_states_ ∨ q = s) ∧
          N'.initial_state_ = s ∧
          map_find N'.delta_ (s, N.epsilon_) = some [N.initial_state_] ∧
          (∀ f ∈ N.accept_states_, ∃ ts,
            map_find N'.delta_ (f, N.epsilon_) = some ts ∧
              ∀ r, r ∈ ts ↔
                r ∈ (map_find N.delta_ (f, N.epsilon_)).getD [] ∨ r = N.initial_state_) ∧
          (∀ k, k ≠ (s, N.epsilon_) → (∀ f ∈ N.accept_states_, k ≠ (f, N.epsilon_)) →
            map_find N'.delta_ k = map_find N.delta_ k)) := by
  have hok : s ∉ N.states_ →
      ∃ N', N.kleene_star s = .ok N' ∧
        N'.sigma_ = N.sigma_ ∧ N'.epsilon_ = N.epsilon_ ∧
        (∀ q, q ∈ N'.states_ ↔ q ∈ N.states_ ∨ q = s) ∧
        (∀ q, q ∈ N'.accept_states_ ↔ q ∈ N.accept_states_ ∨ q = s) ∧
        N'.initial_state_ = s ∧
        map_find N'.delta_ (s, N.epsilon_) = some [N.initial_state_] ∧
        (∀ f ∈ N.accept_states_, ∃ ts,
          map_find N'.delta_ (f, N.epsilon_) = some ts ∧
            ∀ r, r ∈ ts ↔
              r ∈ (map_find N.delta_ (f, N.epsilon_)).getD [] ∨ r = N.initial_state_) ∧
        (∀ k, k ≠ (s, N.epsilon_) → (∀ f ∈ N.accept_states_, k ≠ (f, N.epsilon_)) →
          map_find N'.delta_ k = map_find N.delta_ k) := by
    intro hs
    have hsub : ∀ q ∈ N.states_, q ∈ set_insert N.states_ s :=
      fun q hq => (mem_set_insert _ _ _).mpr (Or.inl hq)
    have hs_mem : s ∈ set_insert N.states_ s := (mem_set_insert _ _ _).mpr (Or.inr rfl)
    have hentries : ∀ e ∈ map_assign
        (N.accept_states_.foldl
          (fun new_delta q =>
            map_assign new_delta (q, N.epsilon_)
              (set_insert ((map_find new_delta (q, N.epsilon_)).getD []) N.initial_state_))
          N.delta_) (s, N.epsilon_) [N.initial_state_],
        Entry_In N.sigma_ (set_insert N.states_ s) e := by
      apply forall_mem_map_assign
      · apply entry_in_star_fold _ _ _ _ hi.epsilon_mem (hsub _ hi.initial_mem) _
          (fun f hf => hsub f (hi.accept_sub f hf))
        intro e he
        exact Entry_In.of_subset N.sigma_ N.states_ _ hsub e
          ⟨hi.key_mem e he, hi.value_sub e he⟩
      · refine ⟨⟨hs_mem, hi.epsilon_mem⟩, fun q hq => ?_⟩
        rw [List.mem_singleton] at hq
        exact hq ▸ hsub _ hi.initial_mem
    obtain ⟨N', hN'⟩ := new_ok N.sigma_ (set_insert N.states_ s) s
      (set_insert N.accept_states_ s) _ N.epsilon_
      ⟨hi.epsilon_mem, hs_mem,
        fun q hq => by
          rcases (mem_set_insert _ _ _).mp hq with h | rfl
          · exact hsub q (hi.accept_sub q h)
          · exact hs_mem,
        fun e he => (hentries e he).1, fun e he => (hentries e he).2⟩
    have hstar : N.kleene_star s = .ok N' := by
      unfold kleene_star
      simp only [hs, if_false]
      exact hN'
    obtain ⟨hsig, hstates, hinit, hacc, hdelta, heps⟩ := Regex.new_sigma _ _ _ _ _ _ _ hN'
    have hsF : ∀ f ∈ N.accept_states_, (s, N.epsilon_) ≠ (f, N.epsilon_) := by
      intro f hf h
      simp only [Prod.mk.injEq, and_true] at h
      exact hs (h ▸ hi.accept_sub f hf)
    refine ⟨N', hstar, hsig, heps, ?_, ?_, hinit, ?_, ?_, ?_⟩
    · intro q
      rw [hstates, mem_set_insert]
    · intro q
      rw [hacc, mem_set_insert]
    · rw [hdelta, map_find_assign]
      simp only [if_true]
    · intro f hf
      have hedge : ∀ r, edge_in N'.delta_ (f, N.epsilon_) r ↔
          edge_in N.delta_ (f, N.epsilon_) r ∨ r = N.initial_state_ := by
        intro r
        rw [hdelta, edge_in_assign, edge_in_star_fold]
        constructor
        · rintro (⟨h, _⟩ | ⟨_, h | ⟨_, _, _, h⟩⟩)
          · exact absurd h (hsF f hf)
          · exact Or.inl h
          · exact Or.inr h
        · rintro (h | h)
          · exact Or.inr ⟨hsF f hf, Or.inl h⟩
          · exact Or.inr ⟨hsF f hf, Or.inr ⟨f, hf, rfl, h⟩⟩
      obtain ⟨ts, hts, _⟩ := (hedge N.initial_state_).mpr (Or.inr rfl)
      refine ⟨ts, hts, fun r => ?_⟩
      have h1 : r ∈ ts ↔ edge_in N'.delta_ (f, N.epsilon_) r := by
        constructor
        · intro hr; exact ⟨ts, hts, hr⟩
        · rintro ⟨ts', hts', hr⟩
          rw [hts] at hts'
          cases hts'
          exact hr
      rw [h1, hedge]
      have h2 : edge_in N.delta_ (f, N.epsilon_) r ↔
          r ∈ (map_find N.delta_ (f, N.epsilon_)).getD [] := by
        cases hf' : map_find N.delta_ (f, N.epsilon_) with
        | none => simp [edge_in, hf']
        | some ts0 => simp [edge_in, hf']
      rw [h2]
    · intro k hk hkF
      rw [hdelta, map_find_assign]
      simp only [hk.symm, if_false]
      exact map_find_star_fold_other _ _ _ _ k hkF
  refine ⟨⟨fun h => ?_, fun h => ?_⟩, hok⟩
  · by_contra hs
    obtain ⟨N', hN', _⟩ := hok hs
    rw [hN'] at h
    cases h
  · unfold kleene_star
    simp only [h, if_true]

/-- C26 (witness). The statement at the components of `nfa_small` and the
states `13`, outside the state set, and `11`, inside it. -/
theorem kleene_star_spec_witness :
    Inv (NFA.mk [0, 1, 2] [10, 11, 12] 10 [12] [((10, 0), [11]), ((11, 1), [12])] 0
        (none : Option (DFA Nat (List Nat)))) ∧
      (NFA.mk [0, 1, 2] [10, 11, 12] 10 [12] [((10, 0), [11]), ((11, 1), [12])] 0
          none).kleene_star 11 =
        .error .NFA_Invalid_Kleene_Star_Initial_State_Error ∧
      ∃ N', (NFA.mk [0, 1, 2] [10, 11, 12] 10 [12] [((10, 0), [11]), ((11, 1), [12])] 0
          none).kleene_star 13 = .ok N' ∧
        N'.initial_state_ = 13 ∧ map_find N'.delta_ (13, 0) = some [10] := by
  have hinv : Inv (NFA.mk [0, 1, 2] [10, 11, 12] 10 [12]
      [((10, 0), [11]), ((11, 1), [12])] 0 none) :=
    ⟨by decide, by decide, by decide, by decide, by decide⟩
  refine ⟨hinv, ((kleene_star_spec _ hinv 11).1).mpr (by decide), ?_⟩
  obtain ⟨N', h1, _, _, _, _, h2, h3, _⟩ := (kleene_star_spec _ hinv 13).2 (by decide)
  exact ⟨N', h1, h2, h3⟩

end NFA

end Reglang

/-! ## DFA: the member `valid` -/

namespace Reglang

section ValidLemmas

variable {α κ ν : Type}

theorem map_assign_keys [DecidableEq κ] (m : List (κ × ν)) (k : κ) (v : ν) :
    (map_assign m k v).map Prod.fst =
      if k ∈ m.map Prod.fst then m.map Prod.fst else m.map Prod.fst ++ [k] := by
  induction m with
  | nil => simp [map_assign]
  | cons e m ih =>
    obtain ⟨k0, v0⟩ := e
    by_cases h0 : k0 = k
    · subst h0
      simp [map_assign]
    · have hne : ¬ k = k0 := fun h => h0 h.symm
      simp only [map_assign, h0, if_false, List.map_cons, ih, List.mem_cons, hne, false_or]
      split <;> simp

theorem nodup_keys_map_assign [DecidableEq κ] (m : List (κ × ν)) (k : κ) (v : ν)
    (h : (m.map Prod.fst).Nodup) : ((map_assign m k v).map Prod.fst).Nodup := by
  rw [map_assign_keys]
  split
  · exact h
  · rename_i hk
    exact List.nodup_append.mpr ⟨h, List.nodup_singleton k, by
      intro a ha hb
      rw [List.mem_singleton] at hb
      exact hk (hb ▸ ha)⟩

theorem mem_map_assign [DecidableEq κ] (m : List (κ × ν)) (k : κ) (v : ν) (p : κ × ν)
    (h : p ∈ map_assign m k v) : p = (k, v) ∨ p ∈ m := by
  induction m with
  | nil =>
    simp only [map_assign, List.mem_singleton] at h
    exact Or.inl h
  | cons e m ih =>
    obtain ⟨k0, v0⟩ := e
    simp only [map_assign] at h
    split at h
    · rcases List.mem_cons.mp h with h | h
      · exact Or.inl h
      · exact Or.inr (List.mem_cons_of_mem _ h)
    · rcases List.mem_cons.mp h with h | h
      · exact Or.inr (h ▸ List.mem_cons_self _ _)
      · rcases ih h with h | h
        · exact Or.inl h
        · exact Or.inr (List.mem_cons_of_mem _ h)

theorem map_find_isSome_of_key [DecidableEq κ] (m : List (κ × ν)) (k : κ)
    (h : k ∈ m.map Prod.fst) : (map_find m k).isSome = true := by
  induction m with
  | nil => cases h
  | cons e m ih =>
    obtain ⟨k0, v0⟩ := e
    simp only [map_find]
    split
    · rfl
    · rename_i hne
      simp only [List.map_cons, List.mem_cons] at h
      rcases h with h | h
      · exact absurd h.symm hne
      · exact ih h

theorem map_find_of_mem_nodup [DecidableEq κ] (m : List (κ × ν)) (k : κ) (v : ν)
    (hn : (m.map Prod.fst).Nodup) (h : (k, v) ∈ m) : map_find m k = some v := by
  induction m with
  | nil => cases h
  | cons e m ih =>
    obtain ⟨k0, v0⟩ := e
    simp only [List.map_cons, List.nodup_cons] at hn
    simp only [map_find]
    rcases List.mem_cons.mp h with h | h
    · simp only [Prod.mk.injEq] at h
      simp only [h.1, h.2, if_true]
    · have hne : k0 ≠ k := by
        intro hk
        exact hn.1 (hk ▸ List.mem_map_of_mem Prod.fst h)
      simp only [hne, if_false]
      exact ih hn.2 h

theorem subset_of_nodup_length {l1 l2 : List α} (h1 : l1.Nodup) (hs : ∀ x ∈ l1, x ∈ l2)
    (hl : l2.length ≤ l1.length) : ∀ x ∈ l2, x ∈ l1 := by
  intro x hx
  exact ((List.subperm_of_subset h1 hs).perm_of_length_le hl).mem_iff.mpr hx

theorem length_eq_of_nodup_mem [DecidableEq α] {l1 l2 : List α} (h1 : l1.Nodup)
    (h2 : l2.Nodup) (h : ∀ x, x ∈ l1 ↔ x ∈ l2) : l1.length = l2.length :=
  ((List.perm_ext_iff_of_nodup h1 h2).mpr h).length_eq

end ValidLemmas

namespace DFA

variable {S Q : Type} [DecidableEq S] [DecidableEq Q]

theorem Checks_Inv.empty : Checks_Inv ([] : List (Q × List S)) [] :=
  ⟨List.nodup_nil, fun _ h => (by cases h), fun _ h => (by cases h),
    fun _ h => (by cases h)⟩

/-- One entry of `delta_` that passes the duplicate test keeps the invariant
of `state_checks`. -/
theorem Checks_Inv.step (sc : List (Q × List S)) (seen : List (Q × S)) (q : Q) (c : S)
    (h : Checks_Inv sc seen) :
    Checks_Inv (map_assign sc q (set_insert ((map_find sc q).getD []) c))
      (seen ++ [(q, c)]) := by
  have hcur_nodup : ((map_find sc q).getD []).Nodup := by
    cases hf : map_find sc q with
    | none => exact List.nodup_nil
    | some cur => exact h.value_nodup _ (map_find_mem _ _ _ hf)
  have hcur_seen : ∀ c' ∈ (map_find sc q).getD [], (q, c') ∈ seen := by
    intro c' hc'
    cases hf : map_find sc q with
    | none => rw [hf] at hc'; cases hc'
    | some cur =>
      rw [hf] at hc'
      exact (h.sound _ (map_find_mem _ _ _ hf)).2 c' hc'
  refine ⟨nodup_keys_map_assign _ _ _ h.keys_nodup, ?_, ?_, ?_⟩
  · intro p hp
    rcases mem_map_assign _ _ _ p hp with rfl | hp
    · exact nodup_set_insert _ _ hcur_nodup
    · exact h.value_nodup p hp
  · intro p hp
    rcases mem_map_assign _ _ _ p hp with rfl | hp
    · refine ⟨?_, fun c' hc' => ?_⟩
      · intro hnil
        have : c ∈ set_insert ((map_find sc q).getD []) c :=
          (mem_set_insert _ _ _).mpr (Or.inr rfl)
        simp only at hnil
        rw [hnil] at this
        cases this
      · rcases (mem_set_insert _ _ _).mp hc' with h' | rfl
        · exact List.mem_append_left _ (hcur_seen c' h')
        · exact List.mem_append_right _ (List.mem_singleton.mpr rfl)
    · exact ⟨(h.sound p hp).1, fun c' hc' => List.mem_append_left _ ((h.sound p hp).2 c' hc')⟩
  · intro k hk
    rw [map_find_assign]
    rcases List.mem_append.mp hk with hk | hk
    · obtain ⟨cs, hcs, hmem⟩ := h.complete k hk
      by_cases hq : q = k.1
      · refine ⟨set_insert ((map_find sc q).getD []) c, by simp only [hq, if_true], ?_⟩
        rw [hq, hcs]
        exact (mem_set_insert _ _ _).mpr (Or.inl hmem)
      · exact ⟨cs, by simp only [hq, if_false]; exact hcs, hmem⟩
    · rw [List.mem_singleton] at hk
      subst hk
      exact ⟨set_insert ((map_find sc q).getD []) c, by simp only [if_true],
        (mem_set_insert _ _ _).mpr (Or.inr rfl)⟩

/-- When the loop of `valid` over `delta_` does not return `false`, every
entry it read lies in `Q × Σ` with its value in `Q` and `state_checks` records
the keys read. -/
theorem valid_delta_some (M : DFA S Q) :
    ∀ (l : List ((Q × S) × Q)) (sc : List (Q × List S)) (seen : List (Q × S))
      (sc' : List (Q × List S)),
      M.valid_delta l sc = some sc' → Checks_Inv sc seen →
        Checks_Inv sc' (seen ++ l.map Prod.fst) ∧
          ∀ e ∈ l, e.1.1 ∈ M.states_ ∧ e.1.2 ∈ M.sigma_ ∧ e.2 ∈ M.states_ := by
  intro l
  induction l with
  | nil =>
    intro sc seen sc' h hci
    simp only [valid_delta, Option.some.injEq] at h
    subst h
    exact ⟨by simpa using hci, fun _ he => by cases he⟩
  | cons e l ih =>
    intro sc seen sc' h hci
    obtain ⟨⟨q, c⟩, r⟩ := e
    simp only [valid_delta] at h
    split at h
    · cases h
    · rename_i hq
      split at h
      · cases h
      · rename_i hc
        split at h
        · cases h
        · split at h
          · cases h
          · rename_i hr
            simp only [not_not] at hq hc hr
            obtain ⟨hci', hall⟩ := ih _ _ _ h (hci.step sc seen q c)
            refine ⟨by simpa using hci', ?_⟩
            intro e he
            rcases List.mem_cons.mp he with rfl | he
            · exact ⟨hq, hc, hr⟩
            · exact hall e he

/-- The loop of `valid` over `delta_` does not return `false` when the keys
are distinct and unseen and every entry lies in `Q × Σ` with its value in `Q`. -/
theorem valid_delta_ok (M : DFA S Q) :
    ∀ (l : List ((Q × S) × Q)) (sc : List (Q × List S)) (seen : List (Q × S)),
      (∀ e ∈ l, e.1.1 ∈ M.states_ ∧ e.1.2 ∈ M.sigma_ ∧ e.2 ∈ M.states_) →
      (l.map Prod.fst).Nodup → (∀ e ∈ l, e.1 ∉ seen) → Checks_Inv sc seen →
        ∃ sc', M.valid_delta l sc = some sc' := by
  intro l
  induction l with
  | nil => intro sc _ _ _ _ _; exact ⟨sc, rfl⟩
  | cons e l ih =>
    intro sc seen hall hnodup hseen hci
    obtain ⟨⟨q, c⟩, r⟩ := e
    obtain ⟨hq, hc, hr⟩ := hall _ (List.mem_cons_self _ _)
    simp only [List.map_cons, List.nodup_cons] at hnodup
    have hcur : c ∉ (map_find sc q).getD [] := by
      intro hmem
      cases hf : map_find sc q with
      | none => rw [hf] at hmem; cases hmem
      | some cur =>
        rw [hf] at hmem
        exact hseen _ (List.mem_cons_self _ _)
          ((hci.sound _ (map_find_mem _ _ _ hf)).2 c hmem)
    simp only [valid_delta, hq, hc, hr, hcur, not_true_eq_false, if_false]
    apply ih _ (seen ++ [(q, c)]) (fun e he => hall e (List.mem_cons_of_mem _ he)) hnodup.2
    · intro e he hmem
      rcases List.mem_append.mp hmem with h | h
      · exact hseen e (List.mem_cons_of_mem _ he) h
      · rw [List.mem_singleton] at h
        exact hnodup.1 (h ▸ List.mem_map_of_mem Prod.fst he)
    · exact hci.step sc seen q c

/-- C24. When `valid()` returns `true`, the DFA satisfies its invariants: `Q`
is not empty, `q₀ ∈ Q`, `F ⊆ Q`, every pair of `Q × Σ` is a key of `δ`, every
key of `δ` lies in `Q × Σ` and every value of `δ` lies in `Q`. -/
theorem valid_sound (M : DFA S Q) (h : M.valid = true) :
    M.states_ ≠ [] ∧ M.initial_state_ ∈ M.states_ ∧
      (∀ q ∈ M.accept_states_, q ∈ M.states_) ∧
      (∀ q ∈ M.states_, ∀ c ∈ M.sigma_, (map_find M.delta_ (q, c)).isSome = true) ∧
      (∀ e ∈ M.delta_, e.1.1 ∈ M.states_ ∧ e.1.2 ∈ M.sigma_) ∧
      (∀ e ∈ M.delta_, e.2 ∈ M.states_) := by
  unfold valid at h
  split at h
  · cases h
  · rename_i hne
    split at h
    · cases h
    · rename_i hF
      split at h
      · cases h
      · rename_i hq0
        split at h
        · cases h
        · rename_i sc hsc
          split at h
          · cases h
          · rename_i hlen
            simp only [not_not] at hq0 hlen
            obtain ⟨hci, hall⟩ := M.valid_delta_some _ _ [] _ hsc Checks_Inv.empty
            simp only [List.nil_append] at hci
            have hkey : ∀ k ∈ M.delta_.map Prod.fst, k.1 ∈ M.states_ ∧ k.2 ∈ M.sigma_ := by
              intro k hk
              obtain ⟨e, he, rfl⟩ := List.mem_map.mp hk
              exact ⟨(hall e he).1, (hall e he).2.1⟩
            have hkeys_sub : ∀ q ∈ sc.map Prod.fst, q ∈ M.states_ := by
              intro q hq
              obtain ⟨p, hp, rfl⟩ := List.mem_map.mp hq
              obtain ⟨hnil, hs⟩ := hci.sound p hp
              obtain ⟨c, hc⟩ := List.exists_mem_of_ne_nil _ hnil
              exact (hkey _ (hs c hc)).1
            have hstates : ∀ q ∈ M.states_, q ∈ sc.map Prod.fst :=
              subset_of_nodup_length hci.keys_nodup hkeys_sub
                (by rw [List.length_map, hlen])
            refine ⟨?_, hq0, ?_, ?_, fun e he => ⟨(hall e he).1, (hall e he).2.1⟩,
              fun e he => (hall e he).2.2⟩
            · intro hnil
              rw [hnil] at hne
              exact hne rfl
            · intro q hq
              have hF' : ∀ x ∈ M.accept_states_, x ∈ M.states_ := by simpa using hF
              exact hF' q hq
            · intro q hq c hc
              obtain ⟨p, hp, rfl⟩ := List.mem_map.mp (hstates q hq)
              have hsub : ∀ x ∈ p.2, x ∈ M.sigma_ :=
                fun x hx => (hkey _ ((hci.sound p hp).2 x hx)).2
              have hplen : p.2.length = M.sigma_.length := by
                have := List.all_eq_true.mp h p hp
                simpa using this
              have hc' : c ∈ p.2 :=
                subset_of_nodup_length (hci.value_nodup p hp) hsub (by rw [hplen]) c hc
              exact map_find_isSome_of_key _ _ ((hci.sound p hp).2 c hc')

end DFA

end Reglang

/-! ## DFA: when `valid` returns `true` -/

namespace Reglang

namespace DFA

variable {S Q : Type} [DecidableEq S] [DecidableEq Q]

/-- C24 (witness). The statement at the DFA `dfa_parity`. -/
theorem valid_sound_witness :
    dfa_parity.valid = true ∧
      dfa_parity.states_ ≠ [] ∧ dfa_parity.initial_state_ ∈ dfa_parity.states_ ∧
      (∀ q ∈ dfa_parity.accept_states_, q ∈ dfa_parity.states_) ∧
      (∀ q ∈ dfa_parity.states_, ∀ c ∈ dfa_parity.sigma_,
        (map_find dfa_parity.delta_ (q, c)).isSome = true) ∧
      (∀ e ∈ dfa_parity.delta_, e.1.1 ∈ dfa_parity.states_ ∧ e.1.2 ∈ dfa_parity.sigma_) ∧
      (∀ e ∈ dfa_parity.delta_, e.2 ∈ dfa_parity.states_) :=
  ⟨by decide, valid_sound dfa_parity (by decide)⟩

/-- C25 (counterexample). The DFA `dfa_empty_sigma` over the empty alphabet
has a non-empty `Q` and satisfies every invariant (`q₀ ∈ Q`, `F ⊆ Q`, the keys
of `δ` are exactly `Q × Σ`, both empty, and every value lies in `Q`), and
`valid()` returns `false`: no state appears in `δ`, so the count of source
states differs from `|Q|`. -/
theorem valid_rejects_empty_sigma :
    dfa_empty_sigma.valid = false ∧ dfa_empty_sigma.sigma_ = [] ∧
      dfa_empty_sigma.states_ ≠ [] ∧
      dfa_empty_sigma.initial_state_ ∈ dfa_empty_sigma.states_ ∧
      (∀ q ∈ dfa_empty_sigma.accept_states_, q ∈ dfa_empty_sigma.states_) ∧
      (∀ q ∈ dfa_empty_sigma.states_, ∀ c ∈ dfa_empty_sigma.sigma_,
        (map_find dfa_empty_sigma.delta_ (q, c)).isSome = true) ∧
      (∀ e ∈ dfa_empty_sigma.delta_,
        e.1.1 ∈ dfa_empty_sigma.states_ ∧ e.1.2 ∈ dfa_empty_sigma.sigma_) ∧
      (∀ e ∈ dfa_empty_sigma.delta_, e.2 ∈ dfa_empty_sigma.states_) := by
  refine ⟨?_, ?_, ?_, ?_, ?_, ?_, ?_, ?_⟩ <;> decide

/-- C25 (amended). A DFA with a non-empty `Q` and a non-empty `Σ`, both free
of repetitions, whose `δ` has distinct keys and which satisfies the
invariants (`q₀ ∈ Q`, `F ⊆ Q`, the keys of `δ` are exactly `Q × Σ`, every
value of `δ` lies in `Q`) passes `valid()`. -/
theorem valid_complete (M : DFA S Q) (hM : M.Inv) (hQ : M.states_ ≠ [])
    (hsigma : M.sigma_ ≠ []) (hQn : M.states_.Nodup) (hSn : M.sigma_.Nodup)
    (hkeys : (M.delta_.map Prod.fst).Nodup) : M.valid = true := by
  have hall : ∀ e ∈ M.delta_, e.1.1 ∈ M.states_ ∧ e.1.2 ∈ M.sigma_ ∧ e.2 ∈ M.states_ :=
    fun e he => ⟨(hM.key_mem e he).1, (hM.key_mem e he).2, hM.value_mem e he⟩
  obtain ⟨sc, hsc⟩ := M.valid_delta_ok M.delta_ [] [] hall hkeys
    (fun _ _ h => by cases h) Checks_Inv.empty
  obtain ⟨hci, _⟩ := M.valid_delta_some _ _ [] _ hsc Checks_Inv.empty
  simp only [List.nil_append] at hci
  have hseen : ∀ q ∈ M.states_, ∀ c ∈ M.sigma_, (q, c) ∈ M.delta_.map Prod.fst := by
    intro q hq c hc
    obtain ⟨r, hr⟩ := Option.isSome_iff_exists.mp (hM.total q hq c hc)
    exact List.mem_map.mpr ⟨((q, c), r), map_find_mem _ _ _ hr, rfl⟩
  have hkey : ∀ k ∈ M.delta_.map Prod.fst, k.1 ∈ M.states_ ∧ k.2 ∈ M.sigma_ := by
    intro k hk
    obtain ⟨e, he, rfl⟩ := List.mem_map.mp hk
    exact hM.key_mem e he
  obtain ⟨c0, hc0⟩ := List.exists_mem_of_ne_nil _ hsigma
  have hlen : sc.length = M.states_.length := by
    rw [← List.length_map sc Prod.fst]
    apply length_eq_of_nodup_mem hci.keys_nodup hQn
    intro q
    constructor
    · intro hq
      obtain ⟨p, hp, rfl⟩ := List.mem_map.mp hq
      obtain ⟨hnil, hs⟩ := hci.sound p hp
      obtain ⟨c, hc⟩ := List.exists_mem_of_ne_nil _ hnil
      exact (hkey _ (hs c hc)).1
    · intro hq
      obtain ⟨cs, hcs, _⟩ := hci.complete (q, c0) (hseen q hq c0 hc0)
      exact List.mem_map.mpr ⟨(q, cs), map_find_mem _ _ _ hcs, rfl⟩
  have hvals : ∀ p ∈ sc, p.2.length = M.sigma_.length := by
    intro p hp
    obtain ⟨hnil, hs⟩ := hci.sound p hp
    obtain ⟨c1, hc1⟩ := List.exists_mem_of_ne_nil _ hnil
    have hp1 : p.1 ∈ M.states_ := (hkey _ (hs c1 hc1)).1
    apply length_eq_of_nodup_mem (hci.value_nodup p hp) hSn
    intro c
    constructor
    · intro hc
      exact (hkey _ (hs c hc)).2
    · intro hc
      obtain ⟨cs, hcs, hmem⟩ := hci.complete (p.1, c) (hseen p.1 hp1 c hc)
      have : map_find sc p.1 = some p.2 := map_find_of_mem_nodup sc p.1 p.2 hci.keys_nodup hp
      simp only at hcs
      rw [this] at hcs
      cases hcs
      exact hmem
  have hempty : M.states_.isEmpty = false := by
    cases hst : M.states_ with
    | nil => exact absurd hst hQ
    | cons _ _ => rfl
  have hF : M.accept_states_.all (fun q => decide (q ∈ M.states_)) = true := by
    rw [List.all_eq_true]
    intro q hq
    simpa using hM.accept_sub q hq
  have hvals' : sc.all (fun p => decide (p.2.length = M.sigma_.length)) = true := by
    rw [List.all_eq_true]
    intro p hp
    simpa using hvals p hp
  unfold valid
  simp only [hempty, hF, hM.initial_mem, hsc, hlen, hvals', Bool.false_eq_true, if_false,
    Bool.not_true, not_true_eq_false, ne_eq]

/-- C25 (witness). The amended statement at the DFA `dfa_parity`. -/
theorem valid_complete_witness :
    dfa_parity.Inv ∧ dfa_parity.states_ ≠ [] ∧ dfa_parity.sigma_ ≠ [] ∧
      dfa_parity.states_.Nodup ∧ dfa_parity.sigma_.Nodup ∧
      (dfa_parity.delta_.map Prod.fst).Nodup ∧ dfa_parity.valid = true :=
  ⟨⟨by decide, by decide, by decide, by decide, by decide⟩, by decide, by decide,
    by decide, by decide, by decide,
    valid_complete dfa_parity ⟨by decide, by decide, by decide, by decide, by decide⟩
      (by decide) (by decide) (by decide) (by decide) (by decide)⟩

end DFA

end Reglang

/-! ## Regex: the language of concrete expressions -/

namespace Reglang

namespace DFA

variable {S Q K : Type} [DecidableEq S] [DecidableEq Q] [DecidableEq K]

end DFA

namespace Regex

variable {K : Type} [DecidableEq K]

end Regex

end Reglang

/-! ## Regex: the expressions `a(b|c)*`, `[a-c]{2,3}` and `a+b?` -/

namespace Reglang

namespace Regex

end Regex

end Reglang

/-! ## Regex: the expression `a+b?` -/

namespace Reglang

namespace Regex

end Regex

end Reglang

/-! ## Regex: escape pairs -/

namespace Reglang

namespace Regex

/-- C34. The expression `//()` is an escaped `/` followed by one unescaped
`(` and one unescaped `)`, and its normalization fails with
`Regex_Unbalanced_Parenthesized_Expression_Error`; the expression `//(` has
one unescaped `(` and no unescaped `)`, and its normalization succeeds.  The
loop of `format_expression` leaves out of `global_balance` every parenthesis
that follows a `/`, also when that `/` is the second character of the pair
`//`. -/
theorem format_expression_escaped_slash :
    format_expression ['/', '/', '(', ')'] [] =
        .error .Regex_Unbalanced_Parenthesized_Expression_Error ∧
      unescaped_count '(' ['/', '/', '(', ')'] = 1 ∧
      unescaped_count ')' ['/', '/', '(', ')'] = 1 ∧
      format_expression ['/', '/', '('] [] = .ok ['/', '/', '('] ∧
      unescaped_count '(' ['/', '/', '('] = 1 ∧
      unescaped_count ')' ['/', '/', '('] = 0 := by
  refine ⟨?_, ?_, ?_, ?_, ?_, ?_⟩ <;> decide

/-- C35. For the atoms `a` and `/)` the expression `a|/)` is normalized to
itself and the construction fails with `Regex_NFA_Construction_Error`; for the
atoms `a` and `/|` the `Regex` of `a|/|` is constructed, rejects the string
`|` and accepts the empty string.  The scan of the right operand of `|` stops
at an escaped `|` and counts an escaped `)`. -/
theorem alternation_of_escaped_atoms :
    format_expression ['a', '|', '/', ')'] [] = .ok ['a', '|', '/', ')'] ∧
      (Regex.new ['a', '|', '/', ')'] [] []).map (fun R => R.regular_expression_) =
        .error .Regex_NFA_Construction_Error ∧
      (Regex.new ['a', '|', '/', '|'] [] []).bind (fun R => R.accepts ['|']) = .ok false ∧
      (Regex.new ['a', '|', '/', '|'] [] []).bind (fun R => R.accepts []) = .ok true := by
  refine ⟨?_, ?_, ?_, ?_⟩ <;> decide

/-- C36. On the buffer `(//)`, which is the empty prefix followed by the
group `(//)` whose parentheses balance when the escape pair `//` is skipped,
`pop_prev_expression` returns `/)` and leaves `(/` in the buffer: read from
the right, the `)` that follows the pair `//` is taken for an escaped `)`. -/
theorem pop_prev_expression_escaped_slash :
    pop_prev_expression ['(', '/', '/', ')'] = .ok (['/', ')'], ['(', '/']) := by
  decide

/-- C38. The `Regex` of the normalized expression `a|/|` is constructed and
its NFA fails `valid()`: the alphabet is `a`, `|` and `""`, and the table
holds a transition on the null character, read past the end of the operand
`/` that the scan of the right operand of `|` cut off. -/
theorem compiled_nfa_not_valid :
    format_expression ['a', '|', '/', '|'] [] = .ok ['a', '|', '/', '|'] ∧
      (Regex.new ['a', '|', '/', '|'] [] []).bind
          (fun R => R.to_nfa.map (fun N => (N.valid, N.sigma_))) =
        .ok (false, [['a'], ['|'], []]) ∧
      (Regex.new ['a', '|', '/', '|'] [] []).bind
          (fun R => R.to_nfa.map (fun N => map_find N.delta_
            (['q', '2'], [Char.ofNat 0]))) =
        .ok (some [['q', '3']]) := by
  refine ⟨?_, ?_, ?_⟩ <;> decide

end Regex

namespace NFA

/-- The member `to_regex` works on the table `to_regex_new_delta`. -/
theorem to_regex_eq_new_delta {Q : Type} [DecidableEq Q] (N : NFA (List Char) Q)
    (qi qa : Q) (emptyset : List Char) :
    N.to_regex qi qa emptyset =
      if qi ∈ N.states_ then .error .NFA_To_Regex_Invalid_qi_Error
      else if qa ∈ N.states_ then .error .NFA_To_Regex_Invalid_qa_Error
      else
        match eliminate_loop qi qa emptyset N.epsilon_
            ((set_insert (set_insert N.states_ qi) qa).length + 1)
            (set_insert (set_insert N.states_ qi) qa)
            (to_regex_old_trans (to_regex_transitions (N.to_regex_new_delta qi qa))) with
        | .error e => .error e
        | .ok old_trans =>
          Regex.new ((map_find old_trans (qi, qa)).getD []) N.epsilon_ emptyset :=
  rfl

/-- C37. For the NFA `nfa_accept_epsilon`, whose accept state `0` has the
epsilon edge `Δ(0, "") = {1}`, and the fresh states `10` and `11`, the working
table of `to_regex` maps `(0, "")` to `{11}`: the edge to `1` is replaced, not
kept beside the new one.  The other entries are those of `Δ` and the two new
ones. -/
theorem to_regex_new_delta_overwrites :
    nfa_accept_epsilon.map (fun N => map_find N.delta_ (0, [])) = .ok (some [1]) ∧
      nfa_accept_epsilon.map (fun N => N.to_regex_new_delta 10 11) =
        .ok [((0, []), [11]), ((1, ['a']), [2]), ((10, []), [0]), ((2, []), [11])] := by
  refine ⟨?_, ?_⟩ <;> decide

end NFA

namespace DFA

/-- C40. The DFA `dfa_nonempty` passes `valid()` and `minimal()` returns a DFA
that fails it: the result keeps the state `12` without any transition. -/
theorem minimal_not_valid :
    dfa_nonempty.valid = true ∧
      dfa_nonempty.minimal.map (fun M => (M.valid, M.states_, M.delta_)) =
        .ok (false, [10, 11, 12], [((11, 0), 11), ((10, 0), 11)]) := by
  refine ⟨?_, ?_⟩ <;> decide

end DFA

end Reglang

/-! ## NFA: the invariants of the cached DFA -/

namespace Reglang

theorem mem_keys_map_assign {κ ν : Type} [DecidableEq κ] (m : List (κ × ν)) (k k' : κ)
    (v : ν) : k' ∈ (map_assign m k v).map Prod.fst ↔ k' ∈ m.map Prod.fst ∨ k' = k := by
  rw [map_assign_keys]
  split
  · rename_i hk
    constructor
    · exact fun h => Or.inl h
    · rintro (h | rfl)
      · exact h
      · exact hk
  · simp

namespace NFA

variable {S Q : Type} [DecidableEq S] [DecidableEq Q]

theorem construct_dfa_symbol_keys (N : NFA S Q) (new_sigma : List S) (check_state : List Q)
    (st st' : Subset_State S Q) (c : S)
    (h : N.construct_dfa_symbol check_state st c = .ok st')
    (hk : Keys_Inv new_sigma st) (hX : check_state ∈ st.new_states) (hc : c ∈ new_sigma) :
    Keys_Inv new_sigma st' ∧ ∀ X ∈ st.new_states, X ∈ st'.new_states := by
  unfold construct_dfa_symbol at h
  cases hn : N.next_state check_state c with
  | error e => rw [hn] at h; cases h
  | ok new_state =>
    rw [hn] at h
    simp only at h
    cases hm : get_ptr_to_member st.new_states new_state with
    | none =>
      rw [hm] at h
      simp only [Except.ok.injEq] at h
      subst h
      refine ⟨⟨nodup_keys_map_assign _ _ _ hk.keys_nodup, ?_, ?_⟩,
        fun X hX' => List.mem_append_left _ hX'⟩
      · intro k hkm
        rcases (mem_keys_map_assign _ _ _ _).mp hkm with h1 | rfl
        · exact ⟨List.mem_append_left _ (hk.key_mem k h1).1, (hk.key_mem k h1).2⟩
        · exact ⟨List.mem_append_left _ hX, hc⟩
      · intro X hX'
        rcases List.mem_cons.mp hX' with rfl | h1
        · exact List.mem_append_right _ (List.mem_singleton_self _)
        · exact List.mem_append_left _ (hk.eval_sub X h1)
    | some member =>
      rw [hm] at h
      simp only [Except.ok.injEq] at h
      subst h
      refine ⟨⟨nodup_keys_map_assign _ _ _ hk.keys_nodup, ?_, hk.eval_sub⟩,
        fun X hX' => hX'⟩
      intro k hkm
      rcases (mem_keys_map_assign _ _ _ _).mp hkm with h1 | rfl
      · exact hk.key_mem k h1
      · exact ⟨hX, hc⟩

theorem construct_dfa_symbols_keys (N : NFA S Q) (new_sigma : List S)
    (check_state : List Q) (cs : List S) :
    ∀ (st st' : Subset_State S Q),
      cs.foldlM (N.construct_dfa_symbol check_state) st = .ok st' →
      Keys_Inv new_sigma st → check_state ∈ st.new_states → (∀ c ∈ cs, c ∈ new_sigma) →
      Keys_Inv new_sigma st' := by
  induction cs with
  | nil =>
    intro st st' h hk _ _
    rw [foldlM_nil_ok] at h
    subst h
    exact hk
  | cons c cs ih =>
    intro st st' h hk hX hcs
    rw [foldlM_cons_ok] at h
    obtain ⟨st1, h1, h2⟩ := h
    obtain ⟨hk1, hsub⟩ := N.construct_dfa_symbol_keys new_sigma check_state st st1 c h1 hk hX
      (hcs c (List.mem_cons_self _ _))
    exact ih st1 st' h2 hk1 (hsub _ hX) (fun d hd => hcs d (List.mem_cons_of_mem _ hd))

theorem construct_dfa_loop_keys (N : NFA S Q) (new_sigma : List S) :
    ∀ (fuel : Nat) (st st' : Subset_State S Q),
      N.construct_dfa_loop new_sigma fuel st = .ok st' →
      Keys_Inv new_sigma st → Keys_Inv new_sigma st' := by
  intro fuel
  induction fuel with
  | zero =>
    intro st st' h hk
    unfold construct_dfa_loop at h
    cases he : st.to_eval with
    | nil =>
      rw [he] at h
      simp only [Except.ok.injEq] at h
      subst h
      exact hk
    | cons X rest =>
      rw [he] at h
      cases h
  | succ fuel ih =>
    intro st st' h hk
    unfold construct_dfa_loop at h
    cases he : st.to_eval with
    | nil =>
      rw [he] at h
      simp only [Except.ok.injEq] at h
      subst h
      exact hk
    | cons X rest =>
      rw [he] at h
      simp only at h
      cases hf : new_sigma.foldlM (N.construct_dfa_symbol X) { st with to_eval := rest } with
      | error e => rw [hf] at h; cases h
      | ok st1 =>
        rw [hf] at h
        simp only at h
        have hX : X ∈ st.new_states := hk.eval_sub X (by rw [he]; exact List.mem_cons_self _ _)
        have hk0 : Keys_Inv new_sigma { st with to_eval := rest } :=
          ⟨hk.keys_nodup, hk.key_mem,
            fun Y hY => hk.eval_sub Y (by rw [he]; exact List.mem_cons_of_mem _ hY)⟩
        exact ih st1 st' h
          (N.construct_dfa_symbols_keys new_sigma X new_sigma _ st1 hf hk0 hX (fun _ hc => hc))

/-- The table of the cached DFA has distinct keys, each a pair of a state and
a symbol of the DFA. -/
theorem construct_dfa_keys (N0 N : NFA S Q) (h : N0.construct_dfa = .ok N) :
    ∃ M, N.M_ = some M ∧ (M.delta_.map Prod.fst).Nodup ∧
      ∀ k ∈ M.delta_.map Prod.fst, k.1 ∈ M.states_ ∧ k.2 ∈ M.sigma_ := by
  unfold construct_dfa at h
  simp only at h
  cases hc : N0.epsilon_closure N0.initial_state_ with
  | error e => rw [hc] at h; cases h
  | ok init =>
    rw [hc] at h
    simp only at h
    cases hl : N0.construct_dfa_loop
        (N0.sigma_.filter (fun c => decide (c ≠ N0.epsilon_)))
        (2 ^ (N0.value_count + 1))
        { new_states := [init], to_eval := [init], new_delta := [] } with
    | error e => rw [hl] at h; cases h
    | ok st =>
      rw [hl] at h
      simp only [Except.ok.injEq] at h
      have hk := N0.construct_dfa_loop_keys _ _ _ st hl
        ⟨List.nodup_nil, fun _ hk => (by cases hk), fun X hX => hX⟩
      subst h
      exact ⟨_, rfl, hk.keys_nodup, hk.key_mem⟩

/-- C39. On components that satisfy the NFA invariants the constructor
succeeds and the DFA returned by `to_dfa()` satisfies the DFA invariants: its
alphabet is `Σ` without `ε`, its initial state is the epsilon closure of `q₀`
and belongs to its states, its accept states are states, its table has one
entry for every pair of a state and a symbol, no two entries with the same
key, every key is such a pair and every value is a state. -/
theorem to_dfa_invariants (sigma : List S) (states : List Q) (q0 : Q) (F : List Q)
    (delta : List ((Q × S) × List Q)) (eps : S)
    (hinv : Inv (NFA.mk sigma states q0 F delta eps none)) :
    ∃ N M, NFA.new sigma states q0 F delta eps = .ok N ∧ N.to_dfa = .ok M ∧
      M.sigma_ = sigma.filter (fun c => decide (c ≠ eps)) ∧
      (NFA.mk sigma states q0 F delta eps none).epsilon_closure q0 = .ok M.initial_state_ ∧
      M.initial_state_ ∈ M.states_ ∧
      (∀ X ∈ M.accept_states_, X ∈ M.states_) ∧
      (∀ X ∈ M.states_, ∀ c ∈ M.sigma_, (map_find M.delta_ (X, c)).isSome = true) ∧
      (M.delta_.map Prod.fst).Nodup ∧
      (∀ e ∈ M.delta_, e.1.1 ∈ M.states_ ∧ e.1.2 ∈ M.sigma_) ∧
      (∀ e ∈ M.delta_, e.2 ∈ M.states_) := by
  obtain ⟨N, hN⟩ := new_ok sigma states q0 F delta eps hinv
  have hnew := hN
  unfold NFA.new at hnew
  simp only [hinv.epsilon_mem, not_true_eq_false, if_false] at hnew
  obtain ⟨M, hNeq, hsig, hinit, _, hdelta, hacc⟩ := construct_dfa_spec _ N hnew
  obtain ⟨M', hM', hnodup, hkeys⟩ := construct_dfa_keys _ N hnew
  have hMM : N.M_ = some M := by rw [hNeq]
  rw [hMM] at hM'
  cases hM'
  have hclosure : (NFA.mk sigma states q0 F delta eps none).epsilon_closure q0 =
      .ok M.initial_state_ := by
    have h2 := hnew
    unfold construct_dfa at h2
    simp only at h2
    cases hc : (NFA.mk sigma states q0 F delta eps none).epsilon_closure q0 with
    | error e => rw [hc] at h2; cases h2
    | ok init =>
      rw [hc] at h2
      simp only at h2
      split at h2
      · cases h2
      · simp only [Except.ok.injEq] at h2
        rw [← h2] at hMM
        simp only [Option.some.injEq] at hMM
        rw [← hMM]
  refine ⟨N, M, hN, by simp only [to_dfa, hMM], hsig, hclosure, hinit, ?_, ?_, hnodup, ?_, ?_⟩
  · intro X hX
    rw [hacc] at hX
    exact ((mem_dfa_accept_states _ _ _).mp hX).1
  · intro X hX c hc
    obtain ⟨T, hT, _, _⟩ := hdelta X hX c hc
    rw [hT]
    rfl
  · intro e he
    exact hkeys e.1 (List.mem_map_of_mem Prod.fst he)
  · intro e he
    have hfind : map_find M.delta_ e.1 = some e.2 :=
      map_find_of_mem_nodup M.delta_ e.1 e.2 hnodup he
    obtain ⟨hX, hc⟩ := hkeys e.1 (List.mem_map_of_mem Prod.fst he)
    obtain ⟨T, hT, hTmem, _⟩ := hdelta e.1.1 hX e.1.2 hc
    rw [hfind] at hT
    cases hT
    exact hTmem

/-- C39 (witness). The statement at the components of `nfa_small`. -/
theorem to_dfa_invariants_witness :
    Inv (NFA.mk [0, 1, 2] [10, 11, 12] 10 [12] [((10, 0), [11]), ((11, 1), [12])] 0
        (none : Option (DFA Nat (List Nat)))) ∧
      ∃ N M, NFA.new [0, 1, 2] [10, 11, 12] 10 [12] [((10, 0), [11]), ((11, 1), [12])] 0 =
          .ok N ∧ N.to_dfa = .ok M ∧ M.sigma_ = [1, 2] ∧
        M.initial_state_ ∈ M.states_ ∧ (M.delta_.map Prod.fst).Nodup := by
  have hinv : Inv (NFA.mk [0, 1, 2] [10, 11, 12] 10 [12]
      [((10, 0), [11]), ((11, 1), [12])] 0 none) :=
    ⟨by decide, by decide, by decide, by decide, by decide⟩
  obtain ⟨N, M, h1, h2, h3, _, h4, _, _, h5, _⟩ :=
    to_dfa_invariants [0, 1, 2] [10, 11, 12] 10 [12] [((10, 0), [11]), ((11, 1), [12])] 0 hinv
  exact ⟨hinv, N, M, h1, h2, h3, h4, h5⟩

end NFA

end Reglang

/-! ## Regex: a range inside a class -/

namespace Reglang

namespace Regex

theorem char_le_iff (c d : Char) : c ≤ d ↔ c.toNat ≤ d.toNat := by
  rw [Char.le_def]
  exact UInt32.le_def

theorem char_lt_iff (c d : Char) : c < d ↔ c.toNat < d.toNat := by
  rw [Char.lt_def]
  exact UInt32.lt_def

theorem char_eq_iff (c d : Char) : c = d ↔ c.toNat = d.toNat := by
  constructor
  · rintro rfl; rfl
  · intro h
    apply Char.ext
    apply UInt32.ext
    exact h

theorem isLower_iff (c : Char) : c.isLower = true ↔ 97 ≤ c.toNat ∧ c.toNat ≤ 122 := by
  simp only [Char.isLower, Bool.and_eq_true, decide_eq_true_eq, ge_iff_le, UInt32.le_def]
  rfl

theorem isUpper_iff (c : Char) : c.isUpper = true ↔ 65 ≤ c.toNat ∧ c.toNat ≤ 90 := by
  simp only [Char.isUpper, Bool.and_eq_true, decide_eq_true_eq, ge_iff_le, UInt32.le_def]
  rfl

theorem isDigit_iff (c : Char) : c.isDigit = true ↔ 48 ≤ c.toNat ∧ c.toNat ≤ 57 := by
  simp only [Char.isDigit, Bool.and_eq_true, decide_eq_true_eq, ge_iff_le, UInt32.le_def]
  rfl

theorem isAlphanum_iff (c : Char) :
    c.isAlphanum = true ↔ c.isLower = true ∨ c.isUpper = true ∨ c.isDigit = true := by
  simp only [Char.isAlphanum, Char.isAlpha, Bool.or_eq_true]
  tauto

theorem get_range_type_code (c : Char) :
    get_range_type c =
      if 97 ≤ c.toNat ∧ c.toNat ≤ 122 then 'a'
      else if 65 ≤ c.toNat ∧ c.toNat ≤ 90 then 'A'
      else if 48 ≤ c.toNat ∧ c.toNat ≤ 57 then '0'
      else 'i' := by
  unfold get_range_type
  simp only [char_le_iff]
  rfl

/-- For alphanumeric characters, `get_range_type` tells lowercase letters,
uppercase letters and digits apart. -/
theorem get_range_type_eq_iff (x y : Char) (hx : x.isAlphanum = true)
    (hy : y.isAlphanum = true) :
    get_range_type y = get_range_type x ↔
      (x.isLower = true ∧ y.isLower = true) ∨ (x.isUpper = true ∧ y.isUpper = true) ∨
        (x.isDigit = true ∧ y.isDigit = true) := by
  rw [isAlphanum_iff] at hx hy
  simp only [isLower_iff, isUpper_iff, isDigit_iff] at hx hy ⊢
  rw [get_range_type_code, get_range_type_code]
  have a1 : ('a' : Char) ≠ 'A' := by decide
  have a2 : ('a' : Char) ≠ '0' := by decide
  have a3 : ('A' : Char) ≠ '0' := by decide
  have a4 : ('A' : Char) ≠ 'a' := by decide
  have a5 : ('0' : Char) ≠ 'a' := by decide
  have a6 : ('0' : Char) ≠ 'A' := by decide
  split_ifs <;> constructor <;> intro h <;>
    first
    | omega
    | exact absurd h a1
    | exact absurd h a2
    | exact absurd h a3
    | exact absurd h a4
    | exact absurd h a5
    | exact absurd h a6
    | rfl

theorem append_range_eq : ∀ (count j : Nat) (ret : List Char),
    append_range count j ret =
      ret ++ (List.range count).flatMap (fun i => ['|', Char.ofNat (j + i)]) := by
  intro count
  induction count with
  | zero => intro j ret; simp [append_range]
  | succ count ih =>
    intro j ret
    have hfun : (fun a : Nat => ['|', Char.ofNat (j + a.succ)]) =
        (fun i => ['|', Char.ofNat (j + 1 + i)]) := by
      funext i
      rw [show j + i.succ = j + 1 + i by omega]
    rw [append_range, ih, List.range_succ_eq_map, List.flatMap_cons, List.flatMap_map, hfun]
    simp only [List.append_assoc, Nat.add_zero, List.cons_append, List.nil_append,
      List.singleton_append]

theorem scan_close_range (x y : Char) (hx1 : x ≠ '/') (hx2 : x ≠ ']')
    (hy1 : y ≠ '/') (hy2 : y ≠ ']') :
    scan_close ['[', x, '-', y, ']'] ']' .Regex_Invalid_Range_Error 6 0 = .ok 4 := by
  have c0 : char_at ['[', x, '-', y, ']'] 0 = .ok '[' := rfl
  have c1 : char_at ['[', x, '-', y, ']'] 1 = .ok x := rfl
  have c2 : char_at ['[', x, '-', y, ']'] 2 = .ok '-' := rfl
  have c3 : char_at ['[', x, '-', y, ']'] 3 = .ok y := rfl
  have c4 : char_at ['[', x, '-', y, ']'] 4 = .ok ']' := rfl
  have d0 : ('[' : Char) ≠ ']' := by decide
  have d1 : ('-' : Char) ≠ ']' := by decide
  have d2 : ('-' : Char) ≠ '/' := by decide
  have d3 : (']' : Char) ≠ '/' := by decide
  simp only [scan_close, c0, c1, c2, c3, c4, d0, d1, d2, d3, hx1, hx2, hy1, hy2, ne_eq,
    not_false_eq_true, not_true_eq_false, if_true, if_false, List.length_cons,
    List.length_nil, Nat.reduceAdd, ge_iff_le, Nat.reduceLeDiff]

theorem get_range_string_range (x y : Char) (hy2 : y ≠ ']')
    (hxt : get_range_type x ≠ 'i') :
    get_range_string ['[', x, '-', y, ']'] =
      if get_range_type y ≠ get_range_type x ∨ x > y then .error .Regex_Invalid_Range_Error
      else .ok (append_range (y.toNat - x.toNat) (x.toNat + 1) ['(', x] ++ [')']) := by
  have c1 : char_at ['[', x, '-', y, ']'] 1 = .ok x := rfl
  have c2 : char_at ['[', x, '-', y, ']'] 2 = .ok '-' := rfl
  have c3 : char_at ['[', x, '-', y, ']'] 3 = .ok y := rfl
  have d1 : ('-' : Char) ≠ ']' := by decide
  have d2 : ('-' : Char).isAlphanum = false := by decide
  unfold get_range_string
  have h1 : get_range_loop ['[', x, '-', y, ']'] 6 1 ['('] =
      if get_range_type y ≠ get_range_type x ∨ x > y then .error .Regex_Invalid_Range_Error
      else .ok (append_range (y.toNat - x.toNat) (x.toNat + 1) ['(', x]) := by
    rw [get_range_loop]
    simp only [c1, c2, c3, d1, d2, hy2, hxt, ne_eq, not_false_eq_true, not_true_eq_false,
      if_true, if_false, List.length_cons, List.length_nil, Nat.reduceAdd, Nat.reduceLT,
      Bool.false_eq_true, List.cons_append, List.nil_append]
    split
    · rfl
    · rw [get_range_loop]
      simp only [List.length_cons, List.length_nil, Nat.reduceAdd, Nat.lt_irrefl, if_false]
  by_cases hcond : get_range_type y ≠ get_range_type x ∨ x > y
  · simp only [List.length_cons, List.length_nil, Nat.reduceAdd, h1, if_pos hcond]
  · simp only [List.length_cons, List.length_nil, Nat.reduceAdd, h1, if_neg hcond]

theorem format_expression_range (x y : Char) (hx1 : x ≠ '/') (hx2 : x ≠ ']')
    (hy1 : y ≠ '/') (hy2 : y ≠ ']') (hxt : get_range_type x ≠ 'i') :
    format_expression ['[', x, '-', y, ']'] [] =
      if get_range_type y ≠ get_range_type x ∨ x > y then .error .Regex_Invalid_Range_Error
      else .ok (append_range (y.toNat - x.toNat) (x.toNat + 1) ['(', x] ++ [')']) := by
  have c0 : char_at ['[', x, '-', y, ']'] 0 = .ok '[' := rfl
  have hre : remove_epsilon [] false ['[', x, '-', y, ']'] = ['[', x, '-', y, ']'] := rfl
  have hsub : substr ['[', x, '-', y, ']'] 0 (4 + 1 - 0) = ['[', x, '-', y, ']'] := rfl
  unfold format_expression
  simp only [hre]
  rw [show ['[', x, '-', y, ']'].length + 1 = 6 from rfl, format_loop]
  by_cases hcond : get_range_type y ≠ get_range_type x ∨ x > y
  · simp only [List.length_cons, List.length_nil, Nat.reduceAdd, Nat.reduceLT, if_true,
      format_step, c0, scan_close_range x y hx1 hx2 hy1 hy2, hsub,
      get_range_string_range x y hy2 hxt, if_pos hcond]
  · simp only [List.length_cons, List.length_nil, Nat.reduceAdd, Nat.reduceLT, if_true,
      format_step, c0, scan_close_range x y hx1 hx2 hy1 hy2, hsub,
      get_range_string_range x y hy2 hxt, if_neg hcond, format_loop, Nat.lt_irrefl,
      if_false, ne_eq, not_true_eq_false, List.nil_append]

theorem alphanum_ne (c : Char) (h : c.isAlphanum = true) :
    c ≠ '/' ∧ c ≠ ']' ∧ get_range_type c ≠ 'i' := by
  rw [isAlphanum_iff] at h
  simp only [isLower_iff, isUpper_iff, isDigit_iff] at h
  have s1 : ('/' : Char).toNat = 47 := rfl
  have s2 : (']' : Char).toNat = 93 := rfl
  refine ⟨?_, ?_, ?_⟩
  · intro hc
    rw [char_eq_iff, s1] at hc
    omega
  · intro hc
    rw [char_eq_iff, s2] at hc
    omega
  · rw [get_range_type_code]
    split_ifs <;> first | decide | omega

/-- C33. For alphanumeric characters `x` and `y`: when both are lowercase
letters, both uppercase letters or both digits and `x ≤ y`, the class `[x-y]`
is normalized to `(x|…|y)`, the alternation of the characters with the codes
from that of `x` to that of `y` in order; otherwise the normalization and the
construction of the `Regex` fail with `Regex_Invalid_Range_Error`. -/
theorem class_range (x y : Char) (hx : x.isAlphanum = true) (hy : y.isAlphanum = true) :
    ((((x.isLower = true ∧ y.isLower = true) ∨ (x.isUpper = true ∧ y.isUpper = true) ∨
          (x.isDigit = true ∧ y.isDigit = true)) ∧ x ≤ y) →
        format_expression ['[', x, '-', y, ']'] [] =
          .ok (['(', x] ++
            (List.range (y.toNat - x.toNat)).flatMap
              (fun i => ['|', Char.ofNat (x.toNat + 1 + i)]) ++ [')'])) ∧
      (¬ (((x.isLower = true ∧ y.isLower = true) ∨ (x.isUpper = true ∧ y.isUpper = true) ∨
          (x.isDigit = true ∧ y.isDigit = true)) ∧ x ≤ y) →
        format_expression ['[', x, '-', y, ']'] [] = .error .Regex_Invalid_Range_Error ∧
          ∀ emptyset : List Char,
            Regex.new ['[', x, '-', y, ']'] [] emptyset = .error .Regex_Invalid_Range_Error) := by
  obtain ⟨hx1, hx2, hxt⟩ := alphanum_ne x hx
  obtain ⟨hy1, hy2, _⟩ := alphanum_ne y hy
  have hfmt := format_expression_range x y hx1 hx2 hy1 hy2 hxt
  have htype := get_range_type_eq_iff x y hx hy
  constructor
  · rintro ⟨hsame, hle⟩
    have hcond : ¬ (get_range_type y ≠ get_range_type x ∨ x > y) := by
      rintro (h | h)
      · exact h (htype.mpr hsame)
      · rw [gt_iff_lt, char_lt_iff] at h
        rw [char_le_iff] at hle
        omega
    rw [hfmt, if_neg hcond, append_range_eq]
  · intro hnot
    have hcond : get_range_type y ≠ get_range_type x ∨ x > y := by
      by_cases hsame : get_range_type y = get_range_type x
      · right
        have hle : ¬ x ≤ y := fun hle => hnot ⟨htype.mp hsame, hle⟩
        rw [char_le_iff] at hle
        rw [gt_iff_lt, char_lt_iff]
        omega
      · exact Or.inl hsame
    rw [if_pos hcond] at hfmt
    refine ⟨hfmt, fun emptyset => ?_⟩
    unfold Regex.new
    rw [hfmt]

/-- C33 (witness). The statement at the characters `a` and `e`. -/
theorem class_range_witness :
    ('a' : Char).isAlphanum = true ∧ ('e' : Char).isAlphanum = true ∧
      format_expression ['[', 'a', '-', 'e', ']'] [] =
        .ok ['(', 'a', '|', 'b', '|', 'c', '|', 'd', '|', 'e', ')'] :=
  ⟨by decide, by decide, (class_range 'a' 'e' (by decide) (by decide)).1 (by decide)⟩

end Regex

end Reglang

namespace Reglang
namespace Regex

end Regex
end Reglang
namespace Reglang
namespace Regex

end Regex
end Reglang
namespace Reglang
namespace Regex

end Regex
end Reglang
namespace Reglang
namespace Regex

end Regex
end Reglang
namespace Reglang
namespace Regex

end Regex

namespace NFA

variable {S Q : Type} [DecidableEq S] [DecidableEq Q]

end NFA
end Reglang
namespace Reglang
namespace NFA

variable {S Q : Type} [DecidableEq S] [DecidableEq Q]

theorem accepts_ok_true_iff (N : NFA S Q) (b : Bool) (w : List S)
    (h : N.accepts w = .ok b) : N.accepts w = .ok true ↔ b = true := by
  rw [h]
  constructor
  · intro h'; cases h'; rfl
  · intro h'; rw [h']

end NFA

namespace Regex

end Regex
end Reglang
namespace Reglang
namespace NFA

variable {S Q : Type} [DecidableEq S] [DecidableEq Q]

end NFA

namespace Regex

end Regex
end Reglang
namespace Reglang
namespace NFA

variable {S Q : Type} [DecidableEq S] [DecidableEq Q]

end NFA

namespace Regex

end Regex
end Reglang
namespace Reglang
namespace Regex

end Regex
end Reglang
namespace Reglang
namespace Regex

end Regex
end Reglang
namespace Reglang
namespace Regex

end Regex
end Reglang
namespace Reglang
namespace Regex

end Regex
end Reglang
